import Mathlib

/-! # Error-feedback gradient quantisation (`training/1bit_quantization/quantizer.h`)

A shallow embedding of the class `QuantizerBase`.  Tensors are shared pointers in
the source, so device memory is modelled explicitly: a `Tensor` is a handle into a
`Memory` that holds one `TensorBase` per allocated tensor, and every operation
passes the memory along.  Floating-point values are modelled by exact rationals.
-/

namespace marian

/-! ## Tensors and device memory -/

/-- Execution context a tensor is bound to (`Ptr<Backend>`); only its identity matters. -/
abbrev Backend := Nat

/-- Storage behind one dense tensor: the backend it lives on and its elements. -/
structure TensorBase where
  backend : Backend
  data : List ℚ
deriving DecidableEq

/-- A `Tensor` is a shared pointer to a `TensorBase`: here the index of its cell in memory. -/
abbrev Tensor := Nat

/-- Device memory: the cells of all tensors allocated so far, in allocation order. -/
abbrev Memory := List TensorBase

/-- Elements of the tensor behind handle `t` (`t->get(vector)`). -/
def tensorData (m : Memory) (t : Tensor) : List ℚ :=
  match m[t]? with
  | some c => c.data
  | none => []

/-- Element count of a tensor (`t->size()`). -/
def tensorSize (m : Memory) (t : Tensor) : Nat :=
  (tensorData m t).length

/-- Backend of a tensor (`t->getBackend()`). -/
def tensorBackend (m : Memory) (t : Tensor) : Backend :=
  match m[t]? with
  | some c => c.backend
  | none => 0

/-- Overwrite the elements of the tensor behind handle `t`; other cells are untouched. -/
def tensorWrite (m : Memory) (t : Tensor) (vs : List ℚ) : Memory :=
  match m[t]? with
  | some c => m.set t { c with data := vs }
  | none => m

/-- Single-element store `t->set(i, v)`. -/
def tensorSet (m : Memory) (t : Tensor) (i : Nat) (v : ℚ) : Memory :=
  tensorWrite m t ((tensorData m t).set i v)

/-! ## External collaborators -/

/-- Size in bytes of one `float`. -/
def sizeof_float : Nat := 4

/-- Allocator handle kept in the pool: its backend and the bytes it has reserved. -/
structure TensorAllocator where
  backend : Backend
  reserved : Nat
deriving DecidableEq

/-- Modelled from the spec: `New<TensorAllocator>(backend)` of `tensors/tensor_allocator.h`,
which is not among the sources; a new allocator is bound to the backend and owns no
memory yet. -/
def TensorAllocator.create (backend : Backend) : TensorAllocator :=
  ⟨backend, 0⟩

/-- Modelled from the spec: `TensorAllocator::reserveExact(bytes)` of
`tensors/tensor_allocator.h`, which is not among the sources; it reserves device
memory of the given byte size. -/
def TensorAllocator.reserveExact (a : TensorAllocator) (bytes : Nat) : TensorAllocator :=
  { a with reserved := bytes }

/-- Modelled from the spec: `TensorAllocator::allocate(t, shape)` of
`tensors/tensor_allocator.h`, which is not among the sources; it materialises a new
tensor of shape `{1, size}` on the allocator's backend.  The spec states that the
tensor allocated this way for the residual is zero-initialised, so the new cell holds
zeros.  The handle of the new tensor is returned with the extended memory. -/
def TensorAllocator.allocate (a : TensorAllocator) (m : Memory) (size : Nat) :
    Memory × Tensor :=
  (m ++ [⟨a.backend, List.replicate size 0⟩], m.length)

/-- Result of applying `f` to every element of `out` and the element of `arg` at the
same position: `List.zipWith f` on operands of equal length, the only case the spec
defines.  The equations for an `arg` that is shorter or longer than `out` merely make
the function total; a call of the evaluator on such operands is a contract violation,
see `ElementChecked`. -/
def elementwise (f : ℚ → ℚ → ℚ) : List ℚ → List ℚ → List ℚ
  | [], _ => []
  | x :: xs, [] => f x 0 :: elementwise f xs []
  | x :: xs, y :: ys => f x y :: elementwise f xs ys

/-- Modelled from the spec: the elementwise evaluator `Element(_1 = f(_1, _2), out, arg)`
of `tensors/tensor_operators.h`, which is not among the sources: in-place vectorised
binary arithmetic that stores `f(out[i], arg[i])` into `out[i]` for every element of
`out`. -/
def Element (f : ℚ → ℚ → ℚ) (m : Memory) (out arg : Tensor) : Memory :=
  tensorWrite m out (elementwise f (tensorData m out) (tensorData m arg))

/-- Modelled from the spec: the device primitives `quantize_do` and `dequantize_do`
are declared in the class (lines 27-28) but defined outside the sources.  Per the
spec the quantize primitive maps the dense tensor to the packed tensor plus a scalar
step, and the dequantize primitive is the inverse mapping that writes real values
into the output tensor.  The output buffer is handed over by its element count
only, and the two laws say that a primitive fills exactly that buffer. -/
structure Primitives where
  quantize_do : List ℚ → Nat → Int → List ℚ × ℚ
  dequantize_do : Nat → List ℚ → ℚ → Int → List ℚ
  quantize_do_size : ∀ t n b, (quantize_do t n b).1.length = n
  dequantize_do_size : ∀ n q s b, (dequantize_do n q s b).length = n

/-- Call `quantize_do(t, quantized, quantize_bit)` on tensors in memory: the packed
tensor is overwritten and the step is returned. -/
def quantize_do (P : Primitives) (m : Memory) (t quantized : Tensor) (quantize_bit : Int) :
    Memory × ℚ :=
  (tensorWrite m quantized
      (P.quantize_do (tensorData m t) (tensorSize m quantized) quantize_bit).1,
    (P.quantize_do (tensorData m t) (tensorSize m quantized) quantize_bit).2)

/-- Call `dequantize_do(t, quantized, avg, quantize_bit)` on tensors in memory: `t`
is overwritten with the reconstruction. -/
def dequantize_do (P : Primitives) (m : Memory) (t quantized : Tensor) (avg : ℚ)
    (quantize_bit : Int) : Memory :=
  tensorWrite m t
    (P.dequantize_do (tensorSize m t) (tensorData m quantized) avg quantize_bit)

/-! ## Numeric policy of the primitives -/

/-- Modelled from the spec: the primitives are defined outside the sources; the
spec partitions the range into `2^bits` levels, so the highest level index is
`2^bits - 1`. -/
def maxLevel (bits : Int) : ℚ :=
  2 ^ bits.toNat - 1

/-- Modelled from the spec: `step = range / (2^bits - 1)`, the primitives being
defined outside the sources. -/
def quantStep (range : ℚ) (bits : Int) : ℚ :=
  range / maxLevel bits

/-- Modelled from the spec: the level a value is quantised to, the primitives being
defined outside the sources: the nearest level (round-to-nearest) of a range that
starts at the offset `lo` and is `range` wide. -/
def quantize_level (lo range : ℚ) (bits : Int) (v : ℚ) : Int :=
  round ((v - lo) / quantStep range bits)

/-- Modelled from the spec: dequantisation of one level, the primitives being defined
outside the sources: the affine map `level * step` plus the range offset. -/
def dequantize_level (lo step : ℚ) (level : Int) : ℚ :=
  level * step + lo

/-- Largest magnitude among the elements. -/
def maxAbs (t : List ℚ) : ℚ :=
  t.foldl (fun a v => max a |v|) 0

/-- Number of `bits`-wide fields in one 32-bit word. -/
def valuesPerWord (bits : Int) : Nat :=
  32 / bits.toNat

/-- Pack level indices into one word, the first index in the lowest bits. -/
def packWord (bits : Int) (levels : List Nat) : Nat :=
  levels.foldr (fun l acc => l + 2 ^ bits.toNat * acc) 0

/-- Packed tensor of `words` words holding the level indices in element order. -/
def pack (bits : Int) (levels : List Nat) (words : Nat) : List ℚ :=
  (List.range words).map fun j =>
    ((packWord bits ((levels.drop (j * valuesPerWord bits)).take (valuesPerWord bits)) : Nat) : ℚ)

/-- Level index of element `i` read back from a packed tensor. -/
def unpackLevel (bits : Int) (packed : List ℚ) (i : Nat) : Nat :=
  ((packed.getD (i / valuesPerWord bits) 0).num.toNat /
    2 ^ (bits.toNat * (i % valuesPerWord bits))) % 2 ^ bits.toNat

/-- Modelled from the spec: a reference instance of the primitives, which are defined
outside the sources, following the spec's numeric policy with the symmetric range
around zero sized to the data's extrema: `step = 2 * max|v| / (2^bits - 1)`, levels
by round-to-nearest, `32 / bits` level indices per word, and dequantisation
`level * step` plus the offset `-(step * (2^bits - 1) / 2)`. -/
def referencePrimitives : Primitives where
  quantize_do t n bit :=
    (pack bit (t.map fun v => (quantize_level (-(maxAbs t)) (2 * maxAbs t) bit v).toNat) n,
      quantStep (2 * maxAbs t) bit)
  dequantize_do n packed step bit :=
    (List.range n).map fun i =>
      dequantize_level (-(step * maxLevel bit / 2)) step (unpackLevel bit packed i)
  quantize_do_size := by intro t n b; simp [pack]
  dequantize_do_size := by intro n q s b; simp

/-! ## The class `QuantizerBase` -/

/-- Fields of `QuantizerBase` (lines 12-15); a null `Tensor` is `none`. -/
structure QuantizerBase where
  residual : Option Tensor
  tmp : Option Tensor
  allocators : List TensorAllocator
deriving DecidableEq

namespace QuantizerBase

/-- Constructor `QuantizerBase() {}` (line 31): null tensors and an empty pool. -/
def construct : QuantizerBase :=
  ⟨none, none, []⟩

/-- Method `newTensor(size, backend)` (lines 17-25): a new allocator reserves
`size * sizeof(float)` bytes, allocates a `{1, size}` tensor and joins the pool. -/
def newTensor (self : QuantizerBase) (m : Memory) (size : Nat) (backend : Backend) :
    QuantizerBase × Memory × Tensor :=
  ({ self with
      allocators := self.allocators ++
        [(TensorAllocator.create backend).reserveExact (size * sizeof_float)] },
    (((TensorAllocator.create backend).reserveExact (size * sizeof_float)).allocate m size).1,
    (((TensorAllocator.create backend).reserveExact (size * sizeof_float)).allocate m size).2)

/-- Accessor `error()` (lines 34-36): the residual handle itself. -/
def error (self : QuantizerBase) : Option Tensor :=
  self.residual

/-- Lines 77-79 of `quantize`: allocate the residual when it is still null.  Returns
the instance, the memory and the (now non-null) residual handle. -/
def ensureResidual (self : QuantizerBase) (m : Memory) (t : Tensor) :
    QuantizerBase × Memory × Tensor :=
  match self.residual with
  | some r => (self, m, r)
  | none =>
    ({ (self.newTensor m (tensorSize m t) (tensorBackend m t)).1 with
        residual := some (self.newTensor m (tensorSize m t) (tensorBackend m t)).2.2 },
      (self.newTensor m (tensorSize m t) (tensorBackend m t)).2.1,
      (self.newTensor m (tensorSize m t) (tensorBackend m t)).2.2)

/-- Lines 77-83 of `quantize`: the state in which `quantize_do` is about to be called,
after `Element(_1 = _1 + _2, residual, t)`. -/
def accumulate (self : QuantizerBase) (m : Memory) (t : Tensor) :
    QuantizerBase × Memory × Tensor :=
  ((self.ensureResidual m t).1,
    Element (fun a b => a + b) (self.ensureResidual m t).2.1 (self.ensureResidual m t).2.2 t,
    (self.ensureResidual m t).2.2)

/-- Method `quantize(t, quantized, quantize_bit)` (lines 76-93).  Returns the instance,
the memory and the step. -/
def quantize (P : Primitives) (self : QuantizerBase) (m : Memory) (t quantized : Tensor)
    (quantize_bit : Int) : QuantizerBase × Memory × ℚ :=
  let a := self.accumulate m t
  let q := quantize_do P a.2.1 a.2.2 quantized quantize_bit
  let d := dequantize_do P q.1 t quantized q.2 quantize_bit
  (a.1, Element (fun x y => x - y) d a.2.2 t, q.2)

/-- Method `dequantize(t, quantized, avg, quantize_bit)` (lines 95-97). -/
def dequantize (P : Primitives) (self : QuantizerBase) (m : Memory) (t quantized : Tensor)
    (avg : ℚ) (quantize_bit : Int) : QuantizerBase × Memory :=
  (self, dequantize_do P m t quantized avg quantize_bit)

/-- Value stored at line 55 for a result `r` of `rand()`:
`((r % 1000) / 10000.0) - 0.05`. -/
def testValue (r : Nat) : ℚ :=
  ((r % 1000 : Nat) : ℚ) / 10000 - 5 / 100

/-- Lines 54-56 of `test`: `t->set(i, ...)` for `i < size`, where the `i`-th call of
`rand()` in this loop returns `rnd (k + i)`. -/
def fillRandom (rnd : Nat → Nat) (k : Nat) (m : Memory) (t : Tensor) (size : Nat) : Memory :=
  (List.range size).foldl (fun acc i => tensorSet acc t i (testValue (rnd (k + i)))) m

/-- One block of log lines written by `test` for a bit-width (lines 65-70). -/
structure TestLog where
  bit : Int
  originalBits : Nat
  quantizedBits : Nat
  step : ℚ
  values : List (ℚ × ℚ)
deriving DecidableEq

/-- State threaded through the loop of `test`: the instance, the memory, the number of
`rand()` calls made so far and the log. -/
structure TestState where
  self : QuantizerBase
  mem : Memory
  calls : Nat
  log : List TestLog

/-- Element count passed to `newTensor` at line 50: the `int` expression
`size * bit / 32`. -/
def packedSize (size : Nat) (bit : Int) : Nat :=
  (Int.tdiv ((size : Int) * bit) 32).toNat

/-- Body of the loop of `test` (lines 46-72) for one bit-width. -/
def testBit (P : Primitives) (backend : Backend) (rnd : Nat → Nat) (size : Nat) (t : Tensor)
    (s : TestState) (bit : Int) : TestState :=
  let a := s.self.newTensor s.mem (packedSize size bit) backend
  let quantized := a.2.2
  let m1 := fillRandom rnd s.calls a.2.1 t size
  let q := quantize_do P m1 t quantized bit
  let ori := tensorData q.1 t
  let m3 := dequantize_do P q.1 t quantized q.2 bit
  let quant := tensorData m3 t
  ⟨a.1, m3, s.calls + size,
    s.log ++ [⟨bit, tensorSize m3 t * 32, tensorSize m3 quantized * 32, q.2,
      (List.range 11).map fun j => (ori.getD j 0, quant.getD j 0)⟩]⟩

/-- Bit-widths swept by `test` (line 45). -/
def testBits : List Int := [1, 2, 4, 8, 16]

/-- Method `test(backend)` (lines 38-74); `rnd k` is the result of the `k`-th call of
`rand()` made by this run. -/
def test (P : Primitives) (self : QuantizerBase) (m : Memory) (backend : Backend)
    (rnd : Nat → Nat) : QuantizerBase × Memory × List TestLog :=
  let a := self.newTensor m 32 backend
  let s := testBits.foldl (testBit P backend rnd 32 a.2.2) ⟨a.1, a.2.1, 0, []⟩
  (s.self, s.mem, s.log)

end QuantizerBase

/-! ## Call sequences -/

/-- A call a client can make on an instance. -/
inductive Call where
  | quantize (t quantized : Tensor) (quantize_bit : Int)
  | dequantize (t quantized : Tensor) (avg : ℚ) (quantize_bit : Int)
  | error
  | test (backend : Backend) (rnd : Nat → Nat)

/-- Calls of the production path: `quantize` and `dequantize`. -/
def Call.isProduction : Call → Bool
  | Call.quantize _ _ _ => true
  | Call.dequantize _ _ _ _ => true
  | Call.error => false
  | Call.test _ _ => false

/-- Calls of the self-test. -/
def Call.isTest : Call → Bool
  | Call.test _ _ => true
  | _ => false

/-- Effect of one call on the instance and the memory. -/
def step (P : Primitives) (s : QuantizerBase × Memory) : Call → QuantizerBase × Memory
  | Call.quantize t quantized bit =>
    ((s.1.quantize P s.2 t quantized bit).1, (s.1.quantize P s.2 t quantized bit).2.1)
  | Call.dequantize t quantized avg bit => s.1.dequantize P s.2 t quantized avg bit
  | Call.error => s
  | Call.test backend rnd => ((s.1.test P s.2 backend rnd).1, (s.1.test P s.2 backend rnd).2.1)

/-- Effect of a sequence of calls. -/
def run (P : Primitives) (s : QuantizerBase × Memory) (calls : List Call) :
    QuantizerBase × Memory :=
  calls.foldl (step P) s

/-- One training round of the optimiser loop: the gradient `gradient` is produced in
the caller's tensor `t` and `quantize(t, quantized, bit)` is called. -/
structure QuantizeCall where
  t : Tensor
  quantized : Tensor
  gradient : List ℚ
  bit : Int

/-- What a round leaves behind: the returned step, the packed tensor, the dequantised
gradient left in `t`, and the residual. -/
structure RoundOutput where
  step : ℚ
  packed : List ℚ
  dequantized : List ℚ
  residual : List ℚ
deriving DecidableEq

/-- Contents of the residual of an instance (empty while it is null). -/
def residualData (self : QuantizerBase) (m : Memory) : List ℚ :=
  match self.residual with
  | some r => tensorData m r
  | none => []

/-- Run one round: store the gradient in `t`, call `quantize`, read the results. -/
def trainingRound (P : Primitives) (s : QuantizerBase × Memory) (c : QuantizeCall) :
    (QuantizerBase × Memory) × RoundOutput :=
  let o := s.1.quantize P (tensorWrite s.2 c.t c.gradient) c.t c.quantized c.bit
  ((o.1, o.2.1),
    ⟨o.2.2, tensorData o.2.1 c.quantized, tensorData o.2.1 c.t, residualData o.1 o.2.1⟩)

/-- Run successive rounds on one instance, collecting the outputs. -/
def trainingRounds (P : Primitives) (s : QuantizerBase × Memory) :
    List QuantizeCall → (QuantizerBase × Memory) × List RoundOutput
  | [] => (s, [])
  | c :: cs => ((trainingRounds P (trainingRound P s c).1 cs).1, (trainingRound P s c).2 :: (trainingRounds P (trainingRound P s c).1 cs).2)

/-- Two instances sharing one device memory. -/
structure Pair where
  first : QuantizerBase
  second : QuantizerBase
  mem : Memory

/-- Feed one round to the first instance and then the same round to the second. -/
def roundBoth (P : Primitives) (s : Pair) (c : QuantizeCall) :
    Pair × RoundOutput × RoundOutput :=
  let a := trainingRound P (s.first, s.mem) c
  let b := trainingRound P (s.second, a.1.2) c
  (⟨a.1.1, b.1.1, b.1.2⟩, a.2, b.2)

/-- Feed the same rounds to both instances, collecting the outputs of both. -/
def roundsBoth (P : Primitives) (s : Pair) :
    List QuantizeCall → Pair × List (RoundOutput × RoundOutput)
  | [] => (s, [])
  | c :: cs =>
    ((roundsBoth P (roundBoth P s c).1 cs).1,
      (roundBoth P s c).2 :: (roundsBoth P (roundBoth P s c).1 cs).2)

/-! ## Concrete scenarios -/

/-- Gradient of the spec's concrete scenario: `[0.03, -0.04, 0.01, -0.02]`. -/
def scenarioGradient : List ℚ :=
  [3 / 100, -4 / 100, 1 / 100, -2 / 100]

/-- Memory of the scenario before the first call: the gradient tensor (handle `0`)
and a one-word packed tensor (handle `1`). -/
def scenarioMemory : Memory :=
  [⟨0, scenarioGradient⟩, ⟨0, [0]⟩]

/-- A ready instance whose residual is the tensor with handle `2`. -/
def readyInstance : QuantizerBase :=
  ⟨some 2, none, [⟨0, 2 * sizeof_float⟩]⟩

/-- Memory of the ready instance: a two-element gradient (handle `0`), a one-word
packed tensor (handle `1`) and the two-element residual (handle `2`). -/
def readyMemory : Memory :=
  [⟨0, [3 / 100, -4 / 100]⟩, ⟨0, [0]⟩, ⟨0, [1 / 100, 1 / 100]⟩]

/-- Two training rounds on the scenario's tensors, the second with one bit. -/
def scenarioCalls : List QuantizeCall :=
  [⟨0, 1, scenarioGradient, 8⟩, ⟨0, 1, [1 / 100, 1 / 100, -1 / 100, 0], 1⟩]

/-- Memory `m2` extends `m1`: no tensor of `m1` has disappeared or changed its
element count. -/
def MemExtends (m1 m2 : Memory) : Prop :=
  m1.length ≤ m2.length ∧ ∀ a, a < m1.length → tensorSize m2 a = tensorSize m1 a

namespace data

/-! # Batch construction (`data/corpus.h`)

A shallow embedding of `Corpus::toBatch`, `Corpus::addAlignmentsToBatch` and
`Corpus::addWeightsToBatch`.  Vectors are lists; an access the C++ code makes without a
bounds check is made with a check here, and a function returns `none` as soon as it
would read or write past the end of a vector.  Sizes are natural numbers: the `int`
and `size_t` arithmetic of the source is taken not to overflow. -/

/-- Vocabulary index of one word (`Word`). -/
abbrev Word := Nat

/-- One sentence (`Words`). -/
abbrev Words := List Word

/-- Modelled from the spec: the sentence tuple `sample` of `data/corpus_base.h`, which
is not among the sources, reduced to what `corpus.h` reads from it: `getId()`, the
streams (`size()`, `operator[]`), `getAlignment()` as a list of points `(sid, tid)`,
and `getWeights()`. -/
structure SentenceTuple where
  id : Nat
  tuple : List Words
  alignment : List (Nat × Nat)
  weights : List ℚ

/-- Modelled from the spec: `SubBatch` of `data/corpus_base.h`, which is not among the
sources: the word indices and the mask, both of `size * width` entries laid out
time-major, the batch size, the width and the word count. -/
structure SubBatch where
  indices : List Word
  mask : List ℚ
  size : Nat
  width : Nat
  words : Nat
deriving DecidableEq

/-- Modelled from the spec: constructor `SubBatch(size, width)` of
`data/corpus_base.h`, which is not among the sources.  Both arrays get
`size * width` entries; the value they are filled with is not visible in the sources
and is taken as a parameter (`pad` for the indices, `padMask` for the mask). -/
def SubBatch.create (pad : Word) (padMask : ℚ) (size width : Nat) : SubBatch :=
  ⟨List.replicate (size * width) pad, List.replicate (size * width) padMask, size, width, 0⟩

/-- Setter `setWords(words)`. -/
def SubBatch.setWords (sb : SubBatch) (words : Nat) : SubBatch :=
  { sb with words := words }

/-- Accessor `batchWidth()`. -/
def SubBatch.batchWidth (sb : SubBatch) : Nat :=
  sb.width

/-- Modelled from the spec: `CorpusBatch` of `data/corpus_base.h`, which is not among
the sources: the sub-batches and what the setters used in `corpus.h` store. -/
structure CorpusBatch where
  subBatches : List SubBatch
  sentenceIds : List Nat
  guidedAlignment : List ℚ
  dataWeights : List ℚ
deriving DecidableEq

/-- Options read by `toBatch`: `has("guided-alignment")`, `has("data-weighting")` and
`get<std::string>("data-weighting-type")`. -/
structure Config where
  guidedAlignment : Bool
  dataWeighting : Bool
  dataWeightingType : String

/-- Stream `batchVector[i][j]` (empty when there is none). -/
def stream (batchVector : List SentenceTuple) (i j : Nat) : Words :=
  match batchVector[i]? with
  | some ex => ex.tuple.getD j []
  | none => []

/-- Alignment points `batchVector[b].getAlignment()` (none when there is no such sample). -/
def alignmentOf (batchVector : List SentenceTuple) (b : Nat) : List (Nat × Nat) :=
  match batchVector[b]? with
  | some ex => ex.alignment
  | none => []

/-- Weights `batchVector[b].getWeights()` (none when there is no such sample). -/
def weightsOf (batchVector : List SentenceTuple) (b : Nat) : List ℚ :=
  match batchVector[b]? with
  | some ex => ex.weights
  | none => []

namespace Corpus

/-- Lines 67-68 of `toBatch`: `maxDims.resize(ex.size(), 0)` when `maxDims` is shorter. -/
def resizeDims (maxDims : List Nat) (n : Nat) : List Nat :=
  if maxDims.length < n then maxDims ++ List.replicate (n - maxDims.length) 0 else maxDims

/-- Lines 69-72 of `toBatch`: raise `maxDims[i]` to `ex[i].size()` for every stream of
`ex`, walking `maxDims` and the streams together. -/
def raiseDims : List Nat → List Words → List Nat
  | d :: ds, ws :: rest => (if ws.length > d then ws.length else d) :: raiseDims ds rest
  | ds, [] => ds
  | [], _ :: _ => []

/-- Lines 65-74 of `toBatch`: the widths `maxDims`. -/
def maxDims (batchVector : List SentenceTuple) : List Nat :=
  batchVector.foldl (fun dims ex => raiseDims (resizeDims dims ex.tuple.length) ex.tuple) []

/-- Lines 63-74 of `toBatch`: the sentence ids, pushed in input order. -/
def sentenceIds (batchVector : List SentenceTuple) : List Nat :=
  batchVector.map fun ex => ex.id

/-- Lines 76-79 of `toBatch`: one `SubBatch(batchSize, m)` per entry of `maxDims`. -/
def createSubBatches (pad : Word) (padMask : ℚ) (batchVector : List SentenceTuple) :
    List SubBatch :=
  (maxDims batchVector).map fun m => SubBatch.create pad padMask batchVector.length m

/-- Lines 85-86 of `toBatch`: the two stores at position `k * batchSize + i`. -/
def writeWord (batchSize i k : Nat) (w : Word) (sb : SubBatch) : Option SubBatch :=
  if k * batchSize + i < sb.indices.length ∧ k * batchSize + i < sb.mask.length then
    some { sb with
      indices := sb.indices.set (k * batchSize + i) w
      mask := sb.mask.set (k * batchSize + i) 1 }
  else none

/-- Lines 84-88 of `toBatch`: the loop over `k` for one stream, from position `k` on;
the state pairs `subBatches[j]` with `words[j]`. -/
def fillStream (batchSize i : Nat) : Words → Nat → SubBatch × Nat → Option (SubBatch × Nat)
  | [], _, s => some s
  | w :: ws, k, s =>
    match writeWord batchSize i k w s.1 with
    | none => none
    | some sb => fillStream batchSize i ws (k + 1) (sb, s.2 + 1)

/-- Lines 83-89 of `toBatch`: the loop over `j < maxDims.size()` for sample `i`,
walking the streams of the sample and the sub-batches together; a sub-batch without a
stream is the read of `batchVector[i][j]` past the end of the sample. -/
def fillSample (batchSize i : Nat) :
    List Words → List (SubBatch × Nat) → Option (List (SubBatch × Nat))
  | _, [] => some []
  | [], _ :: _ => none
  | ws :: rest, s :: ss =>
    match fillStream batchSize i ws 0 s with
    | none => none
    | some s1 =>
      match fillSample batchSize i rest ss with
      | none => none
      | some ss1 => some (s1 :: ss1)

/-- Lines 82-90 of `toBatch`: the loop over the sample numbers `i`. -/
def fillBatch (batchSize : Nat) (batchVector : List SentenceTuple) :
    List Nat → List (SubBatch × Nat) → Option (List (SubBatch × Nat))
  | [], s => some s
  | i :: is, s =>
    match batchVector[i]? with
    | none => none
    | some ex =>
      match fillSample batchSize i ex.tuple s with
      | none => none
      | some s1 => fillBatch batchSize batchVector is s1

/-- Lines 60-96 of `toBatch`: the batch before alignments and weights are added. -/
def buildBatch (pad : Word) (padMask : ℚ) (batchVector : List SentenceTuple) :
    Option CorpusBatch :=
  match fillBatch batchVector.length batchVector (List.range batchVector.length)
      ((createSubBatches pad padMask batchVector).map fun sb => (sb, 0)) with
  | none => none
  | some filled =>
    some ⟨filled.map fun s => s.1.setWords s.2, sentenceIds batchVector, [], []⟩

/-- Line 122 of `addAlignmentsToBatch`: `b + sid * dimBatch + tid * srcWords * dimBatch`. -/
def alignIndex (dimBatch srcWords b sid tid : Nat) : Nat :=
  b + sid * dimBatch + tid * srcWords * dimBatch

/-- Lines 118-124 of `addAlignmentsToBatch`: the loop over the alignment points of
sentence `b`. -/
def markAlignment (dimBatch srcWords b : Nat) : List (Nat × Nat) → List ℚ → Option (List ℚ)
  | [], aligns => some aligns
  | p :: ps, aligns =>
    if alignIndex dimBatch srcWords b p.1 p.2 < aligns.length then
      markAlignment dimBatch srcWords b ps
        (aligns.set (alignIndex dimBatch srcWords b p.1 p.2) 1)
    else none

/-- Lines 117-125 of `addAlignmentsToBatch`: the loop over the sentences `b`. -/
def alignmentLoop (dimBatch srcWords : Nat) (batchVector : List SentenceTuple) :
    List Nat → List ℚ → Option (List ℚ)
  | [], aligns => some aligns
  | b :: bs, aligns =>
    match batchVector[b]? with
    | none => none
    | some ex =>
      match markAlignment dimBatch srcWords b ex.alignment aligns with
      | none => none
      | some aligns1 => alignmentLoop dimBatch srcWords batchVector bs aligns1

/-- Method `addAlignmentsToBatch(batch, batchVector)` (lines 110-127); `front()` and
`back()` of an empty vector of sub-batches are out-of-bounds reads. -/
def addAlignmentsToBatch (batch : CorpusBatch) (batchVector : List SentenceTuple) :
    Option CorpusBatch :=
  match batch.subBatches.head?, batch.subBatches.getLast? with
  | some front, some back =>
    match alignmentLoop batch.sentenceIds.length front.batchWidth batchVector
        (List.range batch.sentenceIds.length)
        (List.replicate (batch.sentenceIds.length * front.batchWidth * back.batchWidth) 0) with
    | none => none
    | some aligns => some { batch with guidedAlignment := aligns }
  | _, _ => none

/-- Lines 143-147 of `addWeightsToBatch`: the loop over the weights of sentence `b`,
from weight `i` on. -/
def storeWeights (dimBatch b : Nat) : List ℚ → Nat → List ℚ → Option (List ℚ)
  | [], _, weights => some weights
  | w :: rest, i, weights =>
    if b + i * dimBatch < weights.length then
      storeWeights dimBatch b rest (i + 1) (weights.set (b + i * dimBatch) w)
    else none

/-- Lines 139-149 of `addWeightsToBatch`: the loop over the sentences `b`; `front()` of
an empty vector of weights is an out-of-bounds read. -/
def weightsLoop (sentenceLevel : Bool) (dimBatch : Nat) (batchVector : List SentenceTuple) :
    List Nat → List ℚ → Option (List ℚ)
  | [], weights => some weights
  | b :: bs, weights =>
    match batchVector[b]? with
    | none => none
    | some ex =>
      if sentenceLevel then
        match ex.weights.head? with
        | none => none
        | some w =>
          if b < weights.length then
            weightsLoop sentenceLevel dimBatch batchVector bs (weights.set b w)
          else none
      else
        match storeWeights dimBatch b ex.weights 0 weights with
        | none => none
        | some weights1 => weightsLoop sentenceLevel dimBatch batchVector bs weights1

/-- Method `addWeightsToBatch(batch, batchVector)` (lines 129-152). -/
def addWeightsToBatch (options : Config) (batch : CorpusBatch)
    (batchVector : List SentenceTuple) : Option CorpusBatch :=
  match batch.subBatches.getLast? with
  | none => none
  | some back =>
    match weightsLoop (options.dataWeightingType == "sentence") batch.sentenceIds.length
        batchVector (List.range batch.sentenceIds.length)
        (List.replicate
          (if options.dataWeightingType == "sentence" then batch.sentenceIds.length
            else batch.sentenceIds.length * back.batchWidth) 1) with
    | none => none
    | some weights => some { batch with dataWeights := weights }

/-- Method `toBatch(batchVector)` (lines 60-104). -/
def toBatch (options : Config) (pad : Word) (padMask : ℚ)
    (batchVector : List SentenceTuple) : Option CorpusBatch :=
  match buildBatch pad padMask batchVector with
  | none => none
  | some batch =>
    match (if options.guidedAlignment then addAlignmentsToBatch batch batchVector
        else some batch) with
    | none => none
    | some batch1 =>
      if options.dataWeighting then addWeightsToBatch options batch1 batchVector
      else some batch1

end Corpus

/-- Strided store used to describe the loops: `vals[k]` goes to position
`(k0 + k) * stride + offset`, each store being checked against the length. -/
def stridedStore {α : Type} (stride offset : Nat) : List α → Nat → List α → Option (List α)
  | [], _, xs => some xs
  | v :: vs, k0, xs =>
    if k0 * stride + offset < xs.length then
      stridedStore stride offset vs (k0 + 1) (xs.set (k0 * stride + offset) v)
    else none

/-! ## Concrete batches -/

/-- Two samples with two streams each (source and target). -/
def sampleBatch : List SentenceTuple :=
  [⟨10, [[5, 6, 7], [8, 9]], [(0, 0), (2, 1)], [1 / 2, 1 / 4]⟩,
    ⟨11, [[3], [4, 2, 1]], [(0, 2)], [3 / 4, 1, 1 / 8]⟩]

/-- Source sub-batch that `toBatch` builds for `sampleBatch` (padding 0). -/
def sampleFront : SubBatch := ⟨[5, 3, 6, 0, 7, 0], [1, 1, 1, 0, 1, 0], 2, 3, 4⟩

/-- Target sub-batch that `toBatch` builds for `sampleBatch` (padding 0). -/
def sampleBack : SubBatch := ⟨[8, 4, 9, 2, 0, 1], [1, 1, 1, 1, 0, 1], 2, 3, 5⟩

/-- Batch that `toBatch` builds for `sampleBatch` before alignments and weights. -/
def sampleCorpusBatch : CorpusBatch := ⟨[sampleFront, sampleBack], [10, 11], [], []⟩

/-- One sample whose only alignment point `(2, 0)` lies outside its two source words. -/
def strayAlignment : List SentenceTuple :=
  [⟨7, [[5, 6], [8, 9]], [(2, 0)], []⟩]

/-- Two samples, the second with one stream less than the first. -/
def raggedBatch : List SentenceTuple :=
  [⟨0, [[5, 6], [8]], [], []⟩, ⟨1, [[3]], [], []⟩]

end data

/-! # Theorems -/

open QuantizerBase

/-! ## Memory lemmas -/

theorem tensorData_tensorWrite (m : Memory) (a b : Tensor) (vs : List ℚ) :
    tensorData (tensorWrite m a vs) b =
      if a = b ∧ a < m.length then vs else tensorData m b := by
  unfold tensorWrite
  cases h : m[a]? with
  | none =>
    have hlen : ¬ a < m.length := by
      intro hlt
      rw [List.getElem?_eq_getElem hlt] at h
      exact Option.noConfusion h
    simp [hlen]
  | some c =>
    have hlt : a < m.length := by
      by_contra hge
      rw [List.getElem?_eq_none (Nat.le_of_not_lt hge)] at h
      exact Option.noConfusion h
    by_cases hab : a = b
    · subst hab
      simp [tensorData, List.getElem?_set, hlt]
    · simp [tensorData, List.getElem?_set, hab]

theorem length_tensorWrite (m : Memory) (a : Tensor) (vs : List ℚ) :
    (tensorWrite m a vs).length = m.length := by
  unfold tensorWrite
  cases m[a]? <;> simp

theorem tensorSize_tensorWrite (m : Memory) (a b : Tensor) (vs : List ℚ)
    (h : vs.length = tensorSize m a) :
    tensorSize (tensorWrite m a vs) b = tensorSize m b := by
  unfold tensorSize at *
  rw [tensorData_tensorWrite]
  split
  · rename_i hab
    rw [← hab.1, h]
  · rfl

theorem tensorData_append_left (m : Memory) (c : TensorBase) (a : Tensor) (h : a < m.length) :
    tensorData (m ++ [c]) a = tensorData m a := by
  simp [tensorData, List.getElem?_append_left h]

theorem tensorData_append_self (m : Memory) (c : TensorBase) :
    tensorData (m ++ [c]) m.length = c.data := by
  simp [tensorData]

/-! ## The elementwise evaluator -/

theorem length_elementwise (f : ℚ → ℚ → ℚ) (a b : List ℚ) :
    (elementwise f a b).length = a.length := by
  induction a generalizing b with
  | nil => simp [elementwise]
  | cons x xs ih =>
    cases b with
    | nil => simp [elementwise, ih]
    | cons y ys => simp [elementwise, ih]

theorem getD_elementwise (f : ℚ → ℚ → ℚ) (a b : List ℚ) (i : Nat) (hi : i < a.length) :
    (elementwise f a b).getD i 0 = f (a.getD i 0) (b.getD i 0) := by
  induction a generalizing b i with
  | nil => simp at hi
  | cons x xs ih =>
    cases b with
    | nil =>
      cases i with
      | zero => simp [elementwise]
      | succ j =>
        have := ih [] j (by simpa using hi)
        simpa [elementwise] using this
    | cons y ys =>
      cases i with
      | zero => simp [elementwise]
      | succ j =>
        have := ih ys j (by simpa using hi)
        simpa [elementwise] using this

theorem elementwise_eq_zipWith (f : ℚ → ℚ → ℚ) (a b : List ℚ) (h : a.length = b.length) :
    elementwise f a b = List.zipWith f a b := by
  induction a generalizing b with
  | nil => simp [elementwise]
  | cons x xs ih =>
    cases b with
    | nil => simp at h
    | cons y ys => simp [elementwise, ih ys (by simpa using h)]

theorem elementwise_add_replicate_zero (g : List ℚ) :
    elementwise (fun a b => a + b) (List.replicate g.length 0) g = g := by
  induction g with
  | nil => simp [elementwise]
  | cons y ys ih => simp [List.replicate_succ, elementwise, ih]

theorem tensorData_Element (f : ℚ → ℚ → ℚ) (m : Memory) (out arg b : Tensor) :
    tensorData (Element f m out arg) b =
      if out = b ∧ out < m.length then elementwise f (tensorData m out) (tensorData m arg)
      else tensorData m b := by
  simp [Element, tensorData_tensorWrite]

theorem length_Element (f : ℚ → ℚ → ℚ) (m : Memory) (out arg : Tensor) :
    (Element f m out arg).length = m.length := by
  simp [Element, length_tensorWrite]

theorem tensorSize_Element (f : ℚ → ℚ → ℚ) (m : Memory) (out arg b : Tensor) :
    tensorSize (Element f m out arg) b = tensorSize m b := by
  unfold Element
  exact tensorSize_tensorWrite _ _ _ _ (length_elementwise _ _ _)

/-! ## The primitives on memory -/

theorem length_quantize_do (P : Primitives) (m : Memory) (t q : Tensor) (bit : Int) :
    (quantize_do P m t q bit).1.length = m.length := by
  simp [quantize_do, length_tensorWrite]

theorem tensorSize_quantize_do (P : Primitives) (m : Memory) (t q b : Tensor) (bit : Int) :
    tensorSize (quantize_do P m t q bit).1 b = tensorSize m b := by
  unfold quantize_do
  exact tensorSize_tensorWrite _ _ _ _ (P.quantize_do_size _ _ _)

theorem tensorData_quantize_do (P : Primitives) (m : Memory) (t q b : Tensor) (bit : Int) :
    tensorData (quantize_do P m t q bit).1 b =
      if q = b ∧ q < m.length then
        (P.quantize_do (tensorData m t) (tensorSize m q) bit).1
      else tensorData m b := by
  simp [quantize_do, tensorData_tensorWrite]

theorem quantize_do_snd (P : Primitives) (m : Memory) (t q : Tensor) (bit : Int) :
    (quantize_do P m t q bit).2 =
      (P.quantize_do (tensorData m t) (tensorSize m q) bit).2 := rfl

theorem length_dequantize_do (P : Primitives) (m : Memory) (t q : Tensor) (avg : ℚ)
    (bit : Int) : (dequantize_do P m t q avg bit).length = m.length := by
  simp [dequantize_do, length_tensorWrite]

theorem tensorSize_dequantize_do (P : Primitives) (m : Memory) (t q b : Tensor) (avg : ℚ)
    (bit : Int) : tensorSize (dequantize_do P m t q avg bit) b = tensorSize m b := by
  unfold dequantize_do
  exact tensorSize_tensorWrite _ _ _ _ (P.dequantize_do_size _ _ _ _)

theorem tensorData_dequantize_do (P : Primitives) (m : Memory) (t q b : Tensor) (avg : ℚ)
    (bit : Int) :
    tensorData (dequantize_do P m t q avg bit) b =
      if t = b ∧ t < m.length then
        P.dequantize_do (tensorSize m t) (tensorData m q) avg bit
      else tensorData m b := by
  simp [dequantize_do, tensorData_tensorWrite]

/-! ## `quantize` on an instance whose residual exists -/

namespace QuantizerBase

theorem ensureResidual_some (self : QuantizerBase) (m : Memory) (t r : Tensor)
    (h : self.residual = some r) : self.ensureResidual m t = (self, m, r) := by
  simp [ensureResidual, h]

theorem ensureResidual_none (self : QuantizerBase) (m : Memory) (t : Tensor)
    (h : self.residual = none) :
    self.ensureResidual m t =
      (⟨some m.length, self.tmp,
          self.allocators ++ [⟨tensorBackend m t, tensorSize m t * sizeof_float⟩]⟩,
        m ++ [⟨tensorBackend m t, List.replicate (tensorSize m t) 0⟩], m.length) := by
  simp [ensureResidual, h, newTensor, TensorAllocator.create, TensorAllocator.reserveExact,
    TensorAllocator.allocate]

theorem quantize_ensure (P : Primitives) (self : QuantizerBase) (m : Memory)
    (t q : Tensor) (bit : Int) :
    self.quantize P m t q bit =
      (self.ensureResidual m t).1.quantize P (self.ensureResidual m t).2.1 t q bit := by
  cases h : self.residual with
  | some r => simp [ensureResidual_some _ _ _ _ h]
  | none =>
    have h2 := ensureResidual_none self m t h
    simp only [quantize, accumulate]
    rw [h2]
    simp [ensureResidual]

theorem quantize_fst (P : Primitives) (self : QuantizerBase) (m : Memory) (t q r : Tensor)
    (bit : Int) (h : self.residual = some r) : (self.quantize P m t q bit).1 = self := by
  simp [quantize, accumulate, ensureResidual_some _ _ _ _ h]

theorem quantize_length (P : Primitives) (self : QuantizerBase) (m : Memory) (t q r : Tensor)
    (bit : Int) (h : self.residual = some r) :
    (self.quantize P m t q bit).2.1.length = m.length := by
  simp [quantize, accumulate, ensureResidual_some _ _ _ _ h, length_Element,
    length_dequantize_do, length_quantize_do]

theorem quantize_tensorSize (P : Primitives) (self : QuantizerBase) (m : Memory)
    (t q r b : Tensor) (bit : Int) (h : self.residual = some r) :
    tensorSize (self.quantize P m t q bit).2.1 b = tensorSize m b := by
  simp [quantize, accumulate, ensureResidual_some _ _ _ _ h, tensorSize_Element,
    tensorSize_dequantize_do, tensorSize_quantize_do]

theorem quantize_step (P : Primitives) (self : QuantizerBase) (m : Memory) (t q r : Tensor)
    (bit : Int) (h : self.residual = some r) (hr : r < m.length) :
    (self.quantize P m t q bit).2.2 =
      (P.quantize_do (elementwise (fun a b => a + b) (tensorData m r) (tensorData m t))
        (tensorSize m q) bit).2 := by
  simp [quantize, accumulate, ensureResidual_some _ _ _ _ h, quantize_do_snd,
    tensorData_Element, tensorSize_Element, hr]

theorem quantize_residual (P : Primitives) (self : QuantizerBase) (m : Memory)
    (t q r : Tensor) (bit : Int) (h : self.residual = some r) (hr : r < m.length)
    (hrt : r ≠ t) (hrq : r ≠ q) :
    tensorData (self.quantize P m t q bit).2.1 r =
      elementwise (fun a b => a - b)
        (elementwise (fun a b => a + b) (tensorData m r) (tensorData m t))
        (tensorData (self.quantize P m t q bit).2.1 t) := by
  simp [quantize, accumulate, ensureResidual_some _ _ _ _ h, tensorData_Element,
    tensorData_dequantize_do, tensorData_quantize_do, length_Element, length_dequantize_do,
    length_quantize_do, hr, hrt, hrq, Ne.symm hrt, Ne.symm hrq]

theorem quantize_packed (P : Primitives) (self : QuantizerBase) (m : Memory)
    (t q r : Tensor) (bit : Int) (h : self.residual = some r) (hr : r < m.length)
    (hq : q < m.length) (hrq : r ≠ q) (htq : t ≠ q) :
    tensorData (self.quantize P m t q bit).2.1 q =
      (P.quantize_do (elementwise (fun a b => a + b) (tensorData m r) (tensorData m t))
        (tensorSize m q) bit).1 := by
  simp [quantize, accumulate, ensureResidual_some _ _ _ _ h, tensorData_Element,
    tensorData_dequantize_do, tensorData_quantize_do, length_Element, length_dequantize_do,
    length_quantize_do, tensorSize_Element, hr, hq, hrq, htq]

theorem quantize_dequantized (P : Primitives) (self : QuantizerBase) (m : Memory)
    (t q r : Tensor) (bit : Int) (h : self.residual = some r) (hr : r < m.length)
    (ht : t < m.length) (hq : q < m.length) (hrt : r ≠ t) :
    tensorData (self.quantize P m t q bit).2.1 t =
      P.dequantize_do (tensorSize m t)
        (P.quantize_do (elementwise (fun a b => a + b) (tensorData m r) (tensorData m t))
          (tensorSize m q) bit).1
        (P.quantize_do (elementwise (fun a b => a + b) (tensorData m r) (tensorData m t))
          (tensorSize m q) bit).2 bit := by
  simp [quantize, accumulate, ensureResidual_some _ _ _ _ h, tensorData_Element,
    tensorData_dequantize_do, tensorData_quantize_do, length_Element, length_dequantize_do,
    length_quantize_do, tensorSize_Element, tensorSize_quantize_do, quantize_do_snd,
    hr, ht, hq, hrt]

theorem quantize_frame (P : Primitives) (self : QuantizerBase) (m : Memory)
    (t q r a : Tensor) (bit : Int) (h : self.residual = some r)
    (har : a ≠ r) (hat : a ≠ t) (haq : a ≠ q) :
    tensorData (self.quantize P m t q bit).2.1 a = tensorData m a := by
  simp [quantize, accumulate, ensureResidual_some _ _ _ _ h, tensorData_Element,
    tensorData_dequantize_do, tensorData_quantize_do, Ne.symm har, Ne.symm hat, Ne.symm haq]

theorem quantize_residual_getD (P : Primitives) (self : QuantizerBase) (m : Memory)
    (t q r : Tensor) (bit : Int) (h : self.residual = some r) (hr : r < m.length)
    (hrt : r ≠ t) (hrq : r ≠ q) (hsz : tensorSize m t = tensorSize m r) (i : Nat) :
    (tensorData (self.quantize P m t q bit).2.1 r).getD i 0 =
      (tensorData m r).getD i 0 + (tensorData m t).getD i 0 -
        (tensorData (self.quantize P m t q bit).2.1 t).getD i 0 := by
  have hout : tensorSize (self.quantize P m t q bit).2.1 t = tensorSize m t :=
    quantize_tensorSize P self m t q r t bit h
  rw [quantize_residual P self m t q r bit h hr hrt hrq]
  by_cases hi : i < tensorSize m r
  · rw [getD_elementwise _ _ _ _ (by rw [length_elementwise]; exact hi),
      getD_elementwise _ _ _ _ hi]
  · have hle : tensorSize m r ≤ i := Nat.le_of_not_lt hi
    have hlt : (tensorData m t).length ≤ i := by
      unfold tensorSize at hsz hle
      omega
    have hlo : (tensorData (self.quantize P m t q bit).2.1 t).length ≤ i := by
      unfold tensorSize at hout
      omega
    rw [List.getD_eq_default _ _ (by rw [length_elementwise, length_elementwise]; exact hle),
      List.getD_eq_default _ _ hle, List.getD_eq_default _ _ hlt,
      List.getD_eq_default _ _ hlo]
    simp

end QuantizerBase

/-! ## Single-call contract of `quantize` -/

/-- C2: single-call postcondition of `quantize(t, quantized, bits)` on an instance
whose residual `r0` is allocated with the element count of `t`, the three tensors
being distinct: `quantize_do` is applied to `r0 + g`, the call returns its step, the
packed tensor is its output, `t` ends up holding the reconstruction that
`dequantize_do` makes from that packed tensor, that step and the same bits, and the
residual ends up as `(r0 + g) - t_after`, element by element. -/
theorem quantize_postcondition (P : Primitives) (self : QuantizerBase) (m : Memory)
    (t quantized r : Tensor) (bit : Int)
    (hres : self.residual = some r) (hr : r < m.length) (ht : t < m.length)
    (hq : quantized < m.length) (hrt : r ≠ t) (hrq : r ≠ quantized) (htq : t ≠ quantized)
    (hsize : tensorSize m r = tensorSize m t) :
    (self.quantize P m t quantized bit).2.2 =
        (P.quantize_do (List.zipWith (fun a b => a + b) (tensorData m r) (tensorData m t))
          (tensorSize m quantized) bit).2 ∧
      tensorData (self.quantize P m t quantized bit).2.1 quantized =
        (P.quantize_do (List.zipWith (fun a b => a + b) (tensorData m r) (tensorData m t))
          (tensorSize m quantized) bit).1 ∧
      tensorData (self.quantize P m t quantized bit).2.1 t =
        P.dequantize_do (tensorSize m t)
          (tensorData (self.quantize P m t quantized bit).2.1 quantized)
          (self.quantize P m t quantized bit).2.2 bit ∧
      tensorData (self.quantize P m t quantized bit).2.1 r =
        List.zipWith (fun a b => a - b)
          (List.zipWith (fun a b => a + b) (tensorData m r) (tensorData m t))
          (tensorData (self.quantize P m t quantized bit).2.1 t) ∧
      (self.quantize P m t quantized bit).1.residual = some r := by
  have hacc : elementwise (fun a b => a + b) (tensorData m r) (tensorData m t) =
      List.zipWith (fun a b => a + b) (tensorData m r) (tensorData m t) :=
    elementwise_eq_zipWith _ _ _ hsize
  have hstep := quantize_step P self m t quantized r bit hres hr
  have hpk := quantize_packed P self m t quantized r bit hres hr hq hrq htq
  have hdq := quantize_dequantized P self m t quantized r bit hres hr ht hq hrt
  have hrs := quantize_residual P self m t quantized r bit hres hr hrt hrq
  have hlen : tensorSize (self.quantize P m t quantized bit).2.1 t = tensorSize m t :=
    quantize_tensorSize P self m t quantized r t bit hres
  rw [hacc] at hstep hpk hdq hrs
  refine ⟨hstep, hpk, ?_, ?_, ?_⟩
  · rw [hpk, hstep]
    exact hdq
  · rw [hrs]
    apply elementwise_eq_zipWith
    rw [List.length_zipWith]
    unfold tensorSize at hlen hsize
    omega
  · rw [quantize_fst P self m t quantized r bit hres]
    exact hres

/-- Witness of C2 on the ready instance with the reference primitives and 8 bits. -/
theorem quantize_postcondition_witness :
    tensorData (readyInstance.quantize referencePrimitives readyMemory 0 1 8).2.1 2 =
        List.zipWith (fun a b => a - b)
          (List.zipWith (fun a b => a + b) (tensorData readyMemory 2) (tensorData readyMemory 0))
          (tensorData (readyInstance.quantize referencePrimitives readyMemory 0 1 8).2.1 0) ∧
      (readyInstance.quantize referencePrimitives readyMemory 0 1 8).1.residual = some 2 :=
  (quantize_postcondition referencePrimitives readyInstance readyMemory 0 1 2 8 rfl
    (by decide) (by decide) (by decide) (by decide) (by decide) (by decide) rfl).2.2.2

theorem quantize_of_null (P : Primitives) (self : QuantizerBase) (m : Memory)
    (t quantized : Tensor) (bit : Int)
    (hres : self.residual = none) (ht : t < m.length) (hq : quantized < m.length) :
    (self.quantize P m t quantized bit).1.residual = some m.length ∧
      tensorSize (self.quantize P m t quantized bit).2.1 m.length = tensorSize m t ∧
      tensorSize (self.quantize P m t quantized bit).2.1 t = tensorSize m t ∧
      tensorData (self.quantize P m t quantized bit).2.1 m.length =
        elementwise (fun a b => a - b) (tensorData m t)
          (tensorData (self.quantize P m t quantized bit).2.1 t) := by
  have hens := ensureResidual_none self m t hres
  have hq2 := quantize_ensure P self m t quantized bit
  rw [hens] at hq2
  simp only at hq2
  have hzero : tensorData (m ++ [⟨tensorBackend m t, List.replicate (tensorSize m t) 0⟩])
      m.length = List.replicate (tensorSize m t) 0 := tensorData_append_self m _
  have hgrad : tensorData (m ++ [⟨tensorBackend m t, List.replicate (tensorSize m t) 0⟩]) t =
      tensorData m t := tensorData_append_left m _ t ht
  have hr : m.length < (m ++ [(⟨tensorBackend m t, List.replicate (tensorSize m t) 0⟩ :
      TensorBase)]).length := by simp
  have hlen := quantize_tensorSize P
    (⟨some m.length, self.tmp,
      self.allocators ++ [⟨tensorBackend m t, tensorSize m t * sizeof_float⟩]⟩ : QuantizerBase)
    (m ++ [⟨tensorBackend m t, List.replicate (tensorSize m t) 0⟩]) t quantized m.length
  have hrs := quantize_residual P
    (⟨some m.length, self.tmp,
      self.allocators ++ [⟨tensorBackend m t, tensorSize m t * sizeof_float⟩]⟩ : QuantizerBase)
    (m ++ [⟨tensorBackend m t, List.replicate (tensorSize m t) 0⟩]) t quantized m.length bit rfl
    hr (Nat.ne_of_gt ht) (Nat.ne_of_gt hq)
  have hfst := quantize_fst P
    (⟨some m.length, self.tmp,
      self.allocators ++ [⟨tensorBackend m t, tensorSize m t * sizeof_float⟩]⟩ : QuantizerBase)
    (m ++ [⟨tensorBackend m t, List.replicate (tensorSize m t) 0⟩]) t quantized m.length bit rfl
  rw [← hq2] at hrs hfst
  rw [hzero, hgrad] at hrs
  have h0 : elementwise (fun a b => a + b) (List.replicate (tensorSize m t) 0)
      (tensorData m t) = tensorData m t := elementwise_add_replicate_zero _
  rw [h0] at hrs
  refine ⟨by rw [hfst], ?_, ?_, hrs⟩
  · rw [hq2, hlen m.length bit rfl]
    show (tensorData _ _).length = _
    rw [hzero, List.length_replicate]
  · rw [hq2, hlen t bit rfl]
    show (tensorData _ _).length = _
    rw [hgrad]
    rfl

/-- C3: on the first `quantize` call of an instance (residual still null) the residual
is allocated as a new tensor with the gradient's element count, filled with zeros, and
after the call it holds `gradient_pre - dequantized_post`, element by element. -/
theorem quantize_first_call (P : Primitives) (self : QuantizerBase) (m : Memory)
    (t quantized : Tensor) (bit : Int)
    (hres : self.residual = none) (ht : t < m.length) (hq : quantized < m.length) :
    (self.ensureResidual m t).1.residual = some m.length ∧
      tensorData (self.ensureResidual m t).2.1 m.length =
        List.replicate (tensorSize m t) 0 ∧
      (self.quantize P m t quantized bit).1.residual = some m.length ∧
      tensorSize (self.quantize P m t quantized bit).2.1 m.length = tensorSize m t ∧
      tensorData (self.quantize P m t quantized bit).2.1 m.length =
        List.zipWith (fun a b => a - b) (tensorData m t)
          (tensorData (self.quantize P m t quantized bit).2.1 t) := by
  obtain ⟨h1, h2, h3, h4⟩ := quantize_of_null P self m t quantized bit hres ht hq
  have halloc : (self.ensureResidual m t).1.residual = some m.length := by
    rw [ensureResidual_none self m t hres]
  have hzero : tensorData (self.ensureResidual m t).2.1 m.length =
      List.replicate (tensorSize m t) 0 := by
    rw [ensureResidual_none self m t hres]
    exact tensorData_append_self m _
  refine ⟨halloc, hzero, h1, h2, ?_⟩
  rw [h4]
  apply elementwise_eq_zipWith
  unfold tensorSize at h3
  omega

/-- Witness of C3 on the spec's scenario: gradient `[0.03, -0.04, 0.01, -0.02]`, 8 bits;
the residual has 4 elements and equals input minus reconstruction. -/
theorem quantize_first_call_witness :
    tensorSize (construct.quantize referencePrimitives scenarioMemory 0 1 8).2.1 2 = 4 ∧
      tensorData (construct.quantize referencePrimitives scenarioMemory 0 1 8).2.1 2 =
        List.zipWith (fun a b => a - b) scenarioGradient
          (tensorData (construct.quantize referencePrimitives scenarioMemory 0 1 8).2.1 0) :=
  (quantize_first_call referencePrimitives construct scenarioMemory 0 1 8 rfl
    (by decide) (by decide)).2.2.2

/-! ## Error feedback over successive rounds -/

theorem quantize_of_null_length (P : Primitives) (self : QuantizerBase) (m : Memory)
    (t quantized : Tensor) (bit : Int) (hres : self.residual = none) :
    (self.quantize P m t quantized bit).2.1.length = m.length + 1 := by
  have hens := ensureResidual_none self m t hres
  rw [quantize_ensure, hens]
  simp only
  rw [quantize_length P _ _ t quantized m.length bit rfl]
  simp

theorem round_instance (P : Primitives) (s : QuantizerBase × Memory) (c : QuantizeCall) :
    (trainingRound P s c).1.1 =
      (s.1.quantize P (tensorWrite s.2 c.t c.gradient) c.t c.quantized c.bit).1 := by
  unfold trainingRound
  rfl

theorem round_mem (P : Primitives) (s : QuantizerBase × Memory) (c : QuantizeCall) :
    (trainingRound P s c).1.2 =
      (s.1.quantize P (tensorWrite s.2 c.t c.gradient) c.t c.quantized c.bit).2.1 := by
  unfold trainingRound
  rfl

theorem round_outputs (P : Primitives) (s : QuantizerBase × Memory) (c : QuantizeCall) :
    (trainingRound P s c).2 =
      ⟨(s.1.quantize P (tensorWrite s.2 c.t c.gradient) c.t c.quantized c.bit).2.2,
        tensorData (s.1.quantize P (tensorWrite s.2 c.t c.gradient) c.t c.quantized c.bit).2.1
          c.quantized,
        tensorData (s.1.quantize P (tensorWrite s.2 c.t c.gradient) c.t c.quantized c.bit).2.1
          c.t,
        residualData (s.1.quantize P (tensorWrite s.2 c.t c.gradient) c.t c.quantized c.bit).1
          (s.1.quantize P (tensorWrite s.2 c.t c.gradient) c.t c.quantized c.bit).2.1⟩ := by
  unfold trainingRound
  rfl

theorem round_ready (P : Primitives) (s : QuantizerBase × Memory) (c : QuantizeCall)
    (r n : Nat) (hres : s.1.residual = some r) (hr : r < s.2.length)
    (ht : c.t < r) (hq : c.quantized < r) (hn : tensorSize s.2 r = n)
    (hg : c.gradient.length = n) :
    (trainingRound P s c).1.1 = s.1 ∧
      (trainingRound P s c).1.2.length = s.2.length ∧
      tensorSize (trainingRound P s c).1.2 r = n ∧
      (trainingRound P s c).2.dequantized.length = n ∧
      ∀ i, (tensorData (trainingRound P s c).1.2 r).getD i 0 =
        (tensorData s.2 r).getD i 0 + c.gradient.getD i 0 -
          (trainingRound P s c).2.dequantized.getD i 0 := by
  have htm : c.t < s.2.length := Nat.lt_trans ht hr
  have hrt : r ≠ c.t := Nat.ne_of_gt ht
  have hrq : r ≠ c.quantized := Nat.ne_of_gt hq
  have hlenM : (tensorWrite s.2 c.t c.gradient).length = s.2.length := length_tensorWrite _ _ _
  have hdr : tensorData (tensorWrite s.2 c.t c.gradient) r = tensorData s.2 r := by
    rw [tensorData_tensorWrite]
    simp [Ne.symm hrt]
  have hdt : tensorData (tensorWrite s.2 c.t c.gradient) c.t = c.gradient := by
    rw [tensorData_tensorWrite]
    simp [htm]
  have hszr : tensorSize (tensorWrite s.2 c.t c.gradient) r = n := by
    show (tensorData _ _).length = n
    rw [hdr]
    exact hn
  have hszt : tensorSize (tensorWrite s.2 c.t c.gradient) c.t = n := by
    show (tensorData _ _).length = n
    rw [hdt]
    exact hg
  have hfst := quantize_fst P s.1 (tensorWrite s.2 c.t c.gradient) c.t c.quantized r c.bit hres
  have hsz := quantize_tensorSize P s.1 (tensorWrite s.2 c.t c.gradient) c.t c.quantized r
  have hidx := quantize_residual_getD P s.1 (tensorWrite s.2 c.t c.gradient) c.t c.quantized r
    c.bit hres (by rw [hlenM]; exact hr) hrt hrq (by rw [hszr, hszt])
  rw [round_instance, round_mem, round_outputs]
  dsimp only
  refine ⟨hfst, ?_, ?_, ?_, ?_⟩
  · rw [quantize_length P s.1 _ c.t c.quantized r c.bit hres, hlenM]
  · rw [hsz r c.bit hres, hszr]
  · have := hsz c.t c.bit hres
    unfold tensorSize at this hszt
    omega
  · intro i
    have := hidx i
    rw [hdr, hdt] at this
    exact this

theorem rounds_cons_state (P : Primitives) (s : QuantizerBase × Memory) (c : QuantizeCall)
    (cs : List QuantizeCall) :
    (trainingRounds P s (c :: cs)).1 = (trainingRounds P (trainingRound P s c).1 cs).1 := by
  rw [trainingRounds]

theorem rounds_cons_outputs (P : Primitives) (s : QuantizerBase × Memory) (c : QuantizeCall)
    (cs : List QuantizeCall) :
    (trainingRounds P s (c :: cs)).2 =
      (trainingRound P s c).2 :: (trainingRounds P (trainingRound P s c).1 cs).2 := by
  rw [trainingRounds]

theorem rounds_ready (P : Primitives) (r n : Nat) (calls : List QuantizeCall) :
    ∀ s : QuantizerBase × Memory, s.1.residual = some r → r < s.2.length →
      tensorSize s.2 r = n →
      (∀ c ∈ calls, c.t < r ∧ c.quantized < r ∧ c.gradient.length = n) →
      (trainingRounds P s calls).1.1 = s.1 ∧
        tensorSize (trainingRounds P s calls).1.2 r = n ∧
        (∀ o ∈ (trainingRounds P s calls).2, o.dequantized.length = n) ∧
        ∀ i, ((trainingRounds P s calls).2.map fun o => o.dequantized.getD i 0).sum =
          (tensorData s.2 r).getD i 0 + (calls.map fun c => c.gradient.getD i 0).sum -
            (tensorData (trainingRounds P s calls).1.2 r).getD i 0 := by
  induction calls with
  | nil =>
    intro s _ _ hn _
    simp [trainingRounds, hn]
  | cons c cs ih =>
    intro s hres hr hn hcalls
    have hc := hcalls c (List.mem_cons_self _ _)
    obtain ⟨h1, h2, h3, h4, h6⟩ :=
      round_ready P s c r n hres hr hc.1 hc.2.1 hn hc.2.2
    obtain ⟨k1, k2, k3, k4⟩ := ih (trainingRound P s c).1
      (by rw [h1]; exact hres) (by rw [h2]; exact hr) h3
      (fun c' hc' => hcalls c' (List.mem_cons_of_mem _ hc'))
    rw [rounds_cons_state, rounds_cons_outputs]
    refine ⟨?_, k2, ?_, ?_⟩
    · rw [k1, h1]
    · intro o ho
      rw [List.mem_cons] at ho
      rcases ho with ho | ho
      · rw [ho]; exact h4
      · exact k3 o ho
    · intro i
      rw [List.map_cons, List.sum_cons, List.map_cons, List.sum_cons, k4 i, h6 i]
      ring

theorem round_construct (P : Primitives) (m : Memory) (c : QuantizeCall) (n : Nat)
    (ht : c.t < m.length) (hq : c.quantized < m.length) (hg : c.gradient.length = n) :
    (trainingRound P (construct, m) c).1.1.residual = some m.length ∧
      (trainingRound P (construct, m) c).1.2.length = m.length + 1 ∧
      tensorSize (trainingRound P (construct, m) c).1.2 m.length = n ∧
      (trainingRound P (construct, m) c).2.dequantized.length = n ∧
      ∀ i, (tensorData (trainingRound P (construct, m) c).1.2 m.length).getD i 0 =
        c.gradient.getD i 0 - (trainingRound P (construct, m) c).2.dequantized.getD i 0 := by
  have hlenM : (tensorWrite m c.t c.gradient).length = m.length := length_tensorWrite _ _ _
  have hdt : tensorData (tensorWrite m c.t c.gradient) c.t = c.gradient := by
    rw [tensorData_tensorWrite]
    simp [ht]
  have hszt : tensorSize (tensorWrite m c.t c.gradient) c.t = n := by
    show (tensorData _ _).length = n
    rw [hdt]
    exact hg
  obtain ⟨h3, h4, hszd, h5⟩ := quantize_of_null P construct (tensorWrite m c.t c.gradient)
    c.t c.quantized c.bit rfl (by rw [hlenM]; exact ht) (by rw [hlenM]; exact hq)
  have hlen := quantize_of_null_length P construct (tensorWrite m c.t c.gradient)
    c.t c.quantized c.bit rfl
  rw [hlenM] at h3 h4 h5 hlen
  rw [hszt] at h4 hszd
  rw [hdt] at h5
  rw [round_instance, round_mem, round_outputs]
  dsimp only
  refine ⟨h3, hlen, h4, hszd, ?_⟩
  intro i
  rw [h5]
  by_cases hi : i < n
  · rw [getD_elementwise _ _ _ _ (by rw [hg]; exact hi)]
  · have hle : n ≤ i := Nat.le_of_not_lt hi
    rw [List.getD_eq_default _ _ (by rw [length_elementwise, hg]; exact hle),
      List.getD_eq_default _ _ (by rw [hg]; exact hle),
      List.getD_eq_default _ _ (by unfold tensorSize at hszd; omega)]
    simp

/-- C1: error-feedback conservation.  A freshly constructed instance is fed `n >= 1`
successive rounds whose gradients all have the same element count, the caller's
tensors being tensors that exist before the first call.  Then, whatever the
primitives and bit-widths, at every position the dequantised outputs sum to the sum
of the input gradients minus the final residual; the residual and every dequantised
output have the gradients' element count. -/
theorem error_feedback_conservation (P : Primitives) (m : Memory) (calls : List QuantizeCall)
    (n : Nat) (hne : calls ≠ [])
    (hcalls : ∀ c ∈ calls, c.t < m.length ∧ c.quantized < m.length ∧ c.gradient.length = n) :
    (residualData (trainingRounds P (construct, m) calls).1.1 (trainingRounds P (construct, m) calls).1.2).length
        = n ∧
      (∀ o ∈ (trainingRounds P (construct, m) calls).2, o.dequantized.length = n) ∧
      ∀ i, ((trainingRounds P (construct, m) calls).2.map fun o => o.dequantized.getD i 0).sum =
        (calls.map fun c => c.gradient.getD i 0).sum -
          (residualData (trainingRounds P (construct, m) calls).1.1
            (trainingRounds P (construct, m) calls).1.2).getD i 0 := by
  cases calls with
  | nil => exact absurd rfl hne
  | cons c cs =>
    have hc := hcalls c (List.mem_cons_self _ _)
    obtain ⟨h1, h2, h3, h4, h5⟩ := round_construct P m c n hc.1 hc.2.1 hc.2.2
    obtain ⟨k1, k2, k3, k4⟩ := rounds_ready P m.length n cs (trainingRound P (construct, m) c).1
      h1 (by rw [h2]; exact Nat.lt_succ_self _) h3
      (fun c' hc' => hcalls c' (List.mem_cons_of_mem _ hc'))
    rw [rounds_cons_state, rounds_cons_outputs]
    have hrd : residualData (trainingRounds P (trainingRound P (construct, m) c).1 cs).1.1
        (trainingRounds P (trainingRound P (construct, m) c).1 cs).1.2 =
        tensorData (trainingRounds P (trainingRound P (construct, m) c).1 cs).1.2 m.length := by
      rw [k1]
      simp only [residualData, h1]
    rw [hrd]
    refine ⟨k2, ?_, ?_⟩
    · intro o ho
      rw [List.mem_cons] at ho
      rcases ho with ho | ho
      · rw [ho]; exact h4
      · exact k3 o ho
    · intro i
      rw [List.map_cons, List.sum_cons, List.map_cons, List.sum_cons, k4 i, h5 i]
      ring

/-- Witness of C1: two rounds (8 bits, then 1 bit) on the spec's scenario; the residual
has 4 elements and the sums agree at the first position. -/
theorem error_feedback_conservation_witness :
    (residualData (trainingRounds referencePrimitives (construct, scenarioMemory) scenarioCalls).1.1
        (trainingRounds referencePrimitives (construct, scenarioMemory) scenarioCalls).1.2).length = 4 ∧
      ((trainingRounds referencePrimitives (construct, scenarioMemory) scenarioCalls).2.map
          fun o => o.dequantized.getD 0 0).sum =
        (scenarioCalls.map fun c => c.gradient.getD 0 0).sum -
          (residualData (trainingRounds referencePrimitives (construct, scenarioMemory) scenarioCalls).1.1
            (trainingRounds referencePrimitives (construct, scenarioMemory) scenarioCalls).1.2).getD 0 0 :=
  ⟨(error_feedback_conservation referencePrimitives scenarioMemory scenarioCalls 4
      (by simp [scenarioCalls])
      (by simp [scenarioCalls, scenarioMemory, scenarioGradient])).1,
    (error_feedback_conservation referencePrimitives scenarioMemory scenarioCalls 4
      (by simp [scenarioCalls])
      (by simp [scenarioCalls, scenarioMemory, scenarioGradient])).2.2 0⟩

/-! ## Element counts are fixed once a tensor is allocated -/

theorem MemExtends.refl (m : Memory) : MemExtends m m :=
  ⟨Nat.le_refl _, fun _ _ => rfl⟩

theorem MemExtends.trans {m1 m2 m3 : Memory} (h12 : MemExtends m1 m2)
    (h23 : MemExtends m2 m3) : MemExtends m1 m3 :=
  ⟨Nat.le_trans h12.1 h23.1, fun a ha => by
    rw [h23.2 a (Nat.lt_of_lt_of_le ha h12.1), h12.2 a ha]⟩

theorem MemExtends.of_same {m1 m2 : Memory} (hlen : m2.length = m1.length)
    (hsize : ∀ a, tensorSize m2 a = tensorSize m1 a) : MemExtends m1 m2 :=
  ⟨Nat.le_of_eq hlen.symm, fun a _ => hsize a⟩

theorem MemExtends.append (m : Memory) (c : TensorBase) : MemExtends m (m ++ [c]) :=
  ⟨by simp, fun a ha => by
    show (tensorData _ _).length = (tensorData _ _).length
    rw [tensorData_append_left m c a ha]⟩

theorem length_tensorSet (m : Memory) (t : Tensor) (i : Nat) (v : ℚ) :
    (tensorSet m t i v).length = m.length :=
  length_tensorWrite _ _ _

theorem tensorSize_tensorSet (m : Memory) (t a : Tensor) (i : Nat) (v : ℚ) :
    tensorSize (tensorSet m t i v) a = tensorSize m a := by
  unfold tensorSet
  exact tensorSize_tensorWrite _ _ _ _ (by rw [List.length_set]; rfl)

namespace QuantizerBase

theorem fillLoop_same (f : Nat → ℚ) (t : Tensor) (l : List Nat) :
    ∀ m : Memory,
      (l.foldl (fun acc i => tensorSet acc t i (f i)) m).length = m.length ∧
        ∀ a, tensorSize (l.foldl (fun acc i => tensorSet acc t i (f i)) m) a =
          tensorSize m a := by
  induction l with
  | nil => intro m; exact ⟨rfl, fun _ => rfl⟩
  | cons i is ih =>
    intro m
    obtain ⟨h1, h2⟩ := ih (tensorSet m t i (f i))
    refine ⟨?_, ?_⟩
    · rw [List.foldl_cons, h1, length_tensorSet]
    · intro a
      rw [List.foldl_cons, h2 a, tensorSize_tensorSet]

theorem fillRandom_extends (rnd : Nat → Nat) (k : Nat) (m : Memory) (t : Tensor) (size : Nat) :
    MemExtends m (fillRandom rnd k m t size) :=
  MemExtends.of_same (fillLoop_same (fun i => testValue (rnd (k + i))) t _ m).1
    (fillLoop_same (fun i => testValue (rnd (k + i))) t _ m).2

theorem newTensor_extends (self : QuantizerBase) (m : Memory) (size : Nat) (b : Backend) :
    MemExtends m (self.newTensor m size b).2.1 :=
  MemExtends.append m _

theorem quantize_do_extends (P : Primitives) (m : Memory) (t q : Tensor) (bit : Int) :
    MemExtends m (quantize_do P m t q bit).1 :=
  MemExtends.of_same (length_quantize_do P m t q bit)
    (fun a => tensorSize_quantize_do P m t q a bit)

theorem dequantize_do_extends (P : Primitives) (m : Memory) (t q : Tensor) (avg : ℚ)
    (bit : Int) : MemExtends m (dequantize_do P m t q avg bit) :=
  MemExtends.of_same (length_dequantize_do P m t q avg bit)
    (fun a => tensorSize_dequantize_do P m t q a avg bit)

theorem testBit_residual (P : Primitives) (backend : Backend) (rnd : Nat → Nat) (size : Nat)
    (t : Tensor) (s : TestState) (bit : Int) :
    (testBit P backend rnd size t s bit).self.residual = s.self.residual := rfl

theorem testBit_extends (P : Primitives) (backend : Backend) (rnd : Nat → Nat) (size : Nat)
    (t : Tensor) (s : TestState) (bit : Int) :
    MemExtends s.mem (testBit P backend rnd size t s bit).mem := by
  unfold testBit
  exact ((newTensor_extends _ _ _ _).trans (fillRandom_extends _ _ _ _ _)).trans
    ((quantize_do_extends _ _ _ _ _).trans (dequantize_do_extends _ _ _ _ _ _))

theorem testLoop_invariant (P : Primitives) (backend : Backend) (rnd : Nat → Nat) (size : Nat)
    (t : Tensor) (bits : List Int) :
    ∀ s : TestState,
      (bits.foldl (testBit P backend rnd size t) s).self.residual = s.self.residual ∧
        MemExtends s.mem (bits.foldl (testBit P backend rnd size t) s).mem := by
  induction bits with
  | nil => intro s; exact ⟨rfl, MemExtends.refl _⟩
  | cons b bs ih =>
    intro s
    obtain ⟨h1, h2⟩ := ih (testBit P backend rnd size t s b)
    rw [List.foldl_cons]
    exact ⟨by rw [h1, testBit_residual], (testBit_extends P backend rnd size t s b).trans h2⟩

theorem test_instance (P : Primitives) (self : QuantizerBase) (m : Memory) (backend : Backend)
    (rnd : Nat → Nat) :
    (self.test P m backend rnd).1 =
      (testBits.foldl (testBit P backend rnd 32 (self.newTensor m 32 backend).2.2)
        ⟨(self.newTensor m 32 backend).1, (self.newTensor m 32 backend).2.1, 0, []⟩).self := by
  simp only [test]

theorem test_mem (P : Primitives) (self : QuantizerBase) (m : Memory) (backend : Backend)
    (rnd : Nat → Nat) :
    (self.test P m backend rnd).2.1 =
      (testBits.foldl (testBit P backend rnd 32 (self.newTensor m 32 backend).2.2)
        ⟨(self.newTensor m 32 backend).1, (self.newTensor m 32 backend).2.1, 0, []⟩).mem := by
  simp only [test]

theorem test_residual (P : Primitives) (self : QuantizerBase) (m : Memory) (backend : Backend)
    (rnd : Nat → Nat) : (self.test P m backend rnd).1.residual = self.residual := by
  rw [test_instance]
  exact (testLoop_invariant P backend rnd 32 (self.newTensor m 32 backend).2.2 testBits
    ⟨(self.newTensor m 32 backend).1, (self.newTensor m 32 backend).2.1, 0, []⟩).1

theorem test_extends (P : Primitives) (self : QuantizerBase) (m : Memory) (backend : Backend)
    (rnd : Nat → Nat) : MemExtends m (self.test P m backend rnd).2.1 := by
  rw [test_mem]
  exact (newTensor_extends self m 32 backend).trans
    (testLoop_invariant P backend rnd 32 (self.newTensor m 32 backend).2.2 testBits
      ⟨(self.newTensor m 32 backend).1, (self.newTensor m 32 backend).2.1, 0, []⟩).2

theorem quantize_extends (P : Primitives) (self : QuantizerBase) (m : Memory) (t q r : Tensor)
    (bit : Int) (h : self.residual = some r) :
    MemExtends m (self.quantize P m t q bit).2.1 :=
  MemExtends.of_same (quantize_length P self m t q r bit h)
    (fun a => quantize_tensorSize P self m t q r a bit h)

end QuantizerBase

theorem step_quantize (P : Primitives) (s : QuantizerBase × Memory) (t q : Tensor)
    (bit : Int) :
    step P s (Call.quantize t q bit) =
      ((s.1.quantize P s.2 t q bit).1, (s.1.quantize P s.2 t q bit).2.1) := rfl

theorem step_dequantize (P : Primitives) (s : QuantizerBase × Memory) (t q : Tensor)
    (avg : ℚ) (bit : Int) :
    step P s (Call.dequantize t q avg bit) = s.1.dequantize P s.2 t q avg bit := rfl

theorem step_test (P : Primitives) (s : QuantizerBase × Memory) (backend : Backend)
    (rnd : Nat → Nat) :
    step P s (Call.test backend rnd) =
      ((s.1.test P s.2 backend rnd).1, (s.1.test P s.2 backend rnd).2.1) := by
  simp only [step]

theorem step_ready (P : Primitives) (s : QuantizerBase × Memory) (c : Call) (r : Tensor)
    (h : s.1.residual = some r) :
    (step P s c).1.residual = some r ∧ MemExtends s.2 (step P s c).2 := by
  cases c with
  | quantize t q bit =>
    rw [step_quantize]
    simp only
    exact ⟨by rw [quantize_fst P s.1 s.2 t q r bit h]; exact h,
      quantize_extends P s.1 s.2 t q r bit h⟩
  | dequantize t q avg bit =>
    rw [step_dequantize]
    exact ⟨h, dequantize_do_extends P s.2 t q avg bit⟩
  | error => exact ⟨h, MemExtends.refl _⟩
  | test backend rnd =>
    rw [step_test]
    simp only
    exact ⟨by rw [test_residual]; exact h, test_extends P s.1 s.2 backend rnd⟩

theorem run_ready (P : Primitives) (calls : List Call) (r : Tensor) :
    ∀ s : QuantizerBase × Memory, s.1.residual = some r →
      (run P s calls).1.residual = some r ∧ MemExtends s.2 (run P s calls).2 := by
  induction calls with
  | nil => intro s h; exact ⟨h, MemExtends.refl _⟩
  | cons c cs ih =>
    intro s h
    obtain ⟨h1, h2⟩ := step_ready P s c r h
    obtain ⟨k1, k2⟩ := ih (step P s c) h1
    exact ⟨k1, h2.trans k2⟩

/-- C4: state machine of `QuantizerBase`.  A constructed instance has no residual; the
first `quantize` call gives it a residual (a new tensor) whose element count is that of
the gradient; and after every later sequence of `quantize`, `dequantize`, `error` and
`test` calls, whatever their arguments, the instance still has that same residual
tensor and its element count is unchanged. -/
theorem residual_state_machine (P : Primitives) (m : Memory) (t quantized : Tensor)
    (bit : Int) (calls : List Call) :
    construct.residual = none ∧
      (step P (construct, m) (Call.quantize t quantized bit)).1.residual = some m.length ∧
      tensorSize (step P (construct, m) (Call.quantize t quantized bit)).2 m.length =
        tensorSize m t ∧
      (run P (step P (construct, m) (Call.quantize t quantized bit)) calls).1.residual =
        some m.length ∧
      tensorSize (run P (step P (construct, m) (Call.quantize t quantized bit)) calls).2
        m.length = tensorSize m t := by
  have hens := ensureResidual_none construct m t rfl
  have hq := quantize_ensure P construct m t quantized bit
  rw [hens] at hq
  simp only at hq
  have h1 : (step P (construct, m) (Call.quantize t quantized bit)).1.residual =
      some m.length := by
    rw [step_quantize]
    simp only
    rw [hq, quantize_fst P _ _ t quantized m.length bit rfl]
  have h2 : tensorSize (step P (construct, m) (Call.quantize t quantized bit)).2 m.length =
      tensorSize m t := by
    rw [step_quantize]
    simp only
    rw [hq, quantize_tensorSize P _ _ t quantized m.length m.length bit rfl]
    show (tensorData _ _).length = _
    rw [tensorData_append_self, List.length_replicate]
  have h3 : m.length < (step P (construct, m) (Call.quantize t quantized bit)).2.length := by
    rw [step_quantize]
    simp only
    rw [quantize_of_null_length P construct m t quantized bit rfl]
    exact Nat.lt_succ_self _
  obtain ⟨k1, k2⟩ := run_ready P calls m.length _ h1
  exact ⟨rfl, h1, h2, k1, by rw [k2.2 m.length h3, h2]⟩

/-! ## `dequantize` and the residual -/

/-- C5 (as stated) fails: the handle that `error()` hands out is the residual tensor
itself, and `dequantize` called with it as output tensor overwrites the residual
`[0.01, 0.01]` of the ready instance with the reconstruction `[-0.02, -0.02]`. -/
theorem dequantize_overwrites_residual :
    readyInstance.error = some 2 ∧
      residualData readyInstance readyMemory = [1 / 100, 1 / 100] ∧
      residualData (readyInstance.dequantize referencePrimitives readyMemory 2 1 (1 / 25) 1).1
        (readyInstance.dequantize referencePrimitives readyMemory 2 1 (1 / 25) 1).2 =
          [-1 / 50, -1 / 50] ∧
      residualData (readyInstance.dequantize referencePrimitives readyMemory 2 1 (1 / 25) 1).1
        (readyInstance.dequantize referencePrimitives readyMemory 2 1 (1 / 25) 1).2 ≠
          residualData readyInstance readyMemory := by
  decide!

/-- C5 (amended): `dequantize` never changes the instance (residual handle, `tmp`,
allocator pool) nor the number of tensors, and it writes only the output tensor: every
other tensor keeps its contents.  Hence the contents of the residual are unchanged
whenever the output tensor is not the residual tensor itself. -/
theorem dequantize_frame (P : Primitives) (self : QuantizerBase) (m : Memory)
    (t quantized : Tensor) (avg : ℚ) (bit : Int) :
    (self.dequantize P m t quantized avg bit).1 = self ∧
      (self.dequantize P m t quantized avg bit).2.length = m.length ∧
      (self.residual ≠ some t →
        residualData (self.dequantize P m t quantized avg bit).1
          (self.dequantize P m t quantized avg bit).2 = residualData self m) ∧
      ∀ a, a ≠ t → tensorData (self.dequantize P m t quantized avg bit).2 a = tensorData m a := by
  have hframe : ∀ a, a ≠ t →
      tensorData (self.dequantize P m t quantized avg bit).2 a = tensorData m a := by
    intro a ha
    show tensorData (dequantize_do P m t quantized avg bit) a = tensorData m a
    rw [tensorData_dequantize_do]
    simp [Ne.symm ha]
  refine ⟨rfl, length_dequantize_do P m t quantized avg bit, ?_, hframe⟩
  intro hout
  show residualData self (self.dequantize P m t quantized avg bit).2 = residualData self m
  unfold residualData
  cases hr : self.residual with
  | none => rfl
  | some r =>
    have hrt : r ≠ t := fun h => hout (by rw [hr, h])
    exact hframe r hrt

/-- Witness of the amended C5: reconstructing into the gradient tensor of the ready
instance leaves its residual alone. -/
theorem dequantize_frame_witness :
    residualData (readyInstance.dequantize referencePrimitives readyMemory 0 1 (1 / 25) 1).1
        (readyInstance.dequantize referencePrimitives readyMemory 0 1 (1 / 25) 1).2 =
      residualData readyInstance readyMemory :=
  (dequantize_frame referencePrimitives readyInstance readyMemory 0 1 (1 / 25) 1).2.2.1
    (by decide)

/-! ## No validation of the bit-width -/

/-- C6 (as stated) fails: `3` neither divides 32 nor is a supported bit-width, yet
`quantize(t, quantized, 3)` on the ready instance reports nothing: the residual
`[0.01, 0.01]` already holds `[0.04, -0.03]` when `quantize_do` is invoked, the call
returns the step that `quantize_do` computes for 3 bits, and the residual is left
modified; `dequantize` with 3 bits writes its output tensor as well. -/
theorem quantize_accepts_unsupported_bits :
    ¬ ((32 : Int) % 3 = 0) ∧ (3 : Int) ∉ testBits ∧
      tensorData readyMemory 2 = [1 / 100, 1 / 100] ∧
      tensorData (readyInstance.accumulate readyMemory 0).2.1 2 = [4 / 100, -3 / 100] ∧
      (readyInstance.quantize referencePrimitives readyMemory 0 1 3).2.2 =
        (referencePrimitives.quantize_do [4 / 100, -3 / 100] 1 3).2 ∧
      tensorData (readyInstance.quantize referencePrimitives readyMemory 0 1 3).2.1 2 ≠
        tensorData readyMemory 2 ∧
      tensorData (readyInstance.dequantize referencePrimitives readyMemory 0 1 (1 / 25) 3).2 0 ≠
        tensorData readyMemory 0 := by
  decide!

/-- C6 (amended): `quantize` and `dequantize` perform no check on the bit-width.  For
every value of `bits`, supported or not, `quantize` on a ready instance first adds the
gradient to the residual, then hands `bits` unchanged to `quantize_do`, whose step it
returns, and to `dequantize_do`; `dequantize` hands `bits` unchanged to
`dequantize_do`.  Rejecting a bit-width is left to the primitives. -/
theorem quantize_passes_bits (P : Primitives) (self : QuantizerBase) (m : Memory)
    (t quantized r : Tensor) (avg : ℚ) (bit : Int)
    (hres : self.residual = some r) (hr : r < m.length) (ht : t < m.length)
    (hq : quantized < m.length) (hrt : r ≠ t) :
    tensorData (self.accumulate m t).2.1 r =
        elementwise (fun a b => a + b) (tensorData m r) (tensorData m t) ∧
      (self.quantize P m t quantized bit).2.2 =
        (P.quantize_do (elementwise (fun a b => a + b) (tensorData m r) (tensorData m t))
          (tensorSize m quantized) bit).2 ∧
      tensorData (self.quantize P m t quantized bit).2.1 t =
        P.dequantize_do (tensorSize m t)
          (P.quantize_do (elementwise (fun a b => a + b) (tensorData m r) (tensorData m t))
            (tensorSize m quantized) bit).1
          (P.quantize_do (elementwise (fun a b => a + b) (tensorData m r) (tensorData m t))
            (tensorSize m quantized) bit).2 bit ∧
      tensorData (self.dequantize P m t quantized avg bit).2 t =
        P.dequantize_do (tensorSize m t) (tensorData m quantized) avg bit := by
  refine ⟨?_, quantize_step P self m t quantized r bit hres hr,
    quantize_dequantized P self m t quantized r bit hres hr ht hq hrt, ?_⟩
  · simp [accumulate, ensureResidual_some _ _ _ _ hres, tensorData_Element, hr]
  · show tensorData (dequantize_do P m t quantized avg bit) t = _
    rw [tensorData_dequantize_do]
    simp [ht]

/-- Witness of the amended C6 at the unsupported bit-width 3. -/
theorem quantize_passes_bits_witness :
    (readyInstance.quantize referencePrimitives readyMemory 0 1 3).2.2 =
      (referencePrimitives.quantize_do
        (elementwise (fun a b => a + b) (tensorData readyMemory 2) (tensorData readyMemory 0))
        (tensorSize readyMemory 1) 3).2 :=
  (quantize_passes_bits referencePrimitives readyInstance readyMemory 0 1 2 (1 / 25) 3 rfl
    (by decide) (by decide) (by decide) (by decide)).2.1

/-! ## Mismatched element counts -/

namespace QuantizerBase

theorem testBit_mem (P : Primitives) (backend : Backend) (rnd : Nat → Nat) (size : Nat)
    (t : Tensor) (s : TestState) (bit : Int) :
    (testBit P backend rnd size t s bit).mem =
      dequantize_do P
        (quantize_do P
          (fillRandom rnd s.calls (s.self.newTensor s.mem (packedSize size bit) backend).2.1
            t size) t (s.self.newTensor s.mem (packedSize size bit) backend).2.2 bit).1
        t (s.self.newTensor s.mem (packedSize size bit) backend).2.2
        (quantize_do P
          (fillRandom rnd s.calls (s.self.newTensor s.mem (packedSize size bit) backend).2.1
            t size) t (s.self.newTensor s.mem (packedSize size bit) backend).2.2 bit).2
        bit := rfl

theorem testBit_length (P : Primitives) (backend : Backend) (rnd : Nat → Nat) (size : Nat)
    (t : Tensor) (s : TestState) (bit : Int) :
    (testBit P backend rnd size t s bit).mem.length = s.mem.length + 1 := by
  rw [testBit_mem, length_dequantize_do, length_quantize_do]
  unfold fillRandom
  rw [(fillLoop_same _ t _ _).1]
  simp [newTensor, TensorAllocator.allocate]

theorem testBit_packed (P : Primitives) (backend : Backend) (rnd : Nat → Nat) (size : Nat)
    (t : Tensor) (s : TestState) (bit : Int) :
    tensorSize (testBit P backend rnd size t s bit).mem s.mem.length = packedSize size bit := by
  rw [testBit_mem, tensorSize_dequantize_do, tensorSize_quantize_do]
  unfold fillRandom
  rw [(fillLoop_same _ t _ _).2]
  show (tensorData (s.mem ++ [_]) s.mem.length).length = _
  rw [tensorData_append_self]
  simp

theorem testLoop_packed (P : Primitives) (backend : Backend) (rnd : Nat → Nat) (size : Nat)
    (t : Tensor) (bits : List Int) :
    ∀ s : TestState,
      (bits.foldl (testBit P backend rnd size t) s).mem.length = s.mem.length + bits.length ∧
        ∀ j, j < bits.length →
          tensorSize (bits.foldl (testBit P backend rnd size t) s).mem (s.mem.length + j) =
            packedSize size (bits.getD j 0) := by
  induction bits with
  | nil => intro s; exact ⟨rfl, fun j hj => absurd hj (Nat.not_lt_zero j)⟩
  | cons b bs ih =>
    intro s
    obtain ⟨h1, h2⟩ := ih (testBit P backend rnd size t s b)
    have hlen := testBit_length P backend rnd size t s b
    have hext := (testLoop_invariant P backend rnd size t bs (testBit P backend rnd size t s b)).2
    rw [List.foldl_cons]
    refine ⟨?_, ?_⟩
    · rw [h1, hlen, List.length_cons]
      omega
    · intro j hj
      cases j with
      | zero =>
        rw [Nat.add_zero, hext.2 s.mem.length (by rw [hlen]; exact Nat.lt_succ_self _)]
        exact testBit_packed P backend rnd size t s b
      | succ k =>
        have hk : k < bs.length := by simpa using hj
        have := h2 k hk
        rw [hlen] at this
        rw [show s.mem.length + (k + 1) = s.mem.length + 1 + k from by omega, this]
        simp

end QuantizerBase

/-- C9: packed size in the self-test.  For every bit-width `b` of the sweep
`1, 2, 4, 8, 16` (the `j`-th one), the integer expression `size * bit / 32` with
`size = 32` equals `ceil(32 * b / 32)`, which is `b`; and the packed tensor that `test`
allocates for it (the `j`-th tensor after the 32-element source tensor) has exactly
that many elements. -/
theorem packed_size_exact (P : Primitives) (self : QuantizerBase) (m : Memory)
    (backend : Backend) (rnd : Nat → Nat) (j : Nat) (hj : j < testBits.length) :
    testBits.getD j 0 ∈ testBits ∧
      (packedSize 32 (testBits.getD j 0) : Int) = ⌈((32 : ℚ) * (testBits.getD j 0 : ℚ)) / 32⌉ ∧
      (packedSize 32 (testBits.getD j 0) : Int) = testBits.getD j 0 ∧
      tensorSize (self.test P m backend rnd).2.1 m.length = 32 ∧
      tensorSize (self.test P m backend rnd).2.1 (m.length + 1 + j) =
        packedSize 32 (testBits.getD j 0) := by
  have hloop := testLoop_packed P backend rnd 32 (self.newTensor m 32 backend).2.2 testBits
    ⟨(self.newTensor m 32 backend).1, (self.newTensor m 32 backend).2.1, 0, []⟩
  have hinv := testLoop_invariant P backend rnd 32 (self.newTensor m 32 backend).2.2 testBits
    ⟨(self.newTensor m 32 backend).1, (self.newTensor m 32 backend).2.1, 0, []⟩
  have hnew : (self.newTensor m 32 backend).2.1.length = m.length + 1 := by
    simp [newTensor, TensorAllocator.allocate]
  have hsrc : tensorSize (self.newTensor m 32 backend).2.1 m.length = 32 := by
    show (tensorData (m ++ [_]) m.length).length = 32
    rw [tensorData_append_self]
    simp
  have harith : testBits.getD j 0 ∈ testBits ∧
      (packedSize 32 (testBits.getD j 0) : Int) =
        ⌈((32 : ℚ) * (testBits.getD j 0 : ℚ)) / 32⌉ ∧
      (packedSize 32 (testBits.getD j 0) : Int) = testBits.getD j 0 := by
    have hj5 : j < 5 := hj
    interval_cases j <;> decide!
  refine ⟨harith.1, harith.2.1, harith.2.2, ?_, ?_⟩
  · rw [test_mem, hinv.2.2 m.length (by dsimp only; rw [hnew]; exact Nat.lt_succ_self _)]
    exact hsrc
  · rw [test_mem]
    have := hloop.2 j hj
    dsimp only at this
    rw [hnew] at this
    exact this

/-- Witness of C9 for the last bit-width of the sweep, 16. -/
theorem packed_size_exact_witness :
    (packedSize 32 (testBits.getD 4 0) : Int) = testBits.getD 4 0 ∧
      tensorSize (construct.test referencePrimitives [] 0 (fun k => 7919 * k + 13)).2.1
        ([] : Memory).length = 32 ∧
      tensorSize (construct.test referencePrimitives [] 0 (fun k => 7919 * k + 13)).2.1
        (([] : Memory).length + 1 + 4) = packedSize 32 (testBits.getD 4 0) :=
  (packed_size_exact referencePrimitives construct [] 0 (fun k => 7919 * k + 13) 4
    (by decide)).2.2

/-! ## Round-trip bound of the numeric policy -/

theorem maxLevel_pos (b : Int) (hb : 1 ≤ b) : 1 ≤ maxLevel b := by
  unfold maxLevel
  have h1 : 1 ≤ b.toNat := by omega
  have h2 : (2 : ℚ) ^ 1 ≤ 2 ^ b.toNat := pow_le_pow_right₀ (by norm_num) h1
  linarith

theorem maxLevel_eq_cast (b : Int) : maxLevel b = (((2 : Int) ^ b.toNat - 1 : Int) : ℚ) := by
  unfold maxLevel
  push_cast
  rfl

/-- C10: round-trip bound of the numeric policy.  For every bit-width `b` in
`1, 2, 4, 8, 16` and every value `v` inside the quantisation range (offset `lo`, width
`range`), dequantising the level that `v` is quantised to gives a value within half a
step of `v`; that level is one of the `2^b` levels `0 .. 2^b - 1`. -/
theorem round_trip_bound (b : Int) (hb : b ∈ testBits) (lo range v : ℚ) (hrange : 0 ≤ range)
    (hlo : lo ≤ v) (hhi : v ≤ lo + range) :
    |dequantize_level lo (quantStep range b) (quantize_level lo range b v) - v| ≤
        quantStep range b / 2 ∧
      0 ≤ quantize_level lo range b v ∧
      ((quantize_level lo range b v : Int) : ℚ) ≤ maxLevel b := by
  have hb1 : 1 ≤ b := by
    simp only [testBits, List.mem_cons, List.mem_singleton, List.not_mem_nil, or_false] at hb
    omega
  have hL : 1 ≤ maxLevel b := maxLevel_pos b hb1
  have hLpos : 0 < maxLevel b := by linarith
  have hstep : 0 ≤ quantStep range b := div_nonneg hrange (le_of_lt hLpos)
  rcases eq_or_lt_of_le hrange with h0 | hpos
  · -- degenerate range: a single value
    have hv : v = lo := by linarith
    have hs : quantStep range b = 0 := by simp [quantStep, ← h0]
    have hq : quantize_level lo range b v = 0 := by simp [quantize_level, hs]
    rw [hq, hs, hv]
    refine ⟨by simp [dequantize_level], le_refl _, ?_⟩
    simpa using le_of_lt hLpos
  · have hspos : 0 < quantStep range b := div_pos hpos hLpos
    have hx0 : 0 ≤ (v - lo) / quantStep range b :=
      div_nonneg (by linarith) (le_of_lt hspos)
    have hxL : (v - lo) / quantStep range b ≤ maxLevel b := by
      rw [div_le_iff₀ hspos]
      have : maxLevel b * quantStep range b = range := by
        unfold quantStep
        field_simp
      linarith
    have hround := abs_sub_round ((v - lo) / quantStep range b)
    refine ⟨?_, ?_, ?_⟩
    · have hrew : dequantize_level lo (quantStep range b) (quantize_level lo range b v) - v =
          -(((v - lo) / quantStep range b -
            (round ((v - lo) / quantStep range b) : ℚ)) * quantStep range b) := by
        unfold dequantize_level quantize_level
        field_simp
        ring
      rw [hrew, abs_neg, abs_mul, abs_of_pos hspos]
      calc |(v - lo) / quantStep range b - (round ((v - lo) / quantStep range b) : ℚ)| *
            quantStep range b ≤ 1 / 2 * quantStep range b :=
            mul_le_mul_of_nonneg_right hround (le_of_lt hspos)
        _ = quantStep range b / 2 := by ring
    · unfold quantize_level
      rw [round_eq]
      exact Int.floor_nonneg.mpr (by linarith)
    · unfold quantize_level
      rw [round_eq, maxLevel_eq_cast]
      have hfl : ⌊(v - lo) / quantStep range b + 1 / 2⌋ < (2 : Int) ^ b.toNat - 1 + 1 := by
        rw [Int.floor_lt]
        rw [maxLevel_eq_cast] at hxL
        push_cast at hxL ⊢
        linarith
      exact_mod_cast Int.lt_add_one_iff.mp hfl

/-- Witness of C10: 8 bits, the range `[-0.04, 0.04]` and the value `0.03`. -/
theorem round_trip_bound_witness :
    |dequantize_level (-4 / 100) (quantStep (8 / 100) 8)
        (quantize_level (-4 / 100) (8 / 100) 8 (3 / 100)) - 3 / 100| ≤
      quantStep (8 / 100) 8 / 2 :=
  (round_trip_bound 8 (by decide) (-4 / 100) (8 / 100) (3 / 100) (by norm_num) (by norm_num)
    (by norm_num)).1

/-! ## Two instances on one memory -/

theorem tensorData_store_self (m : Memory) (t : Tensor) (g : List ℚ) (ht : t < m.length) :
    tensorData (tensorWrite m t g) t = g := by
  rw [tensorData_tensorWrite]
  simp [ht]

theorem tensorData_store_other (m : Memory) (t a : Tensor) (g : List ℚ) (h : a ≠ t) :
    tensorData (tensorWrite m t g) a = tensorData m a := by
  rw [tensorData_tensorWrite]
  simp [Ne.symm h]

namespace QuantizerBase

theorem quantize_congr (P : Primitives) (A B : QuantizerBase) (mA mB : Memory)
    (t q rA rB : Tensor) (bit : Int)
    (hA : A.residual = some rA) (hB : B.residual = some rB)
    (hrA : rA < mA.length) (hrB : rB < mB.length)
    (htA : t < mA.length) (htB : t < mB.length)
    (hqA : q < mA.length) (hqB : q < mB.length)
    (hAt : rA ≠ t) (hAq : rA ≠ q) (hBt : rB ≠ t) (hBq : rB ≠ q)
    (hr : tensorData mA rA = tensorData mB rB) (ht : tensorData mA t = tensorData mB t)
    (hq : tensorSize mA q = tensorSize mB q) :
    (A.quantize P mA t q bit).2.2 = (B.quantize P mB t q bit).2.2 ∧
      tensorData (A.quantize P mA t q bit).2.1 q = tensorData (B.quantize P mB t q bit).2.1 q ∧
      tensorData (A.quantize P mA t q bit).2.1 t = tensorData (B.quantize P mB t q bit).2.1 t ∧
      tensorData (A.quantize P mA t q bit).2.1 rA =
        tensorData (B.quantize P mB t q bit).2.1 rB := by
  have hst : tensorSize mA t = tensorSize mB t := by
    show (tensorData mA t).length = (tensorData mB t).length
    rw [ht]
  have hstep : (A.quantize P mA t q bit).2.2 = (B.quantize P mB t q bit).2.2 := by
    rw [quantize_step P A mA t q rA bit hA hrA, quantize_step P B mB t q rB bit hB hrB,
      hr, ht, hq]
  have hdeq : tensorData (A.quantize P mA t q bit).2.1 t =
      tensorData (B.quantize P mB t q bit).2.1 t := by
    rw [quantize_dequantized P A mA t q rA bit hA hrA htA hqA hAt,
      quantize_dequantized P B mB t q rB bit hB hrB htB hqB hBt, hr, ht, hq, hst]
  refine ⟨hstep, ?_, hdeq, ?_⟩
  · by_cases htq : t = q
    · subst htq
      exact hdeq
    · rw [quantize_packed P A mA t q rA bit hA hrA hqA hAq htq,
        quantize_packed P B mB t q rB bit hB hrB hqB hBq htq, hr, ht, hq]
  · rw [quantize_residual P A mA t q rA bit hA hrA hAt hAq,
      quantize_residual P B mB t q rB bit hB hrB hBt hBq, hdeq, hr, ht]

end QuantizerBase

theorem roundBoth_first (P : Primitives) (s : Pair) (c : QuantizeCall) :
    (roundBoth P s c).1.first = (trainingRound P (s.first, s.mem) c).1.1 := by
  unfold roundBoth
  rfl

theorem roundBoth_second (P : Primitives) (s : Pair) (c : QuantizeCall) :
    (roundBoth P s c).1.second =
      (trainingRound P (s.second, (trainingRound P (s.first, s.mem) c).1.2) c).1.1 := by
  unfold roundBoth
  rfl

theorem roundBoth_mem (P : Primitives) (s : Pair) (c : QuantizeCall) :
    (roundBoth P s c).1.mem =
      (trainingRound P (s.second, (trainingRound P (s.first, s.mem) c).1.2) c).1.2 := by
  unfold roundBoth
  rfl

theorem roundBoth_outputs (P : Primitives) (s : Pair) (c : QuantizeCall) :
    (roundBoth P s c).2 =
      ((trainingRound P (s.first, s.mem) c).2,
        (trainingRound P (s.second, (trainingRound P (s.first, s.mem) c).1.2) c).2) := by
  unfold roundBoth
  rfl

/-- A round on an instance leaves every tensor alone that is neither its residual nor
one of the two tensors of the call. -/
theorem trainingRound_frame (P : Primitives) (self : QuantizerBase) (m : Memory)
    (c : QuantizeCall) (r a : Tensor) (h : self.residual = some r)
    (har : a ≠ r) (hat : a ≠ c.t) (haq : a ≠ c.quantized) :
    tensorData (trainingRound P (self, m) c).1.2 a = tensorData m a := by
  rw [round_mem, quantize_frame P self _ c.t c.quantized r a c.bit h har hat haq,
    tensorData_store_other m c.t a c.gradient hat]

theorem trainingRound_frame_null (P : Primitives) (self : QuantizerBase) (m : Memory)
    (c : QuantizeCall) (a : Tensor) (h : self.residual = none)
    (ha : a < m.length) (hat : a ≠ c.t) (haq : a ≠ c.quantized) :
    tensorData (trainingRound P (self, m) c).1.2 a = tensorData m a := by
  have hlen : (tensorWrite m c.t c.gradient).length = m.length := length_tensorWrite _ _ _
  rw [round_mem, quantize_ensure, ensureResidual_none _ _ _ h]
  dsimp only
  rw [quantize_frame P _ _ c.t c.quantized (tensorWrite m c.t c.gradient).length a c.bit rfl
      (by rw [hlen]; exact Nat.ne_of_lt ha) hat haq,
    tensorData_append_left _ _ _ (by rw [hlen]; exact ha),
    tensorData_store_other m c.t a c.gradient hat]

theorem residualData_some (self : QuantizerBase) (m : Memory) (r : Tensor)
    (h : self.residual = some r) : residualData self m = tensorData m r := by
  simp [residualData, h]

theorem tensorSize_store (mA mB : Memory) (t q : Tensor) (g : List ℚ)
    (htA : t < mA.length) (htB : t < mB.length)
    (h : t ≠ q → tensorSize mA q = tensorSize mB q) :
    tensorSize (tensorWrite mA t g) q = tensorSize (tensorWrite mB t g) q := by
  show (tensorData _ _).length = (tensorData _ _).length
  by_cases htq : t = q
  · subst htq
    rw [tensorData_store_self mA t g htA, tensorData_store_self mB t g htB]
  · rw [tensorData_store_other mA t q g (Ne.symm htq),
      tensorData_store_other mB t q g (Ne.symm htq)]
    exact h htq

/-- Both instances ready: the same round gives the same outputs, and neither instance
disturbs the residual of the other. -/
theorem roundBoth_ready (P : Primitives) (s : Pair) (c : QuantizeCall) (n0 rA rB : Nat)
    (hA : s.first.residual = some rA) (hB : s.second.residual = some rB) (hAB : rA ≠ rB)
    (hrA : rA < s.mem.length) (hrB : rB < s.mem.length) (hnA : n0 ≤ rA) (hnB : n0 ≤ rB)
    (hdata : tensorData s.mem rA = tensorData s.mem rB)
    (ht : c.t < n0) (hq : c.quantized < n0) :
    (roundBoth P s c).2.1 = (roundBoth P s c).2.2 ∧
      (roundBoth P s c).1.first = s.first ∧
      (roundBoth P s c).1.second = s.second ∧
      (roundBoth P s c).1.mem.length = s.mem.length ∧
      tensorData (roundBoth P s c).1.mem rA = tensorData (roundBoth P s c).1.mem rB := by
  have hAt : rA ≠ c.t := Nat.ne_of_gt (Nat.lt_of_lt_of_le ht hnA)
  have hAq : rA ≠ c.quantized := Nat.ne_of_gt (Nat.lt_of_lt_of_le hq hnA)
  have hBt : rB ≠ c.t := Nat.ne_of_gt (Nat.lt_of_lt_of_le ht hnB)
  have hBq : rB ≠ c.quantized := Nat.ne_of_gt (Nat.lt_of_lt_of_le hq hnB)
  have htm : c.t < s.mem.length := Nat.lt_trans (Nat.lt_of_lt_of_le ht hnA) hrA
  have hqm : c.quantized < s.mem.length := Nat.lt_trans (Nat.lt_of_lt_of_le hq hnA) hrA
  have hlen1 : (tensorWrite s.mem c.t c.gradient).length = s.mem.length :=
    length_tensorWrite _ _ _
  have hfA := quantize_fst P s.first (tensorWrite s.mem c.t c.gradient) c.t c.quantized rA
    c.bit hA
  have hlenA := quantize_length P s.first (tensorWrite s.mem c.t c.gradient) c.t c.quantized
    rA c.bit hA
  rw [hlen1] at hlenA
  have hlen2 : (tensorWrite (s.first.quantize P (tensorWrite s.mem c.t c.gradient) c.t
      c.quantized c.bit).2.1 c.t c.gradient).length = s.mem.length := by
    rw [length_tensorWrite, hlenA]
  have hfB := quantize_fst P s.second
    (tensorWrite (s.first.quantize P (tensorWrite s.mem c.t c.gradient) c.t
      c.quantized c.bit).2.1 c.t c.gradient) c.t c.quantized rB c.bit hB
  have hlenB := quantize_length P s.second
    (tensorWrite (s.first.quantize P (tensorWrite s.mem c.t c.gradient) c.t
      c.quantized c.bit).2.1 c.t c.gradient) c.t c.quantized rB c.bit hB
  rw [hlen2] at hlenB
  have hr : tensorData (tensorWrite s.mem c.t c.gradient) rA =
      tensorData (tensorWrite (s.first.quantize P (tensorWrite s.mem c.t c.gradient) c.t
        c.quantized c.bit).2.1 c.t c.gradient) rB := by
    rw [tensorData_store_other _ _ _ _ hAt, tensorData_store_other _ _ _ _ hBt,
      quantize_frame P s.first _ c.t c.quantized rA rB c.bit hA (Ne.symm hAB) hBt hBq,
      tensorData_store_other _ _ _ _ hBt]
    exact hdata
  have htt : tensorData (tensorWrite s.mem c.t c.gradient) c.t =
      tensorData (tensorWrite (s.first.quantize P (tensorWrite s.mem c.t c.gradient) c.t
        c.quantized c.bit).2.1 c.t c.gradient) c.t := by
    rw [tensorData_store_self _ _ _ htm,
      tensorData_store_self _ _ _ (by rw [hlenA]; exact htm)]
  have hsq : tensorSize (tensorWrite s.mem c.t c.gradient) c.quantized =
      tensorSize (tensorWrite (s.first.quantize P (tensorWrite s.mem c.t c.gradient) c.t
        c.quantized c.bit).2.1 c.t c.gradient) c.quantized := by
    apply tensorSize_store _ _ _ _ _ htm (by rw [hlenA]; exact htm)
    intro htq
    rw [quantize_tensorSize P s.first _ c.t c.quantized rA c.quantized c.bit hA]
    show (tensorData _ _).length = (tensorData _ _).length
    rw [tensorData_store_other _ _ _ _ (Ne.symm htq)]
  obtain ⟨g1, g2, g3, g4⟩ := quantize_congr P s.first s.second
    (tensorWrite s.mem c.t c.gradient)
    (tensorWrite (s.first.quantize P (tensorWrite s.mem c.t c.gradient) c.t
      c.quantized c.bit).2.1 c.t c.gradient)
    c.t c.quantized rA rB c.bit hA hB (by rw [hlen1]; exact hrA) (by rw [hlen2]; exact hrB)
    (by rw [hlen1]; exact htm) (by rw [hlen2]; exact htm)
    (by rw [hlen1]; exact hqm) (by rw [hlen2]; exact hqm) hAt hAq hBt hBq hr htt hsq
  simp only [roundBoth_outputs, roundBoth_first, roundBoth_second, roundBoth_mem,
    round_instance, round_mem, round_outputs]
  refine ⟨?_, hfA, hfB, hlenB, ?_⟩
  · rw [hfA, hfB, residualData_some _ _ rA hA, residualData_some _ _ rB hB, g1, g2, g3, g4]
  · rw [quantize_frame P s.second _ c.t c.quantized rB rA c.bit hB hAB hAt hAq,
      tensorData_store_other _ _ _ _ hAt]
    exact g4

/-- Both instances fresh: the first round allocates two distinct residuals, gives the
same outputs on both instances and leaves the two residuals with equal contents. -/
theorem roundBoth_null (P : Primitives) (s : Pair) (c : QuantizeCall)
    (hA : s.first.residual = none) (hB : s.second.residual = none)
    (ht : c.t < s.mem.length) (hq : c.quantized < s.mem.length) :
    (roundBoth P s c).2.1 = (roundBoth P s c).2.2 ∧
      (roundBoth P s c).1.first.residual = some s.mem.length ∧
      (roundBoth P s c).1.second.residual = some (s.mem.length + 1) ∧
      (roundBoth P s c).1.mem.length = s.mem.length + 2 ∧
      tensorData (roundBoth P s c).1.mem s.mem.length =
        tensorData (roundBoth P s c).1.mem (s.mem.length + 1) := by
  have hlen1 : (tensorWrite s.mem c.t c.gradient).length = s.mem.length :=
    length_tensorWrite _ _ _
  have hlenA := quantize_of_null_length P s.first (tensorWrite s.mem c.t c.gradient) c.t
    c.quantized c.bit hA
  rw [hlen1] at hlenA
  have hlen2 : (tensorWrite (s.first.quantize P (tensorWrite s.mem c.t c.gradient) c.t
      c.quantized c.bit).2.1 c.t c.gradient).length = s.mem.length + 1 := by
    rw [length_tensorWrite, hlenA]
  have hlenB := quantize_of_null_length P s.second
    (tensorWrite (s.first.quantize P (tensorWrite s.mem c.t c.gradient) c.t
      c.quantized c.bit).2.1 c.t c.gradient) c.t c.quantized c.bit hB
  rw [hlen2] at hlenB
  have eA := quantize_ensure P s.first (tensorWrite s.mem c.t c.gradient) c.t c.quantized c.bit
  rw [ensureResidual_none _ _ _ hA, hlen1] at eA
  dsimp only at eA
  have eB := quantize_ensure P s.second
    (tensorWrite (s.first.quantize P (tensorWrite s.mem c.t c.gradient) c.t
      c.quantized c.bit).2.1 c.t c.gradient) c.t c.quantized c.bit
  rw [ensureResidual_none _ _ _ hB, hlen2] at eB
  dsimp only at eB
  have hdt1 : tensorData (tensorWrite s.mem c.t c.gradient) c.t = c.gradient :=
    tensorData_store_self _ _ _ ht
  have hdt2 : tensorData (tensorWrite (s.first.quantize P (tensorWrite s.mem c.t c.gradient)
      c.t c.quantized c.bit).2.1 c.t c.gradient) c.t = c.gradient :=
    tensorData_store_self _ _ _ (by rw [hlenA]; exact Nat.lt_succ_of_lt ht)
  have hst1 : tensorSize (tensorWrite s.mem c.t c.gradient) c.t = c.gradient.length := by
    show (tensorData _ _).length = _
    rw [hdt1]
  have hst2 : tensorSize (tensorWrite (s.first.quantize P (tensorWrite s.mem c.t c.gradient)
      c.t c.quantized c.bit).2.1 c.t c.gradient) c.t = c.gradient.length := by
    show (tensorData _ _).length = _
    rw [hdt2]
  have hsq : tensorSize (tensorWrite s.mem c.t c.gradient) c.quantized =
      tensorSize (tensorWrite (s.first.quantize P (tensorWrite s.mem c.t c.gradient) c.t
        c.quantized c.bit).2.1 c.t c.gradient) c.quantized := by
    apply tensorSize_store _ _ _ _ _ ht (by rw [hlenA]; exact Nat.lt_succ_of_lt ht)
    intro htq
    rw [eA, quantize_tensorSize P _ _ c.t c.quantized s.mem.length c.quantized c.bit rfl]
    show (tensorData _ _).length = (tensorData _ _).length
    rw [tensorData_append_left _ _ _ (by rw [hlen1]; exact hq),
      tensorData_store_other _ _ _ _ (Ne.symm htq)]
  have happ1 : ∀ (cell : TensorBase) (a : Tensor), a < s.mem.length →
      tensorData (tensorWrite s.mem c.t c.gradient ++ [cell]) a =
        tensorData (tensorWrite s.mem c.t c.gradient) a :=
    fun cell a ha => tensorData_append_left _ cell a (by rw [hlen1]; exact ha)
  have happ2 : ∀ (cell : TensorBase) (a : Tensor), a < s.mem.length + 1 →
      tensorData (tensorWrite (s.first.quantize P (tensorWrite s.mem c.t c.gradient) c.t
        c.quantized c.bit).2.1 c.t c.gradient ++ [cell]) a =
        tensorData (tensorWrite (s.first.quantize P (tensorWrite s.mem c.t c.gradient) c.t
          c.quantized c.bit).2.1 c.t c.gradient) a :=
    fun cell a ha => tensorData_append_left _ cell a (by rw [hlen2]; exact ha)
  have hself1 : ∀ cell : TensorBase,
      tensorData (tensorWrite s.mem c.t c.gradient ++ [cell]) s.mem.length = cell.data := by
    intro cell
    have := tensorData_append_self (tensorWrite s.mem c.t c.gradient) cell
    rw [hlen1] at this
    exact this
  have hself2 : ∀ cell : TensorBase,
      tensorData (tensorWrite (s.first.quantize P (tensorWrite s.mem c.t c.gradient) c.t
        c.quantized c.bit).2.1 c.t c.gradient ++ [cell]) (s.mem.length + 1) = cell.data := by
    intro cell
    have := tensorData_append_self (tensorWrite (s.first.quantize P
      (tensorWrite s.mem c.t c.gradient) c.t c.quantized c.bit).2.1 c.t c.gradient) cell
    rw [hlen2] at this
    exact this
  obtain ⟨g1, g2, g3, g4⟩ := quantize_congr P
    (⟨some s.mem.length, s.first.tmp, s.first.allocators ++
      [⟨tensorBackend (tensorWrite s.mem c.t c.gradient) c.t,
        tensorSize (tensorWrite s.mem c.t c.gradient) c.t * sizeof_float⟩]⟩ : QuantizerBase)
    (⟨some (s.mem.length + 1), s.second.tmp, s.second.allocators ++
      [⟨tensorBackend (tensorWrite (s.first.quantize P (tensorWrite s.mem c.t c.gradient) c.t
          c.quantized c.bit).2.1 c.t c.gradient) c.t,
        tensorSize (tensorWrite (s.first.quantize P (tensorWrite s.mem c.t c.gradient) c.t
          c.quantized c.bit).2.1 c.t c.gradient) c.t * sizeof_float⟩]⟩ : QuantizerBase)
    (tensorWrite s.mem c.t c.gradient ++
      [⟨tensorBackend (tensorWrite s.mem c.t c.gradient) c.t,
        List.replicate (tensorSize (tensorWrite s.mem c.t c.gradient) c.t) 0⟩])
    (tensorWrite (s.first.quantize P (tensorWrite s.mem c.t c.gradient) c.t
        c.quantized c.bit).2.1 c.t c.gradient ++
      [⟨tensorBackend (tensorWrite (s.first.quantize P (tensorWrite s.mem c.t c.gradient) c.t
          c.quantized c.bit).2.1 c.t c.gradient) c.t,
        List.replicate (tensorSize (tensorWrite (s.first.quantize P
          (tensorWrite s.mem c.t c.gradient) c.t c.quantized c.bit).2.1 c.t c.gradient) c.t)
          0⟩])
    c.t c.quantized s.mem.length (s.mem.length + 1) c.bit rfl rfl
    (by rw [List.length_append, hlen1]; simp)
    (by rw [List.length_append, hlen2]; simp)
    (by rw [List.length_append, hlen1]; exact Nat.lt_succ_of_lt ht)
    (by rw [List.length_append, hlen2]; exact Nat.lt_succ_of_lt (Nat.lt_succ_of_lt ht))
    (by rw [List.length_append, hlen1]; exact Nat.lt_succ_of_lt hq)
    (by rw [List.length_append, hlen2]; exact Nat.lt_succ_of_lt (Nat.lt_succ_of_lt hq))
    (Nat.ne_of_gt ht) (Nat.ne_of_gt hq)
    (Nat.ne_of_gt (Nat.lt_succ_of_lt ht)) (Nat.ne_of_gt (Nat.lt_succ_of_lt hq))
    (by rw [hself1, hself2, hst1, hst2])
    (by rw [happ1 _ _ ht, happ2 _ _ (Nat.lt_succ_of_lt ht), hdt1, hdt2])
    (by
      show (tensorData _ _).length = (tensorData _ _).length
      rw [happ1 _ _ hq, happ2 _ _ (Nat.lt_succ_of_lt hq)]
      exact hsq)
  rw [← eA] at g1 g2 g3 g4
  rw [← eB] at g1 g2 g3 g4
  have hfA : (s.first.quantize P (tensorWrite s.mem c.t c.gradient) c.t c.quantized
      c.bit).1.residual = some s.mem.length := by
    rw [eA, quantize_fst P _ _ c.t c.quantized s.mem.length c.bit rfl]
  have hfB : (s.second.quantize P
      (tensorWrite (s.first.quantize P (tensorWrite s.mem c.t c.gradient) c.t
        c.quantized c.bit).2.1 c.t c.gradient) c.t c.quantized c.bit).1.residual =
      some (s.mem.length + 1) := by
    rw [eB, quantize_fst P _ _ c.t c.quantized (s.mem.length + 1) c.bit rfl]
  simp only [roundBoth_outputs, roundBoth_first, roundBoth_second, roundBoth_mem,
    round_instance, round_mem, round_outputs]
  refine ⟨?_, hfA, hfB, hlenB, ?_⟩
  · rw [residualData_some _ _ _ hfA, residualData_some _ _ _ hfB, g1, g2, g3, g4]
  · rw [← g4, eB,
      quantize_frame P _ _ c.t c.quantized (s.mem.length + 1) s.mem.length c.bit rfl
        (Nat.ne_of_lt (Nat.lt_succ_self _)) (Nat.ne_of_gt ht) (Nat.ne_of_gt hq),
      happ2 _ _ (Nat.lt_succ_self _), tensorData_store_other _ _ _ _ (Nat.ne_of_gt ht)]

theorem roundsBoth_cons_outputs (P : Primitives) (s : Pair) (c : QuantizeCall)
    (cs : List QuantizeCall) :
    (roundsBoth P s (c :: cs)).2 =
      (roundBoth P s c).2 :: (roundsBoth P (roundBoth P s c).1 cs).2 := by
  rw [roundsBoth]

theorem roundsBoth_ready (P : Primitives) (n0 rA rB : Nat) (hAB : rA ≠ rB) (hnA : n0 ≤ rA)
    (hnB : n0 ≤ rB) (calls : List QuantizeCall) :
    ∀ s : Pair, s.first.residual = some rA → s.second.residual = some rB →
      rA < s.mem.length → rB < s.mem.length →
      tensorData s.mem rA = tensorData s.mem rB →
      (∀ c ∈ calls, c.t < n0 ∧ c.quantized < n0) →
      ∀ o ∈ (roundsBoth P s calls).2, o.1 = o.2 := by
  induction calls with
  | nil =>
    intro s _ _ _ _ _ _ o ho
    simp [roundsBoth] at ho
  | cons c cs ih =>
    intro s hA hB hrA hrB hdata hcalls o ho
    have hc := hcalls c (List.mem_cons_self _ _)
    obtain ⟨h1, h2, h3, h4, h5⟩ :=
      roundBoth_ready P s c n0 rA rB hA hB hAB hrA hrB hnA hnB hdata hc.1 hc.2
    rw [roundsBoth_cons_outputs, List.mem_cons] at ho
    rcases ho with ho | ho
    · rw [ho]
      exact h1
    · exact ih (roundBoth P s c).1 (by rw [h2]; exact hA) (by rw [h3]; exact hB)
        (by rw [h4]; exact hrA) (by rw [h4]; exact hrB) h5
        (fun c' hc' => hcalls c' (List.mem_cons_of_mem _ hc')) o ho

/-- C8: instance isolation.  Two freshly constructed instances that share the device
memory are fed the same rounds (same gradients, same bit-widths, the caller's tensors
being tensors that exist before the first call): after every round both instances have
produced the same step, the same packed tensor, the same dequantised gradient and the
same residual.  And a round on one instance never changes the residual of another
instance whose residual tensor is not handed to the call; the allocator pool is a field
of the instance, which a call on another instance does not receive. -/
theorem instance_isolation (P : Primitives) (m : Memory) (calls : List QuantizeCall)
    (hcalls : ∀ c ∈ calls, c.t < m.length ∧ c.quantized < m.length) :
    (∀ o ∈ (roundsBoth P ⟨construct, construct, m⟩ calls).2, o.1 = o.2) ∧
      ∀ (A B : QuantizerBase) (mem : Memory) (c : QuantizeCall) (rB : Tensor),
        B.residual = some rB → rB < mem.length → A.residual ≠ some rB →
        c.t ≠ rB → c.quantized ≠ rB →
        residualData B (trainingRound P (A, mem) c).1.2 = residualData B mem := by
  constructor
  · cases calls with
    | nil =>
      intro o ho
      simp [roundsBoth] at ho
    | cons c cs =>
      intro o ho
      have hc := hcalls c (List.mem_cons_self _ _)
      obtain ⟨h1, h2, h3, h4, h5⟩ :=
        roundBoth_null P ⟨construct, construct, m⟩ c rfl rfl hc.1 hc.2
      rw [roundsBoth_cons_outputs, List.mem_cons] at ho
      rcases ho with ho | ho
      · rw [ho]
        exact h1
      · exact roundsBoth_ready P m.length m.length (m.length + 1)
          (Nat.ne_of_lt (Nat.lt_succ_self _)) (Nat.le_refl _) (Nat.le_succ _) cs
          (roundBoth P ⟨construct, construct, m⟩ c).1 h2 h3
          (by rw [h4]; exact Nat.lt_succ_of_lt (Nat.lt_succ_self _))
          (by rw [h4]; exact Nat.lt_succ_self _) h5
          (fun c' hc' => hcalls c' (List.mem_cons_of_mem _ hc')) o ho
  · intro A B mem c rB hB hrB hne ht hq
    rw [residualData_some B _ rB hB, residualData_some B _ rB hB]
    cases hA : A.residual with
    | none => exact trainingRound_frame_null P A mem c rB hA hrB (Ne.symm ht) (Ne.symm hq)
    | some rA =>
      have hAB : rB ≠ rA := fun h => hne (by rw [hA, h])
      exact trainingRound_frame P A mem c rA rB hA hAB (Ne.symm ht) (Ne.symm hq)

/-- Witness of C8: two fresh instances on the scenario's memory, fed its two rounds,
produce pairwise equal outputs. -/
theorem instance_isolation_witness :
    (roundsBoth referencePrimitives ⟨construct, construct, scenarioMemory⟩ scenarioCalls).2.all
      (fun o => decide (o.1 = o.2)) = true :=
  List.all_eq_true.mpr (fun o ho => decide_eq_true
    ((instance_isolation referencePrimitives scenarioMemory scenarioCalls
      (by simp [scenarioCalls, scenarioMemory, scenarioGradient])).1 o ho))

/-! ## The allocator pool on the production path -/

namespace QuantizerBase

theorem quantize_null_instance (P : Primitives) (self : QuantizerBase) (m : Memory)
    (t q : Tensor) (bit : Int) (h : self.residual = none) :
    (self.quantize P m t q bit).1 =
      ⟨some m.length, self.tmp,
        self.allocators ++ [⟨tensorBackend m t, tensorSize m t * sizeof_float⟩]⟩ := by
  rw [quantize_ensure, ensureResidual_none self m t h]
  dsimp only
  rw [quantize_fst P _ _ t q m.length bit rfl]

end QuantizerBase

theorem step_pool (P : Primitives) (s : QuantizerBase × Memory) (c : Call)
    (hc : c.isProduction = true)
    (h : (s.1.residual = none ∧ s.1.allocators = []) ∨
      ((∃ r, s.1.residual = some r) ∧ s.1.allocators.length = 1)) :
    ((step P s c).1.residual = none ∧ (step P s c).1.allocators = []) ∨
      ((∃ r, (step P s c).1.residual = some r) ∧ (step P s c).1.allocators.length = 1) := by
  cases c with
  | quantize t q bit =>
    rw [step_quantize]
    dsimp only
    rcases h with ⟨h1, h2⟩ | ⟨⟨r, h1⟩, h2⟩
    · right
      rw [quantize_null_instance P s.1 s.2 t q bit h1]
      exact ⟨⟨s.2.length, rfl⟩, by simp [h2]⟩
    · right
      rw [quantize_fst P s.1 s.2 t q r bit h1]
      exact ⟨⟨r, h1⟩, h2⟩
  | dequantize t q avg bit =>
    rw [step_dequantize]
    exact h
  | error => simp [Call.isProduction] at hc
  | test backend rnd => simp [Call.isProduction] at hc

theorem run_pool (P : Primitives) (calls : List Call) :
    ∀ s : QuantizerBase × Memory, (∀ c ∈ calls, c.isProduction = true) →
      ((s.1.residual = none ∧ s.1.allocators = []) ∨
        ((∃ r, s.1.residual = some r) ∧ s.1.allocators.length = 1)) →
      (((run P s calls).1.residual = none ∧ (run P s calls).1.allocators = []) ∨
        ((∃ r, (run P s calls).1.residual = some r) ∧
          (run P s calls).1.allocators.length = 1)) := by
  induction calls with
  | nil => intro s _ h; exact h
  | cons c cs ih =>
    intro s hcs h
    exact ih (step P s c) (fun c' hc' => hcs c' (List.mem_cons_of_mem _ hc'))
      (step_pool P s c (hcs c (List.mem_cons_self _ _)) h)

/-- C11: bounded allocation on the production path.  Starting from a freshly
constructed instance, after every finite sequence of `quantize` and `dequantize` calls
the allocator pool holds at most one allocator.  A `quantize` call on an instance
without residual appends exactly one allocator and one tensor, the residual; a
`quantize` call on an instance with a residual and every `dequantize` call leave the
instance (residual handle and pool) and the number of tensors as they were, so the
residual tensor is reused. -/
theorem bounded_allocation (P : Primitives) (m : Memory) (calls : List Call)
    (hprod : ∀ c ∈ calls, c.isProduction = true) :
    (run P (construct, m) calls).1.allocators.length ≤ 1 ∧
      (∀ (s : QuantizerBase × Memory) (t q : Tensor) (bit : Int), s.1.residual = none →
        (step P s (Call.quantize t q bit)).1.allocators.length = s.1.allocators.length + 1 ∧
          (step P s (Call.quantize t q bit)).1.residual = some s.2.length ∧
          (step P s (Call.quantize t q bit)).2.length = s.2.length + 1) ∧
      (∀ (s : QuantizerBase × Memory) (r t q : Tensor) (bit : Int), s.1.residual = some r →
        (step P s (Call.quantize t q bit)).1 = s.1 ∧
          (step P s (Call.quantize t q bit)).2.length = s.2.length) ∧
      ∀ (s : QuantizerBase × Memory) (t q : Tensor) (avg : ℚ) (bit : Int),
        (step P s (Call.dequantize t q avg bit)).1 = s.1 ∧
          (step P s (Call.dequantize t q avg bit)).2.length = s.2.length := by
  refine ⟨?_, ?_, ?_, ?_⟩
  · rcases run_pool P calls (construct, m) hprod (Or.inl ⟨rfl, rfl⟩) with ⟨_, h⟩ | ⟨_, h⟩
    · rw [h]
      exact Nat.zero_le _
    · exact Nat.le_of_eq h
  · intro s t q bit h
    rw [step_quantize]
    dsimp only
    rw [quantize_null_instance P s.1 s.2 t q bit h,
      quantize_of_null_length P s.1 s.2 t q bit h]
    exact ⟨by simp, rfl, rfl⟩
  · intro s r t q bit h
    rw [step_quantize]
    dsimp only
    exact ⟨quantize_fst P s.1 s.2 t q r bit h, quantize_length P s.1 s.2 t q r bit h⟩
  · intro s t q avg bit
    rw [step_dequantize]
    exact ⟨rfl, length_dequantize_do P s.2 t q avg bit⟩

/-- Witness of C11: two `quantize` calls around a `dequantize` call on the scenario. -/
theorem bounded_allocation_witness :
    (run referencePrimitives (construct, scenarioMemory)
      [Call.quantize 0 1 8, Call.dequantize 0 1 (1 / 25) 8,
        Call.quantize 0 1 1]).1.allocators.length ≤ 1 :=
  (bounded_allocation referencePrimitives scenarioMemory
    [Call.quantize 0 1 8, Call.dequantize 0 1 (1 / 25) 8, Call.quantize 0 1 1]
    (by simp [Call.isProduction])).1

/-! ## Values synthesised by the self-test -/

theorem testValue_mod (r : Nat) : testValue r = testValue (r % 1000) := by
  unfold testValue
  rw [Nat.mod_mod]

/-- C18: self-test value range.  For every result `r` of `rand()` the value
`((r mod 1000) / 10000) - 0.05` lies in `[-0.05, 0.05]`, more precisely in
`[-0.05, 0.0499]`, so it never reaches `0.05`; it depends on `r mod 1000` only, so it
is one of the at most 1000 values taken on `0 .. 999`. -/
theorem testValue_range (r : Nat) :
    -(5 / 100 : ℚ) ≤ testValue r ∧ testValue r ≤ 5 / 100 ∧
      testValue r ≤ 499 / 10000 ∧ testValue r < 5 / 100 ∧
      testValue r ∈ (Finset.range 1000).image testValue ∧
      ((Finset.range 1000).image testValue).card ≤ 1000 := by
  have hlt : r % 1000 < 1000 := Nat.mod_lt _ (by norm_num)
  have h0 : (0 : ℚ) ≤ ((r % 1000 : Nat) : ℚ) := Nat.cast_nonneg _
  have h1 : ((r % 1000 : Nat) : ℚ) ≤ 999 := by
    have : r % 1000 ≤ 999 := by omega
    exact_mod_cast this
  have hval : testValue r = ((r % 1000 : Nat) : ℚ) / 10000 - 5 / 100 := rfl
  refine ⟨?_, ?_, ?_, ?_, ?_, ?_⟩
  · rw [hval]; linarith
  · rw [hval]; linarith
  · rw [hval]; linarith
  · rw [hval]; linarith
  · rw [Finset.mem_image]
    exact ⟨r % 1000, Finset.mem_range.mpr hlt, (testValue_mod r).symm⟩
  · calc ((Finset.range 1000).image testValue).card ≤ (Finset.range 1000).card :=
        Finset.card_image_le
      _ = 1000 := Finset.card_range 1000

/-! ## Pool growth and frame of the self-test -/

theorem tensorData_tensorSet_other (m : Memory) (t a : Tensor) (i : Nat) (v : ℚ) (h : a ≠ t) :
    tensorData (tensorSet m t i v) a = tensorData m a := by
  unfold tensorSet
  exact tensorData_store_other m t a _ h

namespace QuantizerBase

theorem fillLoop_frame (f : Nat → ℚ) (t a : Tensor) (h : a ≠ t) (l : List Nat) :
    ∀ m : Memory,
      tensorData (l.foldl (fun acc i => tensorSet acc t i (f i)) m) a = tensorData m a := by
  induction l with
  | nil => intro m; rfl
  | cons i is ih =>
    intro m
    rw [List.foldl_cons, ih, tensorData_tensorSet_other m t a i (f i) h]

theorem testBit_frame (P : Primitives) (backend : Backend) (rnd : Nat → Nat) (size : Nat)
    (t : Tensor) (s : TestState) (bit : Int) (a : Tensor) (ha : a < s.mem.length)
    (hat : a ≠ t) :
    tensorData (testBit P backend rnd size t s bit).mem a = tensorData s.mem a := by
  have hnew : (s.self.newTensor s.mem (packedSize size bit) backend).2.2 = s.mem.length := rfl
  have hq : ¬ (s.mem.length = a) := Nat.ne_of_gt ha
  rw [testBit_mem]
  simp only [tensorData_dequantize_do, tensorData_quantize_do, hnew, Ne.symm hat, hq,
    false_and, if_false]
  unfold fillRandom
  rw [fillLoop_frame _ t a hat]
  exact tensorData_append_left s.mem _ a ha

theorem testBit_allocators (P : Primitives) (backend : Backend) (rnd : Nat → Nat) (size : Nat)
    (t : Tensor) (s : TestState) (bit : Int) :
    (testBit P backend rnd size t s bit).self.allocators =
      s.self.allocators ++ [⟨backend, packedSize size bit * sizeof_float⟩] := rfl

theorem testBit_log (P : Primitives) (backend : Backend) (rnd : Nat → Nat) (size : Nat)
    (t : Tensor) (s : TestState) (bit : Int) :
    (testBit P backend rnd size t s bit).log.map TestLog.bit =
      s.log.map TestLog.bit ++ [bit] := by
  unfold testBit
  simp

theorem testLoop_effects (P : Primitives) (backend : Backend) (rnd : Nat → Nat) (size : Nat)
    (t : Tensor) (bits : List Int) :
    ∀ s : TestState,
      (bits.foldl (testBit P backend rnd size t) s).self.allocators =
          s.self.allocators ++
            bits.map (fun b => (⟨backend, packedSize size b * sizeof_float⟩ : TensorAllocator)) ∧
        (bits.foldl (testBit P backend rnd size t) s).log.map TestLog.bit =
          s.log.map TestLog.bit ++ bits ∧
        ∀ a, a < s.mem.length → a ≠ t →
          tensorData (bits.foldl (testBit P backend rnd size t) s).mem a =
            tensorData s.mem a := by
  induction bits with
  | nil => intro s; simp
  | cons b bs ih =>
    intro s
    obtain ⟨h1, h2, h3⟩ := ih (testBit P backend rnd size t s b)
    have hlen := testBit_length P backend rnd size t s b
    rw [List.foldl_cons]
    refine ⟨?_, ?_, ?_⟩
    · rw [h1, testBit_allocators]
      simp
    · rw [h2, testBit_log]
      simp
    · intro a ha hat
      rw [h3 a (by rw [hlen]; exact Nat.lt_succ_of_lt ha) hat]
      exact testBit_frame P backend rnd size t s b a ha hat

theorem test_log (P : Primitives) (self : QuantizerBase) (m : Memory) (backend : Backend)
    (rnd : Nat → Nat) :
    (self.test P m backend rnd).2.2 =
      (testBits.foldl (testBit P backend rnd 32 (self.newTensor m 32 backend).2.2)
        ⟨(self.newTensor m 32 backend).1, (self.newTensor m 32 backend).2.1, 0, []⟩).log := by
  simp only [test]

theorem test_allocators (P : Primitives) (self : QuantizerBase) (m : Memory)
    (backend : Backend) (rnd : Nat → Nat) :
    (self.test P m backend rnd).1.allocators =
      self.allocators ++ (⟨backend, 32 * sizeof_float⟩ ::
        testBits.map (fun b => (⟨backend, packedSize 32 b * sizeof_float⟩ : TensorAllocator))) := by
  rw [test_instance,
    (testLoop_effects P backend rnd 32 (self.newTensor m 32 backend).2.2 testBits
      ⟨(self.newTensor m 32 backend).1, (self.newTensor m 32 backend).2.1, 0, []⟩).1]
  simp [newTensor, TensorAllocator.create, TensorAllocator.reserveExact]

theorem test_length (P : Primitives) (self : QuantizerBase) (m : Memory) (backend : Backend)
    (rnd : Nat → Nat) : (self.test P m backend rnd).2.1.length = m.length + 6 := by
  rw [test_mem,
    (testLoop_packed P backend rnd 32 (self.newTensor m 32 backend).2.2 testBits
      ⟨(self.newTensor m 32 backend).1, (self.newTensor m 32 backend).2.1, 0, []⟩).1]
  simp [newTensor, TensorAllocator.allocate, testBits]

theorem test_frame (P : Primitives) (self : QuantizerBase) (m : Memory) (backend : Backend)
    (rnd : Nat → Nat) (a : Tensor) (ha : a < m.length) :
    tensorData (self.test P m backend rnd).2.1 a = tensorData m a := by
  have hnew : (self.newTensor m 32 backend).2.1.length = m.length + 1 := by
    simp [newTensor, TensorAllocator.allocate]
  have ht : (self.newTensor m 32 backend).2.2 = m.length := rfl
  rw [test_mem,
    (testLoop_effects P backend rnd 32 (self.newTensor m 32 backend).2.2 testBits
      ⟨(self.newTensor m 32 backend).1, (self.newTensor m 32 backend).2.1, 0, []⟩).2.2 a
      (by dsimp only; rw [hnew]; exact Nat.lt_succ_of_lt ha)
      (by rw [ht]; exact Nat.ne_of_lt ha)]
  exact tensorData_append_left m _ a ha

theorem test_residualData (P : Primitives) (self : QuantizerBase) (m : Memory)
    (backend : Backend) (rnd : Nat → Nat) (hres : ∀ r, self.residual = some r → r < m.length) :
    residualData (self.test P m backend rnd).1 (self.test P m backend rnd).2.1 =
      residualData self m := by
  have hr := test_residual P self m backend rnd
  cases h : self.residual with
  | none =>
    rw [h] at hr
    simp [residualData, h, hr]
  | some r =>
    rw [h] at hr
    rw [residualData_some _ _ r hr, residualData_some _ _ r h]
    exact test_frame P self m backend rnd r (hres r h)

end QuantizerBase

theorem run_tests (P : Primitives) (calls : List Call) :
    ∀ s : QuantizerBase × Memory, (∀ c ∈ calls, c.isTest = true) →
      (∀ r, s.1.residual = some r → r < s.2.length) →
      (run P s calls).1.allocators.length = s.1.allocators.length + 6 * calls.length ∧
        s.1.allocators <+: (run P s calls).1.allocators ∧
        (run P s calls).1.residual = s.1.residual ∧
        residualData (run P s calls).1 (run P s calls).2 = residualData s.1 s.2 := by
  induction calls with
  | nil =>
    intro s _ _
    exact ⟨rfl, List.prefix_refl _, rfl, rfl⟩
  | cons c cs ih =>
    intro s hcs hres
    have hc := hcs c (List.mem_cons_self _ _)
    cases c with
    | quantize t q bit => simp [Call.isTest] at hc
    | dequantize t q avg bit => simp [Call.isTest] at hc
    | error => simp [Call.isTest] at hc
    | test backend rnd =>
      have hr := test_residual P s.1 s.2 backend rnd
      have hlen := test_length P s.1 s.2 backend rnd
      have hal := test_allocators P s.1 s.2 backend rnd
      have hrd := test_residualData P s.1 s.2 backend rnd hres
      obtain ⟨k1, k2, k3, k4⟩ := ih (step P s (Call.test backend rnd))
        (fun c' hc' => hcs c' (List.mem_cons_of_mem _ hc'))
        (by
          rw [step_test]
          dsimp only
          intro r h
          rw [hr] at h
          rw [hlen]
          exact Nat.lt_of_lt_of_le (hres r h) (Nat.le_add_right _ _))
      rw [step_test] at k1 k2 k3 k4
      dsimp only at k1 k2 k3 k4
      have hrun : run P s (Call.test backend rnd :: cs) =
          run P ((s.1.test P s.2 backend rnd).1, (s.1.test P s.2 backend rnd).2.1) cs := by
        simp only [run, List.foldl_cons, step_test]
      rw [hrun]
      refine ⟨?_, ?_, ?_, ?_⟩
      · rw [k1, hal]
        simp [testBits]
        omega
      · exact List.IsPrefix.trans (by rw [hal]; exact List.prefix_append _ _) k2
      · rw [k3, hr]
      · rw [k4, hrd]

/-- C17: self-test allocation growth and residual independence.  A call of
`test(backend)` logs exactly the bit-widths `1, 2, 4, 8, 16` in that order and appends
exactly six allocators to the pool, one for the 32-element source tensor and one per
packed tensor, and six tensors to memory; any number of calls grows the pool by six
per call, the earlier allocators staying in place; and the residual is left as it was,
both its handle (null or not) and its contents. -/
theorem test_allocation_growth (P : Primitives) (self : QuantizerBase) (m : Memory)
    (backend : Backend) (rnd : Nat → Nat) (calls : List Call)
    (htests : ∀ c ∈ calls, c.isTest = true)
    (hres : ∀ r, self.residual = some r → r < m.length) :
    (self.test P m backend rnd).2.2.map TestLog.bit = [1, 2, 4, 8, 16] ∧
      (self.test P m backend rnd).1.allocators =
        self.allocators ++ [⟨backend, 32 * sizeof_float⟩, ⟨backend, 1 * sizeof_float⟩,
          ⟨backend, 2 * sizeof_float⟩, ⟨backend, 4 * sizeof_float⟩,
          ⟨backend, 8 * sizeof_float⟩, ⟨backend, 16 * sizeof_float⟩] ∧
      (self.test P m backend rnd).2.1.length = m.length + 6 ∧
      (self.test P m backend rnd).1.residual = self.residual ∧
      residualData (self.test P m backend rnd).1 (self.test P m backend rnd).2.1 =
        residualData self m ∧
      (run P (self, m) calls).1.allocators.length =
        self.allocators.length + 6 * calls.length ∧
      self.allocators <+: (run P (self, m) calls).1.allocators ∧
      (run P (self, m) calls).1.residual = self.residual ∧
      residualData (run P (self, m) calls).1 (run P (self, m) calls).2 =
        residualData self m := by
  obtain ⟨k1, k2, k3, k4⟩ := run_tests P calls (self, m) htests hres
  refine ⟨?_, ?_, test_length P self m backend rnd, test_residual P self m backend rnd,
    test_residualData P self m backend rnd hres, k1, k2, k3, k4⟩
  · rw [test_log,
      (testLoop_effects P backend rnd 32 (self.newTensor m 32 backend).2.2 testBits
        ⟨(self.newTensor m 32 backend).1, (self.newTensor m 32 backend).2.1, 0, []⟩).2.1]
    rfl
  · rw [test_allocators]
    rfl

/-- Witness of C17: two calls of `test` on the ready instance. -/
theorem test_allocation_growth_witness :
    (run referencePrimitives (readyInstance, readyMemory)
        [Call.test 0 (fun k => 7919 * k + 13), Call.test 0 (fun k => k)]).1.allocators.length =
      readyInstance.allocators.length + 6 * 2 ∧
      residualData (readyInstance.test referencePrimitives readyMemory 0
          (fun k => 7919 * k + 13)).1
        (readyInstance.test referencePrimitives readyMemory 0 (fun k => 7919 * k + 13)).2.1 =
        residualData readyInstance readyMemory :=
  ⟨(test_allocation_growth referencePrimitives readyInstance readyMemory 0
      (fun k => 7919 * k + 13)
      [Call.test 0 (fun k => 7919 * k + 13), Call.test 0 (fun k => k)]
      (by simp [Call.isTest]) (by simp [readyInstance, readyMemory])).2.2.2.2.2.1,
    (test_allocation_growth referencePrimitives readyInstance readyMemory 0
      (fun k => 7919 * k + 13)
      [Call.test 0 (fun k => 7919 * k + 13), Call.test 0 (fun k => k)]
      (by simp [Call.isTest]) (by simp [readyInstance, readyMemory])).2.2.2.2.1⟩

namespace data

/-! ## Checked stores into a vector -/

theorem getD_set {α : Type} (xs : List α) (q p : Nat) (v d : α) :
    (xs.set q v).getD p d = if q = p ∧ q < xs.length then v else xs.getD p d := by
  rw [List.getD_eq_getElem?_getD, List.getD_eq_getElem?_getD, List.getElem?_set]
  by_cases hqp : q = p
  · subst hqp
    by_cases hq : q < xs.length
    · simp [hq]
    · simp [hq, List.getElem?_eq_none (Nat.le_of_not_lt hq)]
  · simp [hqp]

theorem strided_mod (stride offset k : Nat) (h : offset < stride) :
    (k * stride + offset) % stride = offset := by
  rw [Nat.add_comm, Nat.mul_comm, Nat.add_mul_mod_self_left, Nat.mod_eq_of_lt h]

theorem strided_div (stride offset k : Nat) (h : offset < stride) :
    (k * stride + offset) / stride = k := by
  have hpos : 0 < stride := Nat.lt_of_le_of_lt (Nat.zero_le _) h
  rw [Nat.add_comm, Nat.mul_comm, Nat.add_mul_div_left _ _ hpos, Nat.div_eq_of_lt h,
    Nat.zero_add]

theorem strided_eq_iff (stride offset k p : Nat) (h : offset < stride) :
    k * stride + offset = p ↔ p % stride = offset ∧ p / stride = k := by
  constructor
  · intro hp
    subst hp
    exact ⟨strided_mod stride offset k h, strided_div stride offset k h⟩
  · rintro ⟨h1, h2⟩
    have := Nat.div_add_mod p stride
    rw [h1, h2] at this
    rw [← this, Nat.mul_comm]

theorem strided_injective (stride i k i1 k1 : Nat) (hi : i < stride) (hi1 : i1 < stride)
    (h : k * stride + i = k1 * stride + i1) : i = i1 ∧ k = k1 := by
  have h1 := (strided_eq_iff stride i k (k1 * stride + i1) hi).mp h
  rw [strided_mod stride i1 k1 hi1, strided_div stride i1 k1 hi1] at h1
  exact ⟨h1.1.symm, h1.2.symm⟩

theorem stridedStore_length {α : Type} (stride offset : Nat) (vs : List α) :
    ∀ (k0 : Nat) (xs ys : List α), stridedStore stride offset vs k0 xs = some ys →
      ys.length = xs.length := by
  induction vs with
  | nil =>
    intro k0 xs ys h
    simp only [stridedStore, Option.some.injEq] at h
    rw [← h]
  | cons v vs ih =>
    intro k0 xs ys h
    simp only [stridedStore] at h
    split at h
    · rw [ih (k0 + 1) _ ys h, List.length_set]
    · exact absurd h (by simp)

theorem stridedStore_getD {α : Type} (stride offset : Nat) (hoff : offset < stride)
    (vs : List α) :
    ∀ (k0 : Nat) (xs ys : List α), stridedStore stride offset vs k0 xs = some ys →
      ∀ (p : Nat) (d : α), ys.getD p d =
        if p % stride = offset ∧ k0 ≤ p / stride ∧ p / stride < k0 + vs.length then
          vs.getD (p / stride - k0) d
        else xs.getD p d := by
  induction vs with
  | nil =>
    intro k0 xs ys h p d
    simp only [stridedStore, Option.some.injEq] at h
    rw [← h]
    have : ¬ (p % stride = offset ∧ k0 ≤ p / stride ∧ p / stride < k0 + ([] : List α).length) := by
      simp only [List.length_nil, Nat.add_zero]
      omega
    rw [if_neg this]
  | cons v vs ih =>
    intro k0 xs ys h p d
    simp only [stridedStore] at h
    split at h
    · rename_i hlt
      rw [ih (k0 + 1) _ ys h p d, getD_set]
      have hiff := strided_eq_iff stride offset k0 p hoff
      by_cases hmod : p % stride = offset
      · by_cases hk : p / stride = k0
        · have hpos : k0 * stride + offset = p := hiff.mpr ⟨hmod, hk⟩
          have c1 : ¬ (p % stride = offset ∧ k0 + 1 ≤ p / stride ∧
              p / stride < k0 + 1 + vs.length) := by omega
          have c2 : p % stride = offset ∧ k0 ≤ p / stride ∧
              p / stride < k0 + (v :: vs).length := by
            simp only [List.length_cons]
            omega
          rw [if_neg c1, if_pos ⟨hpos, hlt⟩, if_pos c2, hk, Nat.sub_self]
          rfl
        · have hne : ¬ (k0 * stride + offset = p ∧ k0 * stride + offset < xs.length) :=
            fun hc => hk (hiff.mp hc.1).2
          rw [if_neg hne]
          by_cases hin : k0 + 1 ≤ p / stride ∧ p / stride < k0 + 1 + vs.length
          · have c2 : p % stride = offset ∧ k0 ≤ p / stride ∧
                p / stride < k0 + (v :: vs).length := by
              simp only [List.length_cons]
              omega
            rw [if_pos ⟨hmod, hin⟩, if_pos c2]
            have hsub : p / stride - k0 = (p / stride - (k0 + 1)) + 1 := by omega
            rw [hsub]
            rfl
          · have c1 : ¬ (p % stride = offset ∧ k0 + 1 ≤ p / stride ∧
                p / stride < k0 + 1 + vs.length) := fun hc => hin hc.2
            have c2 : ¬ (p % stride = offset ∧ k0 ≤ p / stride ∧
                p / stride < k0 + (v :: vs).length) := by
              simp only [List.length_cons]
              omega
            rw [if_neg c1, if_neg c2]
      · have hne : ¬ (k0 * stride + offset = p ∧ k0 * stride + offset < xs.length) :=
          fun hc => hmod (hiff.mp hc.1).1
        have c1 : ¬ (p % stride = offset ∧ k0 + 1 ≤ p / stride ∧
            p / stride < k0 + 1 + vs.length) := fun hc => hmod hc.1
        have c2 : ¬ (p % stride = offset ∧ k0 ≤ p / stride ∧
            p / stride < k0 + (v :: vs).length) := fun hc => hmod hc.1
        rw [if_neg hne, if_neg c1, if_neg c2]
    · exact absurd h (by simp)

theorem stridedStore_isSome {α : Type} (stride offset : Nat) (hoff : offset < stride)
    (vs : List α) :
    ∀ (k0 : Nat) (xs : List α), (k0 + vs.length) * stride ≤ xs.length →
      ∃ ys, stridedStore stride offset vs k0 xs = some ys := by
  induction vs with
  | nil => intro k0 xs _; exact ⟨xs, rfl⟩
  | cons v vs ih =>
    intro k0 xs h
    have hlt : k0 * stride + offset < xs.length := by
      have h1 : (k0 + 1) * stride ≤ (k0 + (v :: vs).length) * stride :=
        Nat.mul_le_mul_right _ (by simp)
      have h2 : (k0 + 1) * stride = k0 * stride + stride := by ring
      omega
    simp only [stridedStore, if_pos hlt]
    apply ih (k0 + 1)
    rw [List.length_set]
    have : k0 + 1 + vs.length = k0 + (v :: vs).length := by
      simp only [List.length_cons]
      omega
    rw [this]
    exact h

end data

namespace data

theorem getD_combine {α : Type} (B b : Nat) (bs : List Nat) (H : Nat → List α)
    (x y z : List α)
    (h1 : ∀ p d, y.getD p d =
      if p % B = b ∧ 0 ≤ p / B ∧ p / B < 0 + (H b).length then (H b).getD (p / B - 0) d
      else x.getD p d)
    (h2 : ∀ p d, z.getD p d =
      if p % B ∈ bs ∧ p / B < (H (p % B)).length then (H (p % B)).getD (p / B) d
      else y.getD p d) :
    ∀ p d, z.getD p d =
      if p % B ∈ b :: bs ∧ p / B < (H (p % B)).length then (H (p % B)).getD (p / B) d
      else x.getD p d := by
  intro p d
  rw [h2 p d, h1 p d]
  by_cases hm : p % B ∈ bs ∧ p / B < (H (p % B)).length
  · rw [if_pos hm, if_pos ⟨List.mem_cons_of_mem _ hm.1, hm.2⟩]
  · rw [if_neg hm]
    by_cases hb : p % B = b ∧ p / B < (H b).length
    · have c1 : p % B = b ∧ 0 ≤ p / B ∧ p / B < 0 + (H b).length :=
        ⟨hb.1, Nat.zero_le _, by rw [Nat.zero_add]; exact hb.2⟩
      have c2 : p % B ∈ b :: bs ∧ p / B < (H (p % B)).length :=
        ⟨by rw [hb.1]; exact List.mem_cons_self _ _, by rw [hb.1]; exact hb.2⟩
      rw [if_pos c1, if_pos c2, hb.1, Nat.sub_zero]
    · have c1 : ¬ (p % B = b ∧ 0 ≤ p / B ∧ p / B < 0 + (H b).length) := by
        intro hc
        exact hb ⟨hc.1, by have := hc.2.2; rwa [Nat.zero_add] at this⟩
      have c2 : ¬ (p % B ∈ b :: bs ∧ p / B < (H (p % B)).length) := by
        intro hc
        rcases List.mem_cons.mp hc.1 with h | h
        · exact hb ⟨h, by have := hc.2; rwa [h] at this⟩
        · exact hm ⟨h, hc.2⟩
      rw [if_neg c1, if_neg c2]

theorem stream_of_getElem (bv : List SentenceTuple) (i j : Nat) (ex : SentenceTuple)
    (h : bv[i]? = some ex) : stream bv i j = ex.tuple.getD j [] := by
  simp [stream, h]

namespace Corpus

/-! ## The loops of `toBatch` -/

theorem fillStream_spec (B i : Nat) (ws : Words) :
    ∀ (k0 : Nat) (s r : SubBatch × Nat), fillStream B i ws k0 s = some r →
      stridedStore B i ws k0 s.1.indices = some r.1.indices ∧
        stridedStore B i (ws.map fun _ => (1 : ℚ)) k0 s.1.mask = some r.1.mask ∧
        r.1.size = s.1.size ∧ r.1.width = s.1.width ∧ r.2 = s.2 + ws.length := by
  induction ws with
  | nil =>
    intro k0 s r h
    simp only [fillStream, Option.some.injEq] at h
    subst h
    simp [stridedStore]
  | cons w ws ih =>
    intro k0 s r h
    simp only [fillStream, writeWord] at h
    split at h
    · exact absurd h (by simp)
    · rename_i sb hsb
      split at hsb
      · rename_i hlt
        simp only [Option.some.injEq] at hsb
        subst hsb
        obtain ⟨h1, h2, h3, h4, h5⟩ := ih (k0 + 1) _ r h
        refine ⟨?_, ?_, h3, h4, ?_⟩
        · simp only [stridedStore, if_pos hlt.1]
          exact h1
        · simp only [List.map_cons, stridedStore, if_pos hlt.2]
          exact h2
        · rw [h5, List.length_cons]
          simp only
          omega
      · exact absurd hsb (by simp)

theorem fillStream_isSome (B i : Nat) (hi : i < B) (ws : Words) :
    ∀ (k0 : Nat) (s : SubBatch × Nat), (k0 + ws.length) * B ≤ s.1.indices.length →
      (k0 + ws.length) * B ≤ s.1.mask.length → ∃ r, fillStream B i ws k0 s = some r := by
  induction ws with
  | nil => intro k0 s _ _; exact ⟨s, rfl⟩
  | cons w ws ih =>
    intro k0 s h1 h2
    have hk : (k0 + 1) * B ≤ (k0 + (w :: ws).length) * B :=
      Nat.mul_le_mul_right _ (by simp)
    have hk2 : (k0 + 1) * B = k0 * B + B := by ring
    have hlt : k0 * B + i < s.1.indices.length ∧ k0 * B + i < s.1.mask.length := by
      constructor <;> omega
    have hlen : k0 + 1 + ws.length = k0 + (w :: ws).length := by
      simp only [List.length_cons]
      omega
    simp only [fillStream, writeWord, if_pos hlt]
    apply ih (k0 + 1)
    · simp only [List.length_set]
      rw [hlen]
      exact h1
    · simp only [List.length_set]
      rw [hlen]
      exact h2

theorem fillSample_spec (B i : Nat) (st : List (SubBatch × Nat)) :
    ∀ (streams : List Words) (st1 : List (SubBatch × Nat)),
      fillSample B i streams st = some st1 →
      st1.length = st.length ∧ st.length ≤ streams.length ∧
        ∀ j s, st[j]? = some s →
          ∃ s1, st1[j]? = some s1 ∧ fillStream B i (streams.getD j []) 0 s = some s1 := by
  induction st with
  | nil =>
    intro streams st1 h
    simp only [fillSample, Option.some.injEq] at h
    subst h
    exact ⟨rfl, Nat.zero_le _, fun j s hj => by simp at hj⟩
  | cons s0 ss ih =>
    intro streams st1 h
    cases streams with
    | nil => simp [fillSample] at h
    | cons ws rest =>
      simp only [fillSample] at h
      split at h
      · exact absurd h (by simp)
      · rename_i r0 hr0
        split at h
        · exact absurd h (by simp)
        · rename_i ss1 hss1
          simp only [Option.some.injEq] at h
          subst h
          obtain ⟨k1, k2, k3⟩ := ih rest ss1 hss1
          refine ⟨by simp [k1], by simp only [List.length_cons]; omega, ?_⟩
          intro j s hj
          cases j with
          | zero =>
            simp only [List.getElem?_cons_zero, Option.some.injEq] at hj
            subst hj
            exact ⟨r0, by simp, by simpa using hr0⟩
          | succ j =>
            simp only [List.getElem?_cons_succ] at hj
            obtain ⟨s1, h1, h2⟩ := k3 j s hj
            exact ⟨s1, by simpa using h1, by simpa using h2⟩

theorem fillSample_isSome (B i : Nat) (st : List (SubBatch × Nat)) :
    ∀ streams : List Words, st.length ≤ streams.length →
      (∀ j s, st[j]? = some s → ∃ r, fillStream B i (streams.getD j []) 0 s = some r) →
      ∃ st1, fillSample B i streams st = some st1 := by
  induction st with
  | nil => intro streams _ _; exact ⟨[], by simp [fillSample]⟩
  | cons s0 ss ih =>
    intro streams hlen hall
    cases streams with
    | nil => simp at hlen
    | cons ws rest =>
      obtain ⟨r0, hr0⟩ := hall 0 s0 (by simp)
      obtain ⟨ss1, hss1⟩ := ih rest (by simpa using hlen)
        (fun j s hj => by simpa using hall (j + 1) s (by simpa using hj))
      have hr0' : fillStream B i ws 0 s0 = some r0 := by simpa using hr0
      exact ⟨r0 :: ss1, by simp [fillSample, hr0', hss1]⟩

theorem fillSample_none (B i : Nat) (st : List (SubBatch × Nat)) :
    ∀ streams : List Words, streams.length < st.length →
      fillSample B i streams st = none := by
  intro streams hlt
  cases h : fillSample B i streams st with
  | none => rfl
  | some st1 =>
    have := (fillSample_spec B i st streams st1 h).2.1
    omega

end Corpus

end data

namespace data

namespace Corpus

theorem fillBatch_spec (B : Nat) (bv : List SentenceTuple) (is : List Nat) :
    ∀ (st st1 : List (SubBatch × Nat)), fillBatch B bv is st = some st1 →
      (∀ i ∈ is, i < B) →
      st1.length = st.length ∧
        (∀ i ∈ is, ∃ ex, bv[i]? = some ex ∧ st.length ≤ ex.tuple.length) ∧
        ∀ j s, st[j]? = some s →
          ∃ s1, st1[j]? = some s1 ∧ s1.1.size = s.1.size ∧ s1.1.width = s.1.width ∧
            s1.1.indices.length = s.1.indices.length ∧
            s1.1.mask.length = s.1.mask.length ∧
            s1.2 = s.2 + (is.map fun i => (stream bv i j).length).sum ∧
            (∀ p d, s1.1.indices.getD p d =
              if p % B ∈ is ∧ p / B < (stream bv (p % B) j).length then
                (stream bv (p % B) j).getD (p / B) d
              else s.1.indices.getD p d) ∧
            ∀ p d, s1.1.mask.getD p d =
              if p % B ∈ is ∧ p / B < ((stream bv (p % B) j).map fun _ => (1 : ℚ)).length then
                ((stream bv (p % B) j).map fun _ => (1 : ℚ)).getD (p / B) d
              else s.1.mask.getD p d := by
  induction is with
  | nil =>
    intro st st1 h _
    simp only [fillBatch, Option.some.injEq] at h
    subst h
    refine ⟨rfl, fun i hi => absurd hi (List.not_mem_nil i), ?_⟩
    intro j s hj
    exact ⟨s, hj, rfl, rfl, rfl, rfl, by simp, by simp, by simp⟩
  | cons i is ih =>
    intro st st2 h hB
    simp only [fillBatch] at h
    split at h
    · exact absurd h (by simp)
    · rename_i ex hex
      split at h
      · exact absurd h (by simp)
      · rename_i st1 hst1
        have hi : i < B := hB i (List.mem_cons_self _ _)
        obtain ⟨a1, a2, a3⟩ := fillSample_spec B i st ex.tuple st1 hst1
        obtain ⟨b1, b2, b3⟩ := ih st1 st2 h (fun i1 h1 => hB i1 (List.mem_cons_of_mem _ h1))
        refine ⟨by rw [b1, a1], ?_, ?_⟩
        · intro i1 h1
          rcases List.mem_cons.mp h1 with h1 | h1
          · rw [h1]
            exact ⟨ex, hex, a2⟩
          · obtain ⟨ex1, e1, e2⟩ := b2 i1 h1
            exact ⟨ex1, e1, by rw [← a1]; exact e2⟩
        · intro j s hj
          obtain ⟨s1, c1, c2⟩ := a3 j s hj
          obtain ⟨d1, d2, d3, d4, d5⟩ := fillStream_spec B i _ 0 s s1 c2
          obtain ⟨s2, e1, e2, e3, e4, e5, e6, e7, e8⟩ := b3 j s1 c1
          have hst : stream bv i j = ex.tuple.getD j [] := stream_of_getElem bv i j ex hex
          rw [← hst] at d1 d2 d5
          refine ⟨s2, e1, by rw [e2, d3], by rw [e3, d4],
            by rw [e4, stridedStore_length B i _ 0 _ _ d1],
            by rw [e5, stridedStore_length B i _ 0 _ _ d2], ?_, ?_, ?_⟩
          · rw [e6, d5, List.map_cons, List.sum_cons]
            omega
          · exact getD_combine B i is (fun i1 => stream bv i1 j) s.1.indices s1.1.indices
              s2.1.indices (stridedStore_getD B i hi _ 0 _ _ d1) e7
          · exact getD_combine B i is (fun i1 => (stream bv i1 j).map fun _ => (1 : ℚ))
              s.1.mask s1.1.mask s2.1.mask (stridedStore_getD B i hi _ 0 _ _ d2) e8

theorem fillBatch_isSome (B : Nat) (bv : List SentenceTuple) (is : List Nat) :
    ∀ st : List (SubBatch × Nat), (∀ i ∈ is, i < B) →
      (∀ i ∈ is, ∃ ex, bv[i]? = some ex ∧ st.length ≤ ex.tuple.length) →
      (∀ j s, st[j]? = some s → ∀ i ∈ is,
        (stream bv i j).length * B ≤ s.1.indices.length ∧
          (stream bv i j).length * B ≤ s.1.mask.length) →
      ∃ st1, fillBatch B bv is st = some st1 := by
  induction is with
  | nil => intro st _ _ _; exact ⟨st, rfl⟩
  | cons i is ih =>
    intro st hB hex hfit
    obtain ⟨ex, e1, e2⟩ := hex i (List.mem_cons_self _ _)
    have hi : i < B := hB i (List.mem_cons_self _ _)
    have hst : ∀ j, stream bv i j = ex.tuple.getD j [] :=
      fun j => stream_of_getElem bv i j ex e1
    obtain ⟨st1, h1⟩ := fillSample_isSome B i st ex.tuple e2 (by
      intro j s hj
      have := hfit j s hj i (List.mem_cons_self _ _)
      rw [hst j] at this
      exact fillStream_isSome B i hi _ 0 s (by rw [Nat.zero_add]; exact this.1)
        (by rw [Nat.zero_add]; exact this.2))
    obtain ⟨a1, _, a3⟩ := fillSample_spec B i st ex.tuple st1 h1
    obtain ⟨st2, h2⟩ := ih st1 (fun i1 h => hB i1 (List.mem_cons_of_mem _ h))
      (by
        intro i1 h
        obtain ⟨ex1, f1, f2⟩ := hex i1 (List.mem_cons_of_mem _ h)
        exact ⟨ex1, f1, by rw [a1]; exact f2⟩)
      (by
        intro j s1 hj i1 h
        have hjlt : j < st.length := by
          rw [← a1]
          by_contra hge
          rw [List.getElem?_eq_none (Nat.le_of_not_lt hge)] at hj
          exact absurd hj (by simp)
        obtain ⟨s1', c1, c2⟩ := a3 j st[j] (List.getElem?_eq_getElem hjlt)
        rw [hj] at c1
        simp only [Option.some.injEq] at c1
        subst c1
        obtain ⟨d1, d2, _, _, _⟩ := fillStream_spec B i _ 0 _ _ c2
        have := hfit j st[j] (List.getElem?_eq_getElem hjlt) i1 (List.mem_cons_of_mem _ h)
        rw [stridedStore_length B i _ 0 _ _ d1, stridedStore_length B i _ 0 _ _ d2]
        exact this)
    exact ⟨st2, by simp [fillBatch, e1, h1, h2]⟩

theorem fillBatch_none (B : Nat) (bv : List SentenceTuple) (is : List Nat) :
    ∀ st : List (SubBatch × Nat),
      (∃ i ∈ is, ∀ ex, bv[i]? = some ex → ex.tuple.length < st.length) →
      fillBatch B bv is st = none := by
  induction is with
  | nil =>
    intro st h
    obtain ⟨i, hi, _⟩ := h
    exact absurd hi (List.not_mem_nil i)
  | cons i is ih =>
    intro st h
    simp only [fillBatch]
    split
    · rfl
    · rename_i ex hex
      split
      · rfl
      · rename_i st1 hst1
        obtain ⟨a1, a2, _⟩ := fillSample_spec B i st ex.tuple st1 hst1
        apply ih st1
        obtain ⟨i1, h1, h2⟩ := h
        rcases List.mem_cons.mp h1 with h1 | h1
        · subst h1
          have := h2 ex hex
          omega
        · exact ⟨i1, h1, fun ex1 he => by rw [a1]; exact h2 ex1 he⟩

end Corpus

end data

namespace data

namespace Corpus

/-! ## The widths `maxDims` -/

theorem resizeDims_length (ds : List Nat) (n : Nat) :
    (resizeDims ds n).length = max ds.length n := by
  unfold resizeDims
  split
  · rw [List.length_append, List.length_replicate]
    omega
  · omega

theorem resizeDims_getD (ds : List Nat) (n j : Nat) :
    (resizeDims ds n).getD j 0 = ds.getD j 0 := by
  unfold resizeDims
  split
  · rw [List.getD_eq_getElem?_getD, List.getD_eq_getElem?_getD]
    by_cases hj : j < ds.length
    · rw [List.getElem?_append_left hj]
    · rw [List.getElem?_append_right (Nat.le_of_not_lt hj),
        List.getElem?_eq_none (Nat.le_of_not_lt hj), List.getElem?_replicate]
      split <;> rfl
  · rfl

theorem raiseDims_length (t : List Words) :
    ∀ ds : List Nat, t.length ≤ ds.length → (raiseDims ds t).length = ds.length := by
  induction t with
  | nil => intro ds _; cases ds <;> rfl
  | cons ws rest ih =>
    intro ds h
    cases ds with
    | nil => simp at h
    | cons d ds =>
      simp only [raiseDims, List.length_cons]
      rw [ih ds (by simpa using h)]

theorem raiseDims_getD (t : List Words) :
    ∀ (ds : List Nat) (j : Nat), t.length ≤ ds.length →
      (raiseDims ds t).getD j 0 = max (ds.getD j 0) (t.getD j []).length := by
  induction t with
  | nil =>
    intro ds j _
    cases ds <;> simp [raiseDims]
  | cons ws rest ih =>
    intro ds j h
    cases ds with
    | nil => simp at h
    | cons d ds =>
      cases j with
      | zero =>
        simp only [raiseDims, List.getD_cons_zero]
        split <;> omega
      | succ j =>
        simp only [raiseDims, List.getD_cons_succ]
        exact ih ds j (by simpa using h)

theorem raise_step_length (ds : List Nat) (ex : SentenceTuple) :
    (raiseDims (resizeDims ds ex.tuple.length) ex.tuple).length =
      max ds.length ex.tuple.length := by
  rw [raiseDims_length _ _ (by rw [resizeDims_length]; exact Nat.le_max_right _ _),
    resizeDims_length]

theorem raise_step_getD (ds : List Nat) (ex : SentenceTuple) (j : Nat) :
    (raiseDims (resizeDims ds ex.tuple.length) ex.tuple).getD j 0 =
      max (ds.getD j 0) (ex.tuple.getD j []).length := by
  rw [raiseDims_getD _ _ _ (by rw [resizeDims_length]; exact Nat.le_max_right _ _),
    resizeDims_getD]

theorem foldDims_length (bv : List SentenceTuple) :
    ∀ ds : List Nat,
      (bv.foldl (fun dims ex => raiseDims (resizeDims dims ex.tuple.length) ex.tuple) ds).length =
        max ds.length ((bv.map fun ex => ex.tuple.length).foldr max 0) := by
  induction bv with
  | nil => intro ds; simp
  | cons ex rest ih =>
    intro ds
    rw [List.foldl_cons, ih, raise_step_length]
    simp only [List.map_cons, List.foldr_cons]
    omega

theorem foldDims_getD (bv : List SentenceTuple) (j : Nat) :
    ∀ ds : List Nat,
      (bv.foldl (fun dims ex => raiseDims (resizeDims dims ex.tuple.length) ex.tuple) ds).getD
          j 0 =
        max (ds.getD j 0)
          (((bv.filterMap fun ex => ex.tuple[j]?).map List.length).foldr max 0) := by
  induction bv with
  | nil => intro ds; simp
  | cons ex rest ih =>
    intro ds
    rw [List.foldl_cons, ih, raise_step_getD]
    cases h : ex.tuple[j]? with
    | none =>
      have : ex.tuple.getD j [] = [] := by
        rw [List.getD_eq_getElem?_getD, h]
        rfl
      rw [this]
      simp [List.filterMap_cons, h]
    | some ws =>
      have : ex.tuple.getD j [] = ws := by
        rw [List.getD_eq_getElem?_getD, h]
        rfl
      rw [this]
      simp only [List.filterMap_cons, h, List.map_cons, List.foldr_cons]
      omega

theorem maxDims_length (bv : List SentenceTuple) :
    (maxDims bv).length = (bv.map fun ex => ex.tuple.length).foldr max 0 := by
  unfold maxDims
  rw [foldDims_length]
  simp

theorem maxDims_getD (bv : List SentenceTuple) (j : Nat) :
    (maxDims bv).getD j 0 =
      ((bv.filterMap fun ex => ex.tuple[j]?).map List.length).foldr max 0 := by
  unfold maxDims
  rw [foldDims_getD]
  simp

theorem le_foldr_max (l : List Nat) (x : Nat) (h : x ∈ l) : x ≤ l.foldr max 0 := by
  induction l with
  | nil => exact absurd h (List.not_mem_nil x)
  | cons y ys ih =>
    simp only [List.foldr_cons]
    rcases List.mem_cons.mp h with h | h
    · rw [h]
      exact Nat.le_max_left _ _
    · exact Nat.le_trans (ih h) (Nat.le_max_right _ _)

theorem foldr_max_const (l : List Nat) (m : Nat) (hne : l ≠ []) (h : ∀ x ∈ l, x = m) :
    l.foldr max 0 = m := by
  induction l with
  | nil => exact absurd rfl hne
  | cons y ys ih =>
    simp only [List.foldr_cons]
    rw [h y (List.mem_cons_self _ _)]
    cases ys with
    | nil => simp
    | cons z zs =>
      rw [ih (by simp) (fun x hx => h x (List.mem_cons_of_mem _ hx))]
      simp

theorem stream_le_maxDims (bv : List SentenceTuple) (i j : Nat) :
    (stream bv i j).length ≤ (maxDims bv).getD j 0 := by
  unfold stream
  cases hi : bv[i]? with
  | none => simp
  | some ex =>
    simp only
    rw [List.getD_eq_getElem?_getD]
    cases hj : ex.tuple[j]? with
    | none => simp
    | some ws =>
      simp only [Option.getD_some]
      rw [maxDims_getD]
      apply le_foldr_max
      rw [List.mem_map]
      refine ⟨ws, ?_, rfl⟩
      rw [List.mem_filterMap]
      exact ⟨ex, List.getElem?_mem hi, hj⟩

theorem maxDims_length_of_equal (bv : List SentenceTuple) (m : Nat) (hne : bv ≠ [])
    (hm : ∀ ex ∈ bv, ex.tuple.length = m) : (maxDims bv).length = m := by
  rw [maxDims_length]
  apply foldr_max_const
  · simpa using hne
  · intro x hx
    rw [List.mem_map] at hx
    obtain ⟨ex, he, rfl⟩ := hx
    exact hm ex he

end Corpus

end data

namespace data

theorem getD_replicate_self {α : Type} (n p : Nat) (a : α) :
    (List.replicate n a).getD p a = a := by
  rw [List.getD_eq_getElem?_getD, List.getElem?_replicate]
  split <;> rfl

theorem map_range_getElem? {α β : Type} (l : List α) (g : Option α → β) :
    (List.range l.length).map (fun i => g l[i]?) = l.map (fun x => g (some x)) := by
  induction l with
  | nil => rfl
  | cons x xs ih =>
    rw [List.length_cons, List.range_succ_eq_map, List.map_cons, List.map_map, List.map_cons,
      ← ih]
    simp only [List.getElem?_cons_zero, Function.comp_def, List.getElem?_cons_succ,
      Nat.succ_eq_add_one]

theorem sum_stream_lengths (bv : List SentenceTuple) (j : Nat) :
    ((List.range bv.length).map fun i => (stream bv i j).length).sum =
      (bv.map fun ex => (ex.tuple.getD j []).length).sum := by
  have h := map_range_getElem? bv (fun o : Option SentenceTuple =>
    (match o with
      | some ex => ex.tuple.getD j []
      | none => ([] : Words)).length)
  unfold stream
  rw [h]

theorem finset_sum_range_eq (f : Nat → Nat) (n : Nat) :
    ∑ i ∈ Finset.range n, f i = ((List.range n).map f).sum := by
  induction n with
  | zero => rfl
  | succ n ih => rw [Finset.sum_range_succ, List.sum_range_succ, ih]

theorem written_positions_card (B : Nat) (len : Nat → Nat) :
    (((Finset.range B).sigma fun i => Finset.range (len i)).image
      fun x => x.2 * B + x.1).card = ((List.range B).map len).sum := by
  rw [Finset.card_image_of_injOn, Finset.card_sigma, ← finset_sum_range_eq]
  · simp
  · intro x hx y hy hxy
    simp only [Finset.coe_sigma, Finset.coe_range, Set.mem_sigma_iff, Set.mem_Iio] at hx hy
    obtain ⟨h1, h2⟩ := strided_injective B x.1 x.2 y.1 y.2 hx.1 hy.1 hxy
    exact Sigma.ext h1 (heq_of_eq h2)

namespace Corpus

/-! ## The batch built by `toBatch` -/

theorem createSubBatches_getElem? (pad : Word) (padMask : ℚ) (bv : List SentenceTuple)
    (j : Nat) (sb : SubBatch) (h : (createSubBatches pad padMask bv)[j]? = some sb) :
    sb = SubBatch.create pad padMask bv.length ((maxDims bv).getD j 0) ∧
      j < (maxDims bv).length := by
  unfold createSubBatches at h
  rw [List.getElem?_map] at h
  cases hd : (maxDims bv)[j]? with
  | none => rw [hd] at h; exact absurd h (by simp)
  | some w =>
    rw [hd] at h
    simp only [Option.map_some', Option.some.injEq] at h
    have hlt : j < (maxDims bv).length := by
      by_contra hge
      rw [List.getElem?_eq_none (Nat.le_of_not_lt hge)] at hd
      exact absurd hd (by simp)
    rw [List.getD_eq_getElem?_getD, hd]
    exact ⟨h.symm, hlt⟩

theorem buildBatch_some (pad : Word) (padMask : ℚ) (bv : List SentenceTuple)
    (batch : CorpusBatch) (h : buildBatch pad padMask bv = some batch) :
    batch.sentenceIds = sentenceIds bv ∧ batch.guidedAlignment = [] ∧
      batch.dataWeights = [] ∧ batch.subBatches.length = (maxDims bv).length ∧
      ∀ j sb, batch.subBatches[j]? = some sb →
        sb.size = bv.length ∧ sb.width = (maxDims bv).getD j 0 ∧
          sb.indices.length = bv.length * (maxDims bv).getD j 0 ∧
          sb.mask.length = bv.length * (maxDims bv).getD j 0 ∧
          sb.words = (bv.map fun ex => (ex.tuple.getD j []).length).sum ∧
          (∀ p, sb.indices.getD p pad =
            if p % bv.length < bv.length ∧ p / bv.length < (stream bv (p % bv.length) j).length
            then (stream bv (p % bv.length) j).getD (p / bv.length) pad else pad) ∧
          ∀ p, sb.mask.getD p padMask =
            if p % bv.length < bv.length ∧ p / bv.length < (stream bv (p % bv.length) j).length
            then 1 else padMask := by
  unfold buildBatch at h
  split at h
  · exact absurd h (by simp)
  · rename_i filled hfill
    simp only [Option.some.injEq] at h
    subst h
    obtain ⟨a1, _, a3⟩ := fillBatch_spec bv.length bv (List.range bv.length) _ filled hfill
      (fun i hi => List.mem_range.mp hi)
    have hlen : filled.length = (maxDims bv).length := by
      rw [a1]
      simp [createSubBatches]
    refine ⟨rfl, rfl, rfl, by simp [hlen], ?_⟩
    intro j sb hj
    simp only [List.getElem?_map] at hj
    cases hf : filled[j]? with
    | none => rw [hf] at hj; exact absurd hj (by simp)
    | some s1 =>
      rw [hf] at hj
      simp only [Option.map_some', Option.some.injEq] at hj
      have hjlt : j < (createSubBatches pad padMask bv).length := by
        have : j < filled.length := by
          by_contra hge
          rw [List.getElem?_eq_none (Nat.le_of_not_lt hge)] at hf
          exact absurd hf (by simp)
        rw [a1] at this
        simpa using this
      have hc := createSubBatches_getElem? pad padMask bv j _
        (List.getElem?_eq_getElem hjlt)
      have hst : ((createSubBatches pad padMask bv).map fun sb => (sb, 0))[j]? =
          some ((createSubBatches pad padMask bv)[j], 0) := by
        rw [List.getElem?_map, List.getElem?_eq_getElem hjlt]
        rfl
      obtain ⟨s2, b1, b2, b3, b4, b5, b6, b7, b8⟩ := a3 j _ hst
      rw [hf] at b1
      simp only [Option.some.injEq] at b1
      subst b1
      subst hj
      rw [hc.1] at b2 b3 b4 b5 b7 b8
      simp only [SubBatch.create, List.length_replicate] at b2 b3 b4 b5
      refine ⟨b2, b3, b4, b5, ?_, ?_, ?_⟩
      · show s1.2 = _
        rw [b6, sum_stream_lengths]
        simp
      · intro p
        have := b7 p pad
        simp only [SubBatch.create, getD_replicate_self, List.mem_range] at this
        exact this
      · intro p
        have := b8 p padMask
        simp only [SubBatch.create, getD_replicate_self, List.mem_range, List.length_map] at this
        show s1.1.mask.getD p padMask = _
        rw [this]
        split
        · rename_i hc2
          rw [List.getD_eq_getElem?_getD, List.getElem?_map,
            List.getElem?_eq_getElem hc2.2]
          rfl
        · rfl

theorem buildBatch_isSome (pad : Word) (padMask : ℚ) (bv : List SentenceTuple) (m : Nat)
    (hm : ∀ ex ∈ bv, ex.tuple.length = m) : ∃ batch, buildBatch pad padMask bv = some batch := by
  have hfill : ∃ st1, fillBatch bv.length bv (List.range bv.length)
      ((createSubBatches pad padMask bv).map fun sb => (sb, 0)) = some st1 := by
    apply fillBatch_isSome
    · exact fun i hi => List.mem_range.mp hi
    · intro i hi
      have hlt : i < bv.length := List.mem_range.mp hi
      refine ⟨bv[i], List.getElem?_eq_getElem hlt, ?_⟩
      have hne : bv ≠ [] := by
        intro he
        rw [he] at hlt
        exact absurd hlt (Nat.not_lt_zero i)
      rw [hm bv[i] (List.getElem_mem hlt)]
      simp [createSubBatches, maxDims_length_of_equal bv m hne hm]
    · intro j s hj i _
      rw [List.getElem?_map] at hj
      cases hs : (createSubBatches pad padMask bv)[j]? with
      | none => rw [hs] at hj; exact absurd hj (by simp)
      | some sb =>
        rw [hs] at hj
        simp only [Option.map_some', Option.some.injEq] at hj
        subst hj
        rw [(createSubBatches_getElem? pad padMask bv j sb hs).1]
        simp only [SubBatch.create, List.length_replicate]
        have := stream_le_maxDims bv i j
        constructor <;>
          · rw [Nat.mul_comm]
            exact Nat.mul_le_mul_left _ this
  obtain ⟨st1, h1⟩ := hfill
  refine ⟨⟨st1.map fun s => s.1.setWords s.2, sentenceIds bv, [], []⟩, ?_⟩
  simp only [buildBatch, h1]

theorem buildBatch_none (pad : Word) (padMask : ℚ) (bv : List SentenceTuple)
    (h : ∃ ex ∈ bv, ex.tuple.length < (maxDims bv).length) :
    buildBatch pad padMask bv = none := by
  obtain ⟨ex, he, hlt⟩ := h
  obtain ⟨i, hi, hget⟩ := List.getElem_of_mem he
  have hnone : fillBatch bv.length bv (List.range bv.length)
      ((createSubBatches pad padMask bv).map fun sb => (sb, 0)) = none := by
    apply fillBatch_none
    refine ⟨i, List.mem_range.mpr hi, ?_⟩
    intro ex1 h1
    rw [List.getElem?_eq_getElem hi, hget] at h1
    simp only [Option.some.injEq] at h1
    subst h1
    simpa [createSubBatches] using hlt
  simp only [buildBatch, hnone]

end Corpus

end data

namespace data

namespace Corpus

theorem addAlignmentsToBatch_frame (batch out : CorpusBatch) (bv : List SentenceTuple)
    (h : addAlignmentsToBatch batch bv = some out) :
    out.subBatches = batch.subBatches ∧ out.sentenceIds = batch.sentenceIds ∧
      out.dataWeights = batch.dataWeights := by
  unfold addAlignmentsToBatch at h
  split at h
  · split at h
    · exact absurd h (by simp)
    · simp only [Option.some.injEq] at h
      subst h
      exact ⟨rfl, rfl, rfl⟩
  · exact absurd h (by simp)

theorem addWeightsToBatch_frame (options : Config) (batch out : CorpusBatch)
    (bv : List SentenceTuple) (h : addWeightsToBatch options batch bv = some out) :
    out.subBatches = batch.subBatches ∧ out.sentenceIds = batch.sentenceIds ∧
      out.guidedAlignment = batch.guidedAlignment := by
  unfold addWeightsToBatch at h
  split at h
  · exact absurd h (by simp)
  · split at h
    · exact absurd h (by simp)
    · simp only [Option.some.injEq] at h
      subst h
      exact ⟨rfl, rfl, rfl⟩

theorem toBatch_some (options : Config) (pad : Word) (padMask : ℚ)
    (bv : List SentenceTuple) (batch : CorpusBatch)
    (h : toBatch options pad padMask bv = some batch) :
    ∃ b0, buildBatch pad padMask bv = some b0 ∧ batch.subBatches = b0.subBatches ∧
      batch.sentenceIds = b0.sentenceIds := by
  unfold toBatch at h
  split at h
  · exact absurd h (by simp)
  · rename_i b0 hb0
    refine ⟨b0, hb0, ?_⟩
    split at h
    · exact absurd h (by simp)
    · rename_i b1 hb1
      have h01 : b1.subBatches = b0.subBatches ∧ b1.sentenceIds = b0.sentenceIds := by
        split at hb1
        · exact ⟨(addAlignmentsToBatch_frame b0 b1 bv hb1).1,
            (addAlignmentsToBatch_frame b0 b1 bv hb1).2.1⟩
        · simp only [Option.some.injEq] at hb1
          subst hb1
          exact ⟨rfl, rfl⟩
      split at h
      · have := addWeightsToBatch_frame options b1 batch bv h
        exact ⟨by rw [this.1, h01.1], by rw [this.2.1, h01.2]⟩
      · simp only [Option.some.injEq] at h
        subst h
        exact h01

/-- C12: index safety of `toBatch`.  For a non-empty `batchVector` whose samples all
have `m` streams, `maxDims` has `m` entries, `batchVector[i][j]` exists for all
`i < batchSize` and `j < m`, every written position `k * batchSize + i` lies below
`batchSize * maxDims[j]`, the size of the indices and mask arrays of sub-batch `j`, and
the loops run through without any access out of bounds.  Without the precondition, a
sample with fewer streams than `maxDims` has entries is read past its end. -/
theorem toBatch_index_safety (pad : Word) (padMask : ℚ) (bv : List SentenceTuple) (m : Nat)
    (hne : bv ≠ []) (hm : ∀ ex ∈ bv, ex.tuple.length = m) :
    (maxDims bv).length = m ∧
      (∀ i j, i < bv.length → j < m →
        ∃ ex ws, bv[i]? = some ex ∧ ex.tuple[j]? = some ws ∧
          ∀ k, k < ws.length → k * bv.length + i < bv.length * (maxDims bv).getD j 0) ∧
      (∀ j sb, (createSubBatches pad padMask bv)[j]? = some sb →
        sb.indices.length = bv.length * (maxDims bv).getD j 0 ∧
          sb.mask.length = bv.length * (maxDims bv).getD j 0) ∧
      (∃ batch, buildBatch pad padMask bv = some batch) ∧
      ∀ bv1 : List SentenceTuple, (∃ ex ∈ bv1, ex.tuple.length < (maxDims bv1).length) →
        buildBatch pad padMask bv1 = none := by
  refine ⟨maxDims_length_of_equal bv m hne hm, ?_, ?_, buildBatch_isSome pad padMask bv m hm,
    fun bv1 h => buildBatch_none pad padMask bv1 h⟩
  · intro i j hi hj
    have hjlt : j < (bv[i]).tuple.length := by
      rw [hm bv[i] (List.getElem_mem hi)]
      exact hj
    refine ⟨bv[i], (bv[i]).tuple[j], List.getElem?_eq_getElem hi,
      List.getElem?_eq_getElem hjlt, ?_⟩
    intro k hk
    have hst : stream bv i j = (bv[i]).tuple[j] := by
      rw [stream_of_getElem bv i j bv[i] (List.getElem?_eq_getElem hi),
        List.getD_eq_getElem?_getD, List.getElem?_eq_getElem hjlt]
      rfl
    have hle := stream_le_maxDims bv i j
    rw [hst] at hle
    have h1 : (k + 1) * bv.length ≤ (maxDims bv).getD j 0 * bv.length :=
      Nat.mul_le_mul_right _ (Nat.lt_of_lt_of_le hk hle)
    have h2 : (k + 1) * bv.length = k * bv.length + bv.length := by ring
    have h3 : (maxDims bv).getD j 0 * bv.length = bv.length * (maxDims bv).getD j 0 :=
      Nat.mul_comm _ _
    omega
  · intro j sb hj
    rw [(createSubBatches_getElem? pad padMask bv j sb hj).1]
    simp [SubBatch.create]

/-- Witness of C12: two samples with two streams each. -/
theorem toBatch_index_safety_witness :
    (maxDims sampleBatch).length = 2 ∧ (buildBatch 0 0 sampleBatch).isSome = true :=
  ⟨(toBatch_index_safety 0 0 sampleBatch 2 (by simp [sampleBatch])
      (by simp [sampleBatch])).1,
    Option.isSome_iff_exists.mpr
      (toBatch_index_safety 0 0 sampleBatch 2 (by simp [sampleBatch])
        (by simp [sampleBatch])).2.2.2.1⟩

/-- C13: layout and word count of `toBatch`.  When all samples have `m` streams the
batch is built, and for every sub-batch `j`: the indices array holds
`batchVector[i][j][k]` at position `k * batchSize + i` and the mask holds 1 there;
every other position keeps the initial value of both arrays; distinct pairs `(i, k)`
are written to distinct positions; and the word count set on the sub-batch is the sum
of the lengths of stream `j` over the samples, which is the number of positions
written. -/
theorem toBatch_layout (pad : Word) (padMask : ℚ) (bv : List SentenceTuple) (m : Nat)
    (hm : ∀ ex ∈ bv, ex.tuple.length = m) :
    ∃ batch, buildBatch pad padMask bv = some batch ∧
      (bv ≠ [] → batch.subBatches.length = m) ∧
      ∀ j sb, batch.subBatches[j]? = some sb →
        (∀ i k, i < bv.length → k < (stream bv i j).length →
          sb.indices.getD (k * bv.length + i) pad = (stream bv i j).getD k pad ∧
            sb.mask.getD (k * bv.length + i) padMask = 1) ∧
        (∀ p, (∀ i k, i < bv.length → k < (stream bv i j).length → p ≠ k * bv.length + i) →
          sb.indices.getD p pad = pad ∧ sb.mask.getD p padMask = padMask) ∧
        (∀ i k i1 k1, i < bv.length → i1 < bv.length →
          k * bv.length + i = k1 * bv.length + i1 → i = i1 ∧ k = k1) ∧
        sb.words = (bv.map fun ex => (ex.tuple.getD j []).length).sum ∧
        (((Finset.range bv.length).sigma fun i => Finset.range (stream bv i j).length).image
          fun x => x.2 * bv.length + x.1).card = sb.words := by
  obtain ⟨batch, hb⟩ := buildBatch_isSome pad padMask bv m hm
  obtain ⟨_, _, _, h4, h5⟩ := buildBatch_some pad padMask bv batch hb
  refine ⟨batch, hb, fun hne => by rw [h4, maxDims_length_of_equal bv m hne hm], ?_⟩
  intro j sb hj
  obtain ⟨_, _, _, _, c5, c6, c7⟩ := h5 j sb hj
  refine ⟨?_, ?_, ?_, c5, ?_⟩
  · intro i k hi hk
    have hmod := strided_mod bv.length i k hi
    have hdiv := strided_div bv.length i k hi
    have hcond : (k * bv.length + i) % bv.length < bv.length ∧
        (k * bv.length + i) / bv.length <
          (stream bv ((k * bv.length + i) % bv.length) j).length := by
      rw [hmod, hdiv]
      exact ⟨hi, hk⟩
    constructor
    · rw [c6, if_pos hcond, hmod, hdiv]
    · rw [c7, if_pos hcond]
  · intro p hp
    have hcond : ¬ (p % bv.length < bv.length ∧
        p / bv.length < (stream bv (p % bv.length) j).length) := by
      intro hc
      apply hp (p % bv.length) (p / bv.length) hc.1 hc.2
      have := Nat.div_add_mod p bv.length
      rw [Nat.mul_comm] at this
      exact this.symm
    constructor
    · rw [c6, if_neg hcond]
    · rw [c7, if_neg hcond]
  · intro i k i1 k1 hi hi1 h
    exact strided_injective bv.length i k i1 k1 hi hi1 h
  · rw [written_positions_card, c5, sum_stream_lengths]

/-- Witness of C13: the batch of the two samples is built with two sub-batches. -/
theorem toBatch_layout_witness :
    ∃ batch, buildBatch 0 0 sampleBatch = some batch ∧ batch.subBatches.length = 2 :=
  (toBatch_layout 0 0 sampleBatch 2 (by simp [sampleBatch])).imp
    (fun _ h => ⟨h.1, h.2.1 (by simp [sampleBatch])⟩)

/-- C14: shape of the result of `toBatch`.  For every `batchVector` the number of
sub-batches created is the maximum number of streams over its samples (0 when it is
empty); sub-batch `j` is created with batch size `batchVector.size()` and with width
the maximum length of stream `j` over the samples that have a stream `j`; whenever
`toBatch` returns a batch, the batch has these sub-batch shapes and its sentence ids
are the ids of the samples in input order; and it does return one when all samples have
the same number of streams and neither alignments nor weights are requested. -/
theorem toBatch_shape (options : Config) (pad : Word) (padMask : ℚ)
    (bv : List SentenceTuple) :
    (createSubBatches pad padMask bv).length =
        (bv.map fun ex => ex.tuple.length).foldr max 0 ∧
      (createSubBatches pad padMask ([] : List SentenceTuple)).length = 0 ∧
      (∀ (j : Nat) (sb : SubBatch), (createSubBatches pad padMask bv)[j]? = some sb →
        sb.size = bv.length ∧
          sb.batchWidth =
            ((bv.filterMap fun ex => ex.tuple[j]?).map List.length).foldr max 0) ∧
      (∀ batch, toBatch options pad padMask bv = some batch →
        batch.subBatches.length = (bv.map fun ex => ex.tuple.length).foldr max 0 ∧
          (∀ (j : Nat) (sb : SubBatch), batch.subBatches[j]? = some sb →
            sb.size = bv.length ∧
              sb.batchWidth =
                ((bv.filterMap fun ex => ex.tuple[j]?).map List.length).foldr max 0) ∧
          batch.sentenceIds = bv.map fun ex => ex.id) ∧
      ∀ m, (∀ ex ∈ bv, ex.tuple.length = m) → options.guidedAlignment = false →
        options.dataWeighting = false →
        ∃ batch, toBatch options pad padMask bv = some batch := by
  refine ⟨by simp [createSubBatches, maxDims_length], rfl, ?_, ?_, ?_⟩
  · intro j sb hj
    rw [(createSubBatches_getElem? pad padMask bv j sb hj).1, ← maxDims_getD]
    exact ⟨rfl, rfl⟩
  · intro batch hb
    obtain ⟨b0, h0, h1, h2⟩ := toBatch_some options pad padMask bv batch hb
    obtain ⟨a1, _, _, a4, a5⟩ := buildBatch_some pad padMask bv b0 h0
    refine ⟨by rw [h1, a4, maxDims_length], ?_, by rw [h2, a1]; rfl⟩
    intro j sb hj
    rw [h1] at hj
    obtain ⟨c1, c2, _⟩ := a5 j sb hj
    exact ⟨c1, by rw [← maxDims_getD]; exact c2⟩
  · intro m hm hga hdw
    obtain ⟨batch, hb⟩ := buildBatch_isSome pad padMask bv m hm
    exact ⟨batch, by simp [toBatch, hb, hga, hdw]⟩

/-- Witness of C14: the batch of the two samples has two sub-batches and the sentence
ids 10 and 11. -/
theorem toBatch_shape_witness :
    ∃ batch, toBatch ⟨false, false, ""⟩ 0 0 sampleBatch = some batch ∧
      batch.subBatches.length = 2 ∧ batch.sentenceIds = [10, 11] :=
  ((toBatch_shape ⟨false, false, ""⟩ 0 0 sampleBatch).2.2.2.2 2 (by simp [sampleBatch])
      rfl rfl).imp
    (fun batch hb =>
      ⟨hb, ((toBatch_shape ⟨false, false, ""⟩ 0 0 sampleBatch).2.2.2.1 batch hb).1,
        ((toBatch_shape ⟨false, false, ""⟩ 0 0 sampleBatch).2.2.2.1 batch hb).2.2⟩)

end Corpus

end data

namespace data

namespace Corpus

/-! ## The guided-alignment matrix -/

theorem alignIndex_eq (D S b sid tid : Nat) :
    alignIndex D S b sid tid = (tid * S + sid) * D + b := by
  unfold alignIndex
  ring

theorem alignIndex_lt (D S T b sid tid : Nat) (hb : b < D) (hs : sid < S) (ht : tid < T) :
    alignIndex D S b sid tid < D * S * T := by
  rw [alignIndex_eq]
  have h1 : tid * S + sid + 1 ≤ T * S := by
    have : (tid + 1) * S ≤ T * S := Nat.mul_le_mul_right _ ht
    have h2 : (tid + 1) * S = tid * S + S := by ring
    omega
  have h3 : (tid * S + sid + 1) * D ≤ T * S * D := Nat.mul_le_mul_right _ h1
  have h4 : (tid * S + sid + 1) * D = (tid * S + sid) * D + D := by ring
  have h5 : T * S * D = D * S * T := by ring
  omega

theorem alignIndex_injective (D S b sid tid b1 sid1 tid1 : Nat) (hb : b < D) (hs : sid < S)
    (hb1 : b1 < D) (hs1 : sid1 < S)
    (h : alignIndex D S b sid tid = alignIndex D S b1 sid1 tid1) :
    b = b1 ∧ sid = sid1 ∧ tid = tid1 := by
  rw [alignIndex_eq, alignIndex_eq] at h
  obtain ⟨h1, h2⟩ := strided_injective D b (tid * S + sid) b1 (tid1 * S + sid1) hb hb1 h
  obtain ⟨h3, h4⟩ := strided_injective S sid tid sid1 tid1 hs hs1 h2
  exact ⟨h1, h3, h4⟩

theorem alignmentOf_of_getElem (bv : List SentenceTuple) (b : Nat) (ex : SentenceTuple)
    (h : bv[b]? = some ex) : alignmentOf bv b = ex.alignment := by
  simp [alignmentOf, h]

theorem markAlignment_spec (D S b : Nat) (ps : List (Nat × Nat)) :
    ∀ (a a1 : List ℚ), markAlignment D S b ps a = some a1 →
      a1.length = a.length ∧
        ∀ p, a1.getD p 0 =
          if ∃ pt ∈ ps, alignIndex D S b pt.1 pt.2 = p then 1 else a.getD p 0 := by
  induction ps with
  | nil =>
    intro a a1 h
    simp only [markAlignment, Option.some.injEq] at h
    subst h
    exact ⟨rfl, fun p => by simp⟩
  | cons pt ps ih =>
    intro a a1 h
    simp only [markAlignment] at h
    split at h
    · rename_i hlt
      obtain ⟨h1, h2⟩ := ih _ a1 h
      refine ⟨by rw [h1, List.length_set], ?_⟩
      intro p
      rw [h2 p, getD_set]
      by_cases hps : ∃ q ∈ ps, alignIndex D S b q.1 q.2 = p
      · have : ∃ q ∈ pt :: ps, alignIndex D S b q.1 q.2 = p := by
          obtain ⟨q, hq, he⟩ := hps
          exact ⟨q, List.mem_cons_of_mem _ hq, he⟩
        rw [if_pos hps, if_pos this]
      · rw [if_neg hps]
        by_cases hpt : alignIndex D S b pt.1 pt.2 = p
        · have : ∃ q ∈ pt :: ps, alignIndex D S b q.1 q.2 = p :=
            ⟨pt, List.mem_cons_self _ _, hpt⟩
          rw [if_pos ⟨hpt, hlt⟩, if_pos this]
        · have : ¬ ∃ q ∈ pt :: ps, alignIndex D S b q.1 q.2 = p := by
            rintro ⟨q, hq, he⟩
            rcases List.mem_cons.mp hq with hq | hq
            · exact hpt (by rw [← hq]; exact he)
            · exact hps ⟨q, hq, he⟩
          rw [if_neg (fun hc => hpt hc.1), if_neg this]
    · exact absurd h (by simp)

theorem markAlignment_isSome (D S b : Nat) (ps : List (Nat × Nat)) :
    ∀ a : List ℚ, (∀ pt ∈ ps, alignIndex D S b pt.1 pt.2 < a.length) →
      ∃ a1, markAlignment D S b ps a = some a1 := by
  induction ps with
  | nil => intro a _; exact ⟨a, rfl⟩
  | cons pt ps ih =>
    intro a h
    have hlt := h pt (List.mem_cons_self _ _)
    simp only [markAlignment, if_pos hlt]
    apply ih
    intro q hq
    rw [List.length_set]
    exact h q (List.mem_cons_of_mem _ hq)

theorem alignmentLoop_spec (D S : Nat) (bv : List SentenceTuple) (bs : List Nat) :
    ∀ (a a1 : List ℚ), alignmentLoop D S bv bs a = some a1 →
      a1.length = a.length ∧
        ∀ p, a1.getD p 0 =
          if ∃ b ∈ bs, ∃ pt ∈ alignmentOf bv b, alignIndex D S b pt.1 pt.2 = p then 1
          else a.getD p 0 := by
  induction bs with
  | nil =>
    intro a a1 h
    simp only [alignmentLoop, Option.some.injEq] at h
    subst h
    exact ⟨rfl, fun p => by simp⟩
  | cons b bs ih =>
    intro a a2 h
    simp only [alignmentLoop] at h
    split at h
    · exact absurd h (by simp)
    · rename_i ex hex
      split at h
      · exact absurd h (by simp)
      · rename_i a1 ha1
        obtain ⟨h1, h2⟩ := markAlignment_spec D S b ex.alignment a a1 ha1
        obtain ⟨k1, k2⟩ := ih a1 a2 h
        have hal := alignmentOf_of_getElem bv b ex hex
        refine ⟨by rw [k1, h1], ?_⟩
        intro p
        rw [k2 p, h2 p]
        by_cases hbs : ∃ b1 ∈ bs, ∃ pt ∈ alignmentOf bv b1, alignIndex D S b1 pt.1 pt.2 = p
        · have : ∃ b1 ∈ b :: bs, ∃ pt ∈ alignmentOf bv b1,
              alignIndex D S b1 pt.1 pt.2 = p := by
            obtain ⟨b1, hb1, he⟩ := hbs
            exact ⟨b1, List.mem_cons_of_mem _ hb1, he⟩
          rw [if_pos hbs, if_pos this]
        · rw [if_neg hbs]
          by_cases hb : ∃ pt ∈ ex.alignment, alignIndex D S b pt.1 pt.2 = p
          · have : ∃ b1 ∈ b :: bs, ∃ pt ∈ alignmentOf bv b1,
                alignIndex D S b1 pt.1 pt.2 = p :=
              ⟨b, List.mem_cons_self _ _, by rw [hal]; exact hb⟩
            rw [if_pos hb, if_pos this]
          · have : ¬ ∃ b1 ∈ b :: bs, ∃ pt ∈ alignmentOf bv b1,
                alignIndex D S b1 pt.1 pt.2 = p := by
              rintro ⟨b1, hb1, he⟩
              rcases List.mem_cons.mp hb1 with hb1 | hb1
              · subst hb1
                rw [hal] at he
                exact hb he
              · exact hbs ⟨b1, hb1, he⟩
            rw [if_neg hb, if_neg this]

theorem alignmentLoop_isSome (D S : Nat) (bv : List SentenceTuple) (bs : List Nat) :
    ∀ a : List ℚ, (∀ b ∈ bs, ∃ ex, bv[b]? = some ex) →
      (∀ b ∈ bs, ∀ pt ∈ alignmentOf bv b, alignIndex D S b pt.1 pt.2 < a.length) →
      ∃ a1, alignmentLoop D S bv bs a = some a1 := by
  induction bs with
  | nil => intro a _ _; exact ⟨a, rfl⟩
  | cons b bs ih =>
    intro a hex hlt
    obtain ⟨ex, he⟩ := hex b (List.mem_cons_self _ _)
    have hal := alignmentOf_of_getElem bv b ex he
    obtain ⟨a1, h1⟩ := markAlignment_isSome D S b ex.alignment a (by
      rw [← hal]
      exact hlt b (List.mem_cons_self _ _))
    obtain ⟨k1, _⟩ := markAlignment_spec D S b ex.alignment a a1 h1
    obtain ⟨a2, h2⟩ := ih a1 (fun b1 hb1 => hex b1 (List.mem_cons_of_mem _ hb1))
      (fun b1 hb1 pt hpt => by rw [k1]; exact hlt b1 (List.mem_cons_of_mem _ hb1) pt hpt)
    exact ⟨a2, by simp only [alignmentLoop, he, h1, h2]⟩

/-- C15 (as stated) fails: one sentence with two source and two target words and the
alignment point `(2, 0)`, which lies outside the source width 2.  The matrix has
`1 * 2 * 2` entries and its entry for `(sid, tid) = (0, 1)`, at index 2, is 1 although
`(0, 1)` is not an alignment point of the sentence. -/
theorem stray_alignment_marks_other_entry :
    (buildBatch 0 0 strayAlignment).map (fun batch => batch.subBatches.map SubBatch.batchWidth) =
        some [2, 2] ∧
      ((buildBatch 0 0 strayAlignment).bind fun batch =>
        (addAlignmentsToBatch batch strayAlignment).map fun out => out.guidedAlignment) =
        some [0, 0, 1, 0] ∧
      alignIndex 1 2 0 0 1 = 2 ∧ alignIndex 1 2 0 2 0 = 2 ∧
      alignmentOf strayAlignment 0 = [(2, 0)] ∧
      ((0, 1) : Nat × Nat) ∉ alignmentOf strayAlignment 0 := by
  decide!

/-- C15 (amended): guided-alignment matrix of `addAlignmentsToBatch`.  With `dimBatch`
sentences, source width `srcWords` and target width `trgWords`, the index map
`(b, sid, tid) -> b + sid * dimBatch + tid * srcWords * dimBatch` is in bounds and
injective for `b < dimBatch`, `sid < srcWords`, `tid < trgWords`; and when every
alignment point of every sentence lies inside these widths, the result has
`dimBatch * srcWords * trgWords` entries and an entry is 1 exactly when its
`(sid, tid)` is an alignment point of sentence `b`, and 0 otherwise. -/
theorem guided_alignment_matrix (batch : CorpusBatch) (bv : List SentenceTuple)
    (front back : SubBatch)
    (hfront : batch.subBatches.head? = some front)
    (hback : batch.subBatches.getLast? = some back)
    (hD : batch.sentenceIds.length = bv.length)
    (hpts : ∀ ex ∈ bv, ∀ pt ∈ ex.alignment,
      pt.1 < front.batchWidth ∧ pt.2 < back.batchWidth) :
    (∀ b sid tid, b < bv.length → sid < front.batchWidth → tid < back.batchWidth →
        alignIndex bv.length front.batchWidth b sid tid <
          bv.length * front.batchWidth * back.batchWidth) ∧
      (∀ b sid tid b1 sid1 tid1, b < bv.length → sid < front.batchWidth →
        b1 < bv.length → sid1 < front.batchWidth →
        alignIndex bv.length front.batchWidth b sid tid =
          alignIndex bv.length front.batchWidth b1 sid1 tid1 →
        b = b1 ∧ sid = sid1 ∧ tid = tid1) ∧
      ∃ out, addAlignmentsToBatch batch bv = some out ∧
        out.guidedAlignment.length = bv.length * front.batchWidth * back.batchWidth ∧
        ∀ b sid tid, b < bv.length → sid < front.batchWidth → tid < back.batchWidth →
          out.guidedAlignment.getD (alignIndex bv.length front.batchWidth b sid tid) 0 =
            if (sid, tid) ∈ alignmentOf bv b then 1 else 0 := by
  have hin : ∀ b ∈ List.range bv.length, ∀ pt ∈ alignmentOf bv b,
      pt.1 < front.batchWidth ∧ pt.2 < back.batchWidth := by
    intro b hb pt hpt
    have hlt : b < bv.length := List.mem_range.mp hb
    rw [alignmentOf_of_getElem bv b bv[b] (List.getElem?_eq_getElem hlt)] at hpt
    exact hpts bv[b] (List.getElem_mem hlt) pt hpt
  obtain ⟨a1, h1⟩ := alignmentLoop_isSome bv.length front.batchWidth bv (List.range bv.length)
    (List.replicate (bv.length * front.batchWidth * back.batchWidth) 0)
    (fun b hb => by
      have hlt : b < bv.length := List.mem_range.mp hb
      exact ⟨bv[b], List.getElem?_eq_getElem hlt⟩)
    (by
      intro b hb pt hpt
      rw [List.length_replicate]
      exact alignIndex_lt _ _ _ _ _ _ (List.mem_range.mp hb) (hin b hb pt hpt).1
        (hin b hb pt hpt).2)
  obtain ⟨k1, k2⟩ := alignmentLoop_spec _ _ _ _ _ a1 h1
  refine ⟨fun b sid tid hb hs ht => alignIndex_lt _ _ _ _ _ _ hb hs ht,
    fun b sid tid b1 sid1 tid1 hb hs hb1 hs1 h =>
      alignIndex_injective _ _ _ _ _ _ _ _ hb hs hb1 hs1 h,
    ⟨{ batch with guidedAlignment := a1 }, ?_, ?_, ?_⟩⟩
  · simp only [addAlignmentsToBatch, hfront, hback, hD, h1]
  · show a1.length = _
    rw [k1, List.length_replicate]
  · intro b sid tid hb hs _
    show a1.getD _ 0 = _
    rw [k2, getD_replicate_self]
    by_cases hmem : (sid, tid) ∈ alignmentOf bv b
    · have : ∃ b1 ∈ List.range bv.length, ∃ pt ∈ alignmentOf bv b1,
          alignIndex bv.length front.batchWidth b1 pt.1 pt.2 =
            alignIndex bv.length front.batchWidth b sid tid :=
        ⟨b, List.mem_range.mpr hb, (sid, tid), hmem, rfl⟩
      rw [if_pos this, if_pos hmem]
    · have : ¬ ∃ b1 ∈ List.range bv.length, ∃ pt ∈ alignmentOf bv b1,
          alignIndex bv.length front.batchWidth b1 pt.1 pt.2 =
            alignIndex bv.length front.batchWidth b sid tid := by
        rintro ⟨b1, hb1, pt, hpt, he⟩
        obtain ⟨e1, e2, e3⟩ := alignIndex_injective _ _ _ _ _ _ _ _
          (List.mem_range.mp hb1) (hin b1 hb1 pt hpt).1 hb hs he
        apply hmem
        rw [← e1, ← e2, ← e3]
        exact hpt
      rw [if_neg this, if_neg hmem]

theorem guided_alignment_matrix_witness :
    buildBatch 0 0 sampleBatch = some sampleCorpusBatch ∧
      ∃ out, addAlignmentsToBatch sampleCorpusBatch sampleBatch = some out ∧
        out.guidedAlignment.length = 18 ∧
        out.guidedAlignment.getD (alignIndex 2 3 0 2 1) 0 = 1 ∧
        out.guidedAlignment.getD (alignIndex 2 3 1 2 1) 0 = 0 :=
  ⟨by decide!,
    (guided_alignment_matrix sampleCorpusBatch sampleBatch sampleFront sampleBack
      (by decide!) (by decide!) (by decide!) (by decide)).2.2.imp
      (fun _ h => ⟨h.1, h.2.1,
        (h.2.2 0 2 1 (by decide) (by decide) (by decide)).trans (by decide!),
        (h.2.2 1 2 1 (by decide) (by decide) (by decide)).trans (by decide!)⟩)⟩

end Corpus

end data

namespace data

namespace Corpus

/-! ## The data-weight vector -/

theorem weightsOf_of_getElem (bv : List SentenceTuple) (b : Nat) (ex : SentenceTuple)
    (h : bv[b]? = some ex) : weightsOf bv b = ex.weights := by
  simp [weightsOf, h]

theorem storeWeights_eq (D b : Nat) (ws : List ℚ) :
    ∀ (i : Nat) (xs : List ℚ), storeWeights D b ws i xs = stridedStore D b ws i xs := by
  induction ws with
  | nil => intro i xs; rfl
  | cons w ws ih =>
    intro i xs
    simp only [storeWeights, stridedStore, Nat.add_comm b (i * D), ih]

theorem weightsLoop_word_spec (D : Nat) (bv : List SentenceTuple) (bs : List Nat) :
    ∀ (xs ys : List ℚ), weightsLoop false D bv bs xs = some ys → (∀ b ∈ bs, b < D) →
      ys.length = xs.length ∧
        ∀ p d, ys.getD p d =
          if p % D ∈ bs ∧ p / D < (weightsOf bv (p % D)).length then
            (weightsOf bv (p % D)).getD (p / D) d
          else xs.getD p d := by
  induction bs with
  | nil =>
    intro xs ys h _
    simp only [weightsLoop, Option.some.injEq] at h
    subst h
    exact ⟨rfl, fun p d => by simp⟩
  | cons b bs ih =>
    intro xs zs h hlt
    simp only [weightsLoop] at h
    split at h
    · exact absurd h (by simp)
    · rename_i ex hex
      simp only [Bool.false_eq_true, if_false] at h
      split at h
      · exact absurd h (by simp)
      · rename_i ys hys
        rw [storeWeights_eq] at hys
        have hb : b < D := hlt b (List.mem_cons_self _ _)
        have hw := weightsOf_of_getElem bv b ex hex
        obtain ⟨k1, k2⟩ := ih ys zs h (fun b1 hb1 => hlt b1 (List.mem_cons_of_mem _ hb1))
        refine ⟨by rw [k1, stridedStore_length D b ex.weights 0 xs ys hys], ?_⟩
        refine getD_combine D b bs (weightsOf bv) xs ys zs ?_ k2
        rw [hw]
        exact stridedStore_getD D b hb ex.weights 0 xs ys hys

theorem weightsLoop_word_isSome (D : Nat) (bv : List SentenceTuple) (bs : List Nat) :
    ∀ xs : List ℚ, (∀ b ∈ bs, b < D) → (∀ b ∈ bs, ∃ ex, bv[b]? = some ex) →
      (∀ b ∈ bs, (weightsOf bv b).length * D ≤ xs.length) →
      ∃ ys, weightsLoop false D bv bs xs = some ys := by
  induction bs with
  | nil => intro xs _ _ _; exact ⟨xs, rfl⟩
  | cons b bs ih =>
    intro xs hlt hex hfit
    obtain ⟨ex, he⟩ := hex b (List.mem_cons_self _ _)
    have hw := weightsOf_of_getElem bv b ex he
    have hb : b < D := hlt b (List.mem_cons_self _ _)
    obtain ⟨ys, hys⟩ := stridedStore_isSome D b hb ex.weights 0 xs (by
      rw [Nat.zero_add, ← hw]
      exact hfit b (List.mem_cons_self _ _))
    have hl := stridedStore_length D b ex.weights 0 xs ys hys
    obtain ⟨zs, hzs⟩ := ih ys (fun b1 hb1 => hlt b1 (List.mem_cons_of_mem _ hb1))
      (fun b1 hb1 => hex b1 (List.mem_cons_of_mem _ hb1))
      (fun b1 hb1 => by rw [hl]; exact hfit b1 (List.mem_cons_of_mem _ hb1))
    refine ⟨zs, ?_⟩
    simp only [weightsLoop, he, Bool.false_eq_true, if_false, storeWeights_eq, hys, hzs]

theorem weightsLoop_sentence_spec (D : Nat) (bv : List SentenceTuple) (bs : List Nat) :
    ∀ (xs ys : List ℚ), weightsLoop true D bv bs xs = some ys →
      ys.length = xs.length ∧
        ∀ p d, ys.getD p d =
          if p ∈ bs then (weightsOf bv p).getD 0 d else xs.getD p d := by
  induction bs with
  | nil =>
    intro xs ys h
    simp only [weightsLoop, Option.some.injEq] at h
    subst h
    exact ⟨rfl, fun p d => by simp⟩
  | cons b bs ih =>
    intro xs zs h
    simp only [weightsLoop] at h
    split at h
    · exact absurd h (by simp)
    · rename_i ex hex
      simp only [if_true] at h
      split at h
      · exact absurd h (by simp)
      · rename_i w hw
        split at h
        · rename_i hlt
          obtain ⟨k1, k2⟩ := ih _ zs h
          have hwb : (weightsOf bv b).getD 0 = fun _ => w := by
            funext d
            rw [weightsOf_of_getElem bv b ex hex]
            cases hws : ex.weights with
            | nil => rw [hws] at hw; exact absurd hw (by simp)
            | cons v vs =>
              rw [hws] at hw
              simp only [List.head?_cons, Option.some.injEq] at hw
              simp [hw]
          refine ⟨by rw [k1, List.length_set], ?_⟩
          intro p d
          rw [k2 p d, getD_set]
          by_cases hp : p ∈ bs
          · rw [if_pos hp, if_pos (List.mem_cons_of_mem _ hp)]
          · rw [if_neg hp]
            by_cases hbp : b = p
            · subst hbp
              rw [if_pos ⟨rfl, hlt⟩, if_pos (List.mem_cons_self _ _), hwb]
            · have : p ∉ b :: bs := by
                intro hc
                rcases List.mem_cons.mp hc with hc | hc
                · exact hbp hc.symm
                · exact hp hc
              rw [if_neg (fun hc => hbp hc.1), if_neg this]
        · exact absurd h (by simp)

theorem weightsLoop_sentence_isSome (D : Nat) (bv : List SentenceTuple) (bs : List Nat) :
    ∀ xs : List ℚ, (∀ b ∈ bs, b < xs.length) →
      (∀ b ∈ bs, ∃ ex, bv[b]? = some ex ∧ ex.weights ≠ []) →
      ∃ ys, weightsLoop true D bv bs xs = some ys := by
  induction bs with
  | nil => intro xs _ _; exact ⟨xs, rfl⟩
  | cons b bs ih =>
    intro xs hlt hex
    obtain ⟨ex, he, hne⟩ := hex b (List.mem_cons_self _ _)
    have hb : b < xs.length := hlt b (List.mem_cons_self _ _)
    obtain ⟨w, hw⟩ : ∃ w, ex.weights.head? = some w := by
      cases hws : ex.weights with
      | nil => exact absurd hws hne
      | cons v vs => exact ⟨v, rfl⟩
    obtain ⟨zs, hzs⟩ := ih (xs.set b w)
      (fun b1 hb1 => by rw [List.length_set]; exact hlt b1 (List.mem_cons_of_mem _ hb1))
      (fun b1 hb1 => hex b1 (List.mem_cons_of_mem _ hb1))
    refine ⟨zs, ?_⟩
    simp only [weightsLoop, he, if_true, hw, if_pos hb, hzs]

theorem weightsLoop_sentence_none (D : Nat) (bv : List SentenceTuple) (bs : List Nat) :
    ∀ xs : List ℚ, (∃ b ∈ bs, ∃ ex, bv[b]? = some ex ∧ ex.weights = []) →
      weightsLoop true D bv bs xs = none := by
  induction bs with
  | nil =>
    rintro xs ⟨b, hb, _⟩
    exact absurd hb (List.not_mem_nil b)
  | cons b bs ih =>
    rintro xs ⟨b1, hb1, ex1, he1, hw1⟩
    simp only [weightsLoop]
    split
    · rfl
    · rename_i ex hex
      simp only [if_true]
      split
      · rfl
      · rename_i w hw
        split
        · rcases List.mem_cons.mp hb1 with hb1 | hb1
          · subst hb1
            rw [he1] at hex
            simp only [Option.some.injEq] at hex
            subst hex
            rw [hw1] at hw
            exact absurd hw (by simp)
          · exact ih _ ⟨b1, hb1, ex1, he1, hw1⟩
        · rfl

/-- C16: data-weight vector of `addWeightsToBatch`, for a batch of `dimBatch` sentences
whose last sub-batch has width `trgWords`.  In sentence-level mode, when every sample
has at least one weight, the result has `dimBatch` entries and entry `b` is the first
weight of sample `b`; a sample without weights makes the code read the first element
of an empty vector.  In word-level mode, when each sample has at most `trgWords`
weights, the result has `dimBatch * trgWords` entries, every write is in bounds, the
`i`-th weight of sample `b` is stored at `b + i * dimBatch`, and every position not
covered by a weight is 1. -/
theorem data_weights_vector (options : Config) (batch : CorpusBatch)
    (bv : List SentenceTuple) (back : SubBatch)
    (hback : batch.subBatches.getLast? = some back)
    (hD : batch.sentenceIds.length = bv.length) :
    (options.dataWeightingType = "sentence" → (∀ ex ∈ bv, ex.weights ≠ []) →
        ∃ out, addWeightsToBatch options batch bv = some out ∧
          out.dataWeights.length = bv.length ∧
          ∀ b, b < bv.length →
            (weightsOf bv b).head? = some (out.dataWeights.getD b 1)) ∧
      (options.dataWeightingType = "sentence" → (∃ ex ∈ bv, ex.weights = []) →
        addWeightsToBatch options batch bv = none) ∧
      (options.dataWeightingType ≠ "sentence" →
        (∀ ex ∈ bv, ex.weights.length ≤ back.batchWidth) →
        ∃ out, addWeightsToBatch options batch bv = some out ∧
          out.dataWeights.length = bv.length * back.batchWidth ∧
          (∀ b i, b < bv.length → i < (weightsOf bv b).length →
            b + i * bv.length < bv.length * back.batchWidth ∧
              (weightsOf bv b)[i]? = some (out.dataWeights.getD (b + i * bv.length) 1)) ∧
          ∀ p, (∀ b i, b < bv.length → i < (weightsOf bv b).length →
              p ≠ b + i * bv.length) →
            out.dataWeights.getD p 1 = 1) := by
  have hget : ∀ b ∈ List.range bv.length, ∃ ex, bv[b]? = some ex ∧ ex ∈ bv := by
    intro b hb
    have hlt : b < bv.length := List.mem_range.mp hb
    exact ⟨bv[b], List.getElem?_eq_getElem hlt, List.getElem_mem hlt⟩
  constructor
  · intro hmode hne
    have hbeq : (options.dataWeightingType == "sentence") = true := by
      rw [hmode]
      rfl
    obtain ⟨ys, hys⟩ := weightsLoop_sentence_isSome bv.length bv (List.range bv.length)
      (List.replicate bv.length 1)
      (fun b hb => by rw [List.length_replicate]; exact List.mem_range.mp hb)
      (fun b hb => by
        obtain ⟨ex, he, hmem⟩ := hget b hb
        exact ⟨ex, he, hne ex hmem⟩)
    obtain ⟨k1, k2⟩ := weightsLoop_sentence_spec _ _ _ _ ys hys
    refine ⟨{ batch with dataWeights := ys }, ?_, ?_, ?_⟩
    · simp only [addWeightsToBatch, hback, hD, hbeq, if_true, hys]
    · show ys.length = _
      rw [k1, List.length_replicate]
    · intro b hb
      show _ = some (ys.getD b 1)
      rw [k2 b 1, if_pos (List.mem_range.mpr hb)]
      obtain ⟨ex, he, hmem⟩ := hget b (List.mem_range.mpr hb)
      rw [weightsOf_of_getElem bv b ex he]
      cases hws : ex.weights with
      | nil => exact absurd hws (hne ex hmem)
      | cons v vs => rfl
  constructor
  · rintro hmode ⟨ex, hmem, hw⟩
    have hbeq : (options.dataWeightingType == "sentence") = true := by
      rw [hmode]
      rfl
    obtain ⟨b, hb, he⟩ := List.getElem_of_mem hmem
    have hnone := weightsLoop_sentence_none bv.length bv (List.range bv.length)
      (List.replicate bv.length 1)
      ⟨b, List.mem_range.mpr hb, ex, by rw [List.getElem?_eq_getElem hb, he], hw⟩
    simp only [addWeightsToBatch, hback, hD, hbeq, if_true, hnone]
  · intro hmode hle
    have hbeq : (options.dataWeightingType == "sentence") = false := by
      cases hc : (options.dataWeightingType == "sentence") with
      | false => rfl
      | true => exact absurd (beq_iff_eq.mp hc) hmode
    have hwle : ∀ b, b < bv.length → (weightsOf bv b).length ≤ back.batchWidth := by
      intro b hb
      obtain ⟨ex, he, hmem⟩ := hget b (List.mem_range.mpr hb)
      rw [weightsOf_of_getElem bv b ex he]
      exact hle ex hmem
    obtain ⟨ys, hys⟩ := weightsLoop_word_isSome bv.length bv (List.range bv.length)
      (List.replicate (bv.length * back.batchWidth) 1)
      (fun b hb => List.mem_range.mp hb)
      (fun b hb => by
        obtain ⟨ex, he, _⟩ := hget b hb
        exact ⟨ex, he⟩)
      (fun b hb => by
        rw [List.length_replicate, Nat.mul_comm bv.length]
        exact Nat.mul_le_mul_right _ (hwle b (List.mem_range.mp hb)))
    obtain ⟨k1, k2⟩ := weightsLoop_word_spec _ _ _ _ ys hys
      (fun b hb => List.mem_range.mp hb)
    refine ⟨{ batch with dataWeights := ys }, ?_, ?_, ?_, ?_⟩
    · simp only [addWeightsToBatch, hback, hD, hbeq, Bool.false_eq_true, if_false, hys]
    · show ys.length = _
      rw [k1, List.length_replicate]
    · intro b i hb hi
      have hidx : b + i * bv.length = i * bv.length + b := Nat.add_comm _ _
      have hmod : (b + i * bv.length) % bv.length = b := by
        rw [hidx]
        exact strided_mod _ _ _ hb
      have hdiv : (b + i * bv.length) / bv.length = i := by
        rw [hidx]
        exact strided_div _ _ _ hb
      constructor
      · have h1 : (i + 1) * bv.length ≤ back.batchWidth * bv.length :=
          Nat.mul_le_mul_right _ (Nat.lt_of_lt_of_le hi (hwle b hb))
        have h2 : (i + 1) * bv.length = i * bv.length + bv.length := by ring
        have h3 : back.batchWidth * bv.length = bv.length * back.batchWidth :=
          Nat.mul_comm _ _
        omega
      · show _ = some (ys.getD _ 1)
        rw [k2, hmod, hdiv, if_pos ⟨List.mem_range.mpr hb, hi⟩,
          List.getD_eq_getElem?_getD, List.getElem?_eq_getElem hi]
        rfl
    · intro p hp
      show ys.getD p 1 = 1
      rw [k2, if_neg, getD_replicate_self]
      rintro ⟨hm, hl⟩
      have hlt : p % bv.length < bv.length := List.mem_range.mp hm
      apply hp (p % bv.length) (p / bv.length) hlt hl
      have := Nat.div_add_mod p bv.length
      rw [Nat.mul_comm] at this
      omega

theorem data_weights_vector_witness :
    (∃ out, addWeightsToBatch ⟨false, true, "sentence"⟩ sampleCorpusBatch sampleBatch =
        some out ∧ out.dataWeights.length = 2 ∧
        (weightsOf sampleBatch 1).head? = some (out.dataWeights.getD 1 1)) ∧
      ∃ out, addWeightsToBatch ⟨false, true, "word"⟩ sampleCorpusBatch sampleBatch =
        some out ∧ out.dataWeights.length = 6 ∧
        (weightsOf sampleBatch 1)[2]? = some (out.dataWeights.getD (1 + 2 * 2) 1) :=
  ⟨((data_weights_vector ⟨false, true, "sentence"⟩ sampleCorpusBatch sampleBatch sampleBack
      (by decide!) (by decide!)).1 (by decide) (by decide!)).imp
      (fun _ h => ⟨h.1, h.2.1, h.2.2 1 (by decide)⟩),
    ((data_weights_vector ⟨false, true, "word"⟩ sampleCorpusBatch sampleBatch sampleBack
      (by decide!) (by decide!)).2.2 (by decide) (by decide!)).imp
      (fun _ h => ⟨h.1, h.2.1, (h.2.2.1 1 2 (by decide) (by decide!)).2⟩)⟩

end Corpus

end data

end marian
